import Mathlib

/-!
Word-level Markov chain (`src/markov_chain.cpp`)

A shallow embedding of `MarkovChain::append` and `MarkovChain::nextWord`.

The class keeps its whole state in one `nlohmann::json` document `m_json` and the
cached order `m_order`.  The embedding keeps that representation: a JSON value type
with the operations the two methods use (`operator[]` on a mutable value, `find`,
`is_null`, `get<unsigned>`, iteration), explicit 32-bit and 64-bit wrap-around for the
`unsigned`, `uint32_t` and `size_t` arithmetic of the source (LP64: `unsigned` has 32
bits, `size_t` has 64), and an `Except` result for every path on which the C++ code
does not return normally (exception, `exit`, undefined behaviour, endless loop).
-/

namespace MarkovChain

/-! ## JSON values -/

/-- JSON values as far as a chain document uses them: `null`, unsigned numbers, a
representative non-numeric scalar (`str`) and objects.  An object is a `std::map`, so
its members are kept as a list ordered by key. -/
inductive Json where
  | null : Json
  | num (n : Nat) : Json
  | str (s : String) : Json
  | obj (members : List (String × Json)) : Json

/-- The members of a JSON object, in iteration order. -/
abbrev Members := List (String × Json)

/-- The ways in which `append` and `nextWord` can fail to return normally. -/
inductive Fault where
  /-- A `nlohmann::json` `type_error` exception (codes 302 and 305). -/
  | typeError : Fault
  /-- A `nlohmann::json` `invalid_iterator` exception (code 207). -/
  | invalidIterator : Fault
  /-- A `std::vector` element read past the end (undefined behaviour). -/
  | outOfRange : Fault
  /-- The remainder `randomValue % count` with `count = 0` (undefined behaviour). -/
  | divisionByZero : Fault
  /-- The `exit` of `nextWord` after the range check on the count (line 173). -/
  | invalidCount : Fault
  /-- The `exit` of `nextWord` after the cumulative scan (line 193). -/
  | impossible : Fault
  /-- The loop condition of `append` can never become false. -/
  | noReturn : Fault
  deriving DecidableEq

deriving instance DecidableEq for Except

/-- Lexicographic comparison of two character sequences by code point; this is the
order of `std::string::operator<` on the UTF-8 encodings. -/
def ltChars : List Char → List Char → Bool
  | _, [] => false
  | [], _ :: _ => true
  | a :: as, b :: bs =>
    if a.toNat < b.toNat then true
    else if a.toNat = b.toNat then ltChars as bs
    else false

/-- The key order of `std::map<std::string, json>`. -/
def keyLt (a b : String) : Bool := ltChars a.data b.data

/-- Lookup of a key among the members of an object. -/
def find (k : String) : Members → Option Json
  | [] => none
  | (k1, v) :: rest => if k1 = k then some v else find k rest

/-- Assignment `m[k] = v` on a `std::map`: the value of an existing key is replaced,
a new key is inserted at its place in the key order. -/
def insert (k : String) (v : Json) : Members → Members
  | [] => [(k, v)]
  | (k1, v1) :: rest =>
    if keyLt k k1 then (k, v) :: (k1, v1) :: rest
    else if k = k1 then (k, v) :: rest
    else (k1, v1) :: insert k v rest

/-- The object a mutable `operator[](key)` works on: `null` silently becomes an empty
object, an object is used as it is, any other value throws `type_error` 305. -/
def Json.members : Json → Except Fault Members
  | .null => .ok []
  | .obj m => .ok m
  | _ => .error .typeError

/-- The access `j[k]` on a mutable value, followed by whatever `f` does through the returned
reference: the member is created as `null` when it is absent. -/
def Json.modify (k : String) (f : Json → Except Fault Json) (j : Json) : Except Fault Json :=
  match j.members with
  | .error e => .error e
  | .ok m =>
    match f ((find k m).getD .null) with
    | .error e => .error e
    | .ok v => .ok (.obj (insert k v m))

/-- The call `j.find(k)`: the member with key `k`, `end()` for a missing key and for every
value that is not an object. -/
def Json.find? (k : String) : Json → Option Json
  | .obj m => find k m
  | _ => none

/-- The conversions `get<unsigned>()` and `get<uint32_t>()`: a number is truncated to 32 bits, every
other kind of value throws `type_error` 302. -/
def Json.toUInt32 : Json → Except Fault Nat
  | .num n => .ok (n % 4294967296)
  | _ => .error .typeError

/-- The counter update of `append` (lines 105-112 and 116-123): a `null` slot becomes
`1`, any other value is read as `unsigned` and incremented in 32-bit arithmetic. -/
def bump : Json → Except Fault Json
  | .null => .ok (.num 1)
  | j =>
    match j.toUInt32 with
    | .error e => .error e
    | .ok n => .ok (.num ((n + 1) % 4294967296))

/-! ## The chain -/

/-- Modelled from the spec: the header `markov_chain.h`, which defines the accessors
`jOrder`, `jWords`, `jNextWordsCount` and `jNextWords`, is not among the sources.  The
spec describes the document as one object with an order field and a trie field, and a
terminal node as an object with a total count field and a successors field; the
accessors return mutable references, so each is `operator[]` with a fixed key.  The
four key names are parameters of the embedding; the two accessors of one object use
different keys. -/
structure Keys where
  order : String
  words : String
  count : String
  next : String
  order_ne_words : order ≠ words
  count_ne_next : count ≠ next

/-- The field names the spec uses for the data model. -/
def specKeys : Keys := ⟨"order", "root", "total_count", "successors", by decide, by decide⟩

/-- The state of a `MarkovChain` object. -/
structure Chain where
  m_json : Json
  m_order : Nat

/-- The constructor `MarkovChain(const uint32_t& order)`: `jOrder() = m_order` on the `null` document. -/
def constructEmpty (K : Keys) (order : Nat) : Chain :=
  ⟨.obj (insert K.order (.num order) []), order⟩

/-- The getter `order()`. -/
def Chain.order (c : Chain) : Nat := c.m_order

/-! ## `append` -/

/-- Lines 103-123 at the node `*jWord` the inner loop stopped at: the total count is
bumped, then the successor word `words[succIdx]` is read and its count is bumped. -/
def updateTerminal (K : Keys) (words : List String) (succIdx : Nat) (node : Json) :
    Except Fault Json :=
  match Json.modify K.count bump node with
  | .error e => .error e
  | .ok node1 =>
    match words[succIdx]? with
    | none => .error .outOfRange
    | some w => Json.modify K.next (Json.modify w bump) node1

/-- The inner loop of `append` (lines 97-101) with `n` iterations left and loop
variable `i2`, followed by `atEnd` at the node reached: each iteration reads
`words[i1 + i2]` (the index is an `unsigned` sum) and steps into that member, creating
it when it is missing. -/
def descend (words : List String) (i1 : Nat) (atEnd : Json → Except Fault Json) :
    Nat → Nat → Json → Except Fault Json
  | 0, _, j => atEnd j
  | n + 1, i2, j =>
    match words[(i1 + i2) % 4294967296]? with
    | none => .error .outOfRange
    | some word => Json.modify word (descend words i1 atEnd n (i2 + 1)) j

/-- One iteration of the outer loop of `append` (lines 95-123) on the document: the
walk starts at `jWords()`, takes `m_order + 1` steps (an `unsigned` sum) and updates
the node it ends at with the successor `words[i1 + m_order + 1]`. -/
def appendStep (K : Keys) (order : Nat) (words : List String) (i1 : Nat) (doc : Json) :
    Except Fault Json :=
  Json.modify K.words
    (descend words i1 (updateTerminal K words ((i1 + order + 1) % 4294967296))
      ((order + 1) % 4294967296) 0) doc

/-- The outer loop of `append` with `n` iterations left and loop variable `i1`; the
increment of the `unsigned` loop variable wraps. -/
def appendFrom (K : Keys) (order : Nat) (words : List String) :
    Nat → Nat → Json → Except Fault Json
  | 0, _, doc => .ok doc
  | n + 1, i1, doc =>
    match appendStep K order words i1 doc with
    | .error e => .error e
    | .ok doc1 => appendFrom K order words n ((i1 + 1) % 4294967296) doc1

/-- The loop bound `words.size() - m_order - 1` of `append`, computed in `size_t`. -/
def loopBound (order size : Nat) : Nat :=
  (size + 18446744073709551616 - order - 1) % 18446744073709551616

/-- The method `MarkovChain::append`.  The guard compares `words.size()` with the `unsigned` sum
`m_order + 2`.  The loop variable is an `unsigned`: when the bound is `2^32` or more
the loop condition holds for every value of `i1`, so the call can only end in a fault
of one of the first `2^32` iterations or not at all. -/
def append (K : Keys) (c : Chain) (words : List String) : Except Fault Chain :=
  if words.length < (c.m_order + 2) % 4294967296 then .ok c
  else if loopBound c.m_order words.length < 4294967296 then
    match appendFrom K c.m_order words (loopBound c.m_order words.length) 0 c.m_json with
    | .error e => .error e
    | .ok doc => .ok ⟨doc, c.m_order⟩
  else
    match appendFrom K c.m_order words 4294967296 0 c.m_json with
    | .error e => .error e
    | .ok _ => .error .noReturn

/-! ## `nextWord` -/

/-- The prefix walk of `nextWord` (lines 156-164): `find` one key after the other. -/
def walk : List String → Json → Option Json
  | [], j => some j
  | w :: ws, j =>
    match j.find? w with
    | none => none
    | some child => walk ws child

/-- The local `size_t minWordCount = m_order + 1`, the sum taken in `unsigned` arithmetic. -/
def minWordCount (order : Nat) : Nat := (order + 1) % 4294967296

/-- The words from `words.end() - minWordCount` to `words.end()`. -/
def lastWords (n : Nat) (words : List String) : List String :=
  words.drop (words.length - n)

/-- The read `jNextWordsCount(*jWord).get<uint32_t>()` (line 168): the mutable `operator[]`
needs `null` or an object, a missing count is created as `null`, and reading `null`
as a number throws. -/
def readCount (K : Keys) (node : Json) : Except Fault Nat :=
  match node.members with
  | .error e => .error e
  | .ok m => ((find K.count m).getD .null).toUInt32

/-- The copy `jNextWords(*jWord)` (line 178) of a node whose count has been read. -/
def nextWordsOf (K : Keys) (node : Json) : Json :=
  match node with
  | .obj m => (find K.next m).getD .null
  | _ => .null

/-- The cumulative scan (lines 180-190) over the members of an object, from running
sum `cur`; running off the end is the `exit` of line 193. -/
def scan (pos : Nat) : Members → Nat → Except Fault String
  | [], _ => .error .impossible
  | (k, v) :: rest, cur =>
    match v.toUInt32 with
    | .error e => .error e
    | .ok c =>
      if (cur + c) % 4294967296 > pos then .ok k
      else scan pos rest ((cur + c) % 4294967296)

/-- The scan over a JSON value: `null` has no elements, an object has its members, and
any other value is iterated as one element whose `key()` throws. -/
def scanJson (pos : Nat) : Json → Except Fault String
  | .null => .error .impossible
  | .obj m => scan pos m 0
  | j =>
    match j.toUInt32 with
    | .error e => .error e
    | .ok c => if c > pos then .error .invalidIterator else .error .impossible

/-- Lines 166-193 of `nextWord` at the node the walk ended at, for the value
`randomValue` that `std::rand()` returned. -/
def sample (K : Keys) (node : Json) (randomValue : Nat) : Except Fault String :=
  match readCount K node with
  | .error e => .error e
  | .ok count =>
    if count > 2147483647 then .error .invalidCount
    else if count = 0 then .error .divisionByZero
    else scanJson (randomValue % count) (nextWordsOf K node)

/-- The method `MarkovChain::nextWord` for the value `randomValue` of `std::rand()`: the word it
returns and the state it leaves.  `jWords()` is a mutable `operator[]`, so a missing
trie field is created as `null` as soon as the length check has passed. -/
def nextWord (K : Keys) (c : Chain) (words : List String) (randomValue : Nat) :
    Except Fault (String × Chain) :=
  if words.length < minWordCount c.m_order then .ok ("", c)
  else
    match c.m_json.members with
    | .error e => .error e
    | .ok top =>
      let root := (find K.words top).getD .null
      let c1 : Chain := ⟨.obj (insert K.words root top), c.m_order⟩
      match walk (lastWords (minWordCount c.m_order) words) root with
      | none => .ok ("", c1)
      | some node =>
        match sample K node randomValue with
        | .error e => .error e
        | .ok w => .ok (w, c1)

/-! ## Sequences of calls and reading a chain -/

/-- A sequence of `append` calls, one after the other. -/
def appendAll (K : Keys) : Chain → List (List String) → Except Fault Chain
  | c, [] => .ok c
  | c, ws :: rest =>
    match append K c ws with
    | .error e => .error e
    | .ok c1 => appendAll K c1 rest

/-- The chains that `MarkovChain(order)` followed by `append` calls can produce. -/
def Reachable (K : Keys) (order : Nat) (c : Chain) : Prop :=
  ∃ seqs, appendAll K (constructEmpty K order) seqs = .ok c

/-- The node that the keys `k` lead to from `jWords()` without changing the chain. -/
def Chain.terminal (K : Keys) (c : Chain) (k : List String) : Option Json :=
  walk (K.words :: k) c.m_json

/-- The total count field of a node, if it has one. -/
def totalOf (K : Keys) (node : Json) : Option Json := node.find? K.count

/-- The successors field of a node, if it has one. -/
def successorsOf (K : Keys) (node : Json) : Option Json := node.find? K.next

/-- The value a counter slot has when it is read as a 32-bit unsigned number; a slot
that is missing or not a number counts as `0`. -/
def count32 : Option Json → Nat
  | some (.num n) => n % 4294967296
  | _ => 0

/-- The chain of order 1 after `append(["a","b","c"])` and `append(["a","b","d"])`. -/
def scenario (K : Keys) : Except Fault Chain :=
  appendAll K (constructEmpty K 1) [["a", "b", "c"], ["a", "b", "d"]]

/-- The document of `scenario` with the field names of the spec. -/
def scenarioChain : Chain :=
  ⟨.obj [("order", .num 1),
      ("root", .obj [("a", .obj [("b", .obj [("successors", .obj [("c", .num 1), ("d", .num 1)]),
        ("total_count", .num 2)])])])], 1⟩

/-! ## Auxiliary notions for the proofs -/

/-- What the walk of `append` amounts to once the words it reads are known: step into
the members named by the path, creating them when missing, and run `f` at the end. -/
def modifyPath : List String → (Json → Except Fault Json) → Json → Except Fault Json
  | [], f, j => f j
  | w :: ws, f, j => Json.modify w (modifyPath ws f) j

/-- The update `updateTerminal` performs when the successor word it reads is `w`. -/
def termUpdate (K : Keys) (w : String) (node : Json) : Except Fault Json :=
  match Json.modify K.count bump node with
  | .error e => .error e
  | .ok node1 => Json.modify K.next (Json.modify w bump) node1

/-- The total count that the document records for the context `k`, read as a 32-bit
unsigned number; `0` when there is none. -/
def totalAt (K : Keys) (doc : Json) (k : List String) : Nat :=
  count32 ((walk (K.words :: k) doc).bind (totalOf K))

/-- The count that the document records for the successor `w` of the context `k`, read
as a 32-bit unsigned number; `0` when there is none. -/
def succAt (K : Keys) (doc : Json) (k : List String) (w : String) : Nat :=
  count32 (((walk (K.words :: k) doc).bind (successorsOf K)).bind (Json.find? w))

/-- The `n` words of `ws` from index `i` on. -/
def window (ws : List String) (i n : Nat) : List String := (ws.drop i).take n

/-- The number of indices `i` with `0 ≤ i ≤ len(ws) - order - 2` at which the
`order + 1` words from `i` on are the context `k`. -/
def contextCount (order : Nat) (ws : List String) (k : List String) : Nat :=
  (List.range (ws.length - order - 1)).countP (fun i => decide (window ws i (order + 1) = k))

/-- The number of indices `i` with `0 ≤ i ≤ len(ws) - order - 2` at which the
`order + 1` words from `i` on are the context `k` and the next word is `w`. -/
def successorCount (order : Nat) (ws : List String) (k : List String) (w : String) : Nat :=
  (List.range (ws.length - order - 1)).countP
    (fun i => decide (window ws i (order + 1) = k ∧ ws[i + order + 1]? = some w))

/-- A slot that `bump` accepts: `null` or a number. -/
def IsCounter (j : Json) : Prop := j = .null ∨ ∃ n, j = .num n

/-- A successors field that `append` accepts: `null` or an object of counters. -/
def IsCounterMap (j : Json) : Prop :=
  j = .null ∨ ∃ s, j = .obj s ∧ ∀ w v, find w s = some v → IsCounter v

/-- A terminal node that `append` accepts: `null`, or an object whose count field, when
present, is a counter and whose successors field, when present, is a counter map. -/
def TermShape (K : Keys) (node : Json) : Prop :=
  node = .null ∨ ∃ m, node = .obj m ∧ IsCounter ((find K.count m).getD .null) ∧
    IsCounterMap ((find K.next m).getD .null)

/-- A trie of depth `d`, every node of which at depth `d` satisfies `P`: the levels
above are objects (or `null`, an empty level). -/
def TrieAll (P : Json → Prop) : Nat → Json → Prop
  | 0, j => P j
  | d + 1, j => j = .null ∨ ∃ m, j = .obj m ∧ ∀ w v, find w m = some v → TrieAll P d v

/-- A document whose trie field, when present, is a trie of depth `d` with `P` at the
terminal nodes. -/
def DocAll (K : Keys) (P : Json → Prop) (d : Nat) (doc : Json) : Prop :=
  ∃ top, doc = .obj top ∧ ∀ root, find K.words top = some root → TrieAll P d root

/-- The data model of the spec as far as `append` relies on it: the order is an
unsigned 32-bit number, the document is an object, and its trie field, when present,
is a trie of the depth of the order whose terminal nodes hold counters. -/
def WellFormed (K : Keys) (c : Chain) : Prop :=
  c.m_order < 4294967296 ∧ DocAll K (TermShape K) ((c.m_order + 1) % 4294967296) c.m_json

/-- The total count a chain records for the context `k`, as `nextWord` would read it. -/
def Chain.totalCount (K : Keys) (c : Chain) (k : List String) : Nat := totalAt K c.m_json k

/-- The count a chain records for the successor `w` of the context `k`, as `nextWord`
would read it. -/
def Chain.succCount (K : Keys) (c : Chain) (k : List String) (w : String) : Nat :=
  succAt K c.m_json k w

/-- Every entry of `j`, at any depth, is still an entry of `j1`. -/
def Keeps (j j1 : Json) : Prop := ∀ p v, walk p j = some v → ∃ v1, walk p j1 = some v1

/-- A well-formed chain of order 0 whose counters for the context `a` stand at the
largest 32-bit value. -/
def fullChain : Chain :=
  ⟨.obj [("order", .num 0),
      ("root", .obj [("a", .obj [("successors", .obj [("b", .num 4294967295)]),
        ("total_count", .num 4294967295)])])], 0⟩

/-- The number a JSON value stands for; `0` for a value that is not a number. -/
def Json.toNat : Json → Nat
  | .num n => n
  | _ => 0

/-- The sum of all values of a successors map. -/
def sumCounts (s : Members) : Nat := (s.map (fun kv => kv.2.toNat)).sum

/-- The members are in strictly increasing key order, as in a `std::map`. -/
def SortedKeys (s : Members) : Prop := s.Pairwise (fun a b => keyLt a.1 b.1 = true)

/-- A terminal node as `append` leaves it: an object with exactly a count field and a
successors field, the successors being numbers in key order, and the count being the
sum of the successor counts reduced modulo `2^32`. -/
def TermInv (K : Keys) (node : Json) : Prop :=
  ∃ m t s, node = .obj m ∧ find K.count m = some (.num t) ∧ find K.next m = some (.obj s) ∧
    (∀ key v, find key m = some v → key = K.count ∨ key = K.next) ∧
    SortedKeys s ∧ (∀ kv, kv ∈ s → ∃ n, kv.2 = .num n) ∧ t = sumCounts s % 4294967296

/-- The chain of order 0 whose only context `a` has the successor `a` with count `x`
and the total count `t`. -/
def chainA (x t : Nat) : Chain :=
  ⟨.obj [("order", .num 0),
      ("root", .obj [("a", .obj [("successors", .obj [("a", .num x)]),
        ("total_count", .num t)])])], 0⟩

/-- The chain of order 0 whose only context `a` has the successors `a` and `b` with
counts `x` and `y` and the total count `t`. -/
def chainAB (x y t : Nat) : Chain :=
  ⟨.obj [("order", .num 0),
      ("root", .obj [("a", .obj [("successors", .obj [("a", .num x), ("b", .num y)]),
        ("total_count", .num t)])])], 0⟩

/-- A chain of the largest order, as a saved document would give it: with
`m_order + 1` wrapping to `0`, the trie field itself holds a count and successors. -/
def rootTerminalChain : Chain :=
  ⟨.obj [("order", .num 4294967295),
      ("root", .obj [("successors", .obj [("x", .num 1)]), ("total_count", .num 1)])],
    4294967295⟩

/-- The words `k` occur in one of the sequences as `order + 1` consecutive words. -/
def Occurs (order : Nat) (seqs : List (List String)) (k : List String) : Prop :=
  ∃ s, s ∈ seqs ∧ ∃ i, i + (order + 1) ≤ s.length ∧ window s i (order + 1) = k

/-- The words `k` occur in one of the sequences as `order + 1` consecutive words that
are followed by at least one further word. -/
def Seen (order : Nat) (seqs : List (List String)) (k : List String) : Prop :=
  ∃ s, s ∈ seqs ∧ ∃ i, i + order + 1 < s.length ∧ window s i (order + 1) = k

/-! ## Loading and saving -/

/-- The ways in which loading a parsed document ends without a chain. -/
inductive LoadFault where
  /-- A `nlohmann::json` `type_error` exception, which the constructor does not catch. -/
  | typeError : LoadFault
  /-- The `exit` after the check of the order (line 64). -/
  | invalidOrder : LoadFault
  /-- The `exit` for a chain without elements (line 72). -/
  | noElements : LoadFault
  deriving DecidableEq

/-- The test `is_number_unsigned()`. -/
def Json.isNumberUnsigned : Json → Bool
  | .num _ => true
  | _ => false

/-- The test `empty()`: `null` is empty, an object is empty when it has no members, a
number or a string is not. -/
def Json.empty : Json → Bool
  | .null => true
  | .obj m => m.isEmpty
  | _ => false

/-- The constructor `MarkovChain(const std::string& filename)` from line 56 on, for the
document `m_json` that was parsed from the file.  The order is first converted with
`get<uint32_t>()` and then checked; `jOrder()` and `jWords()` are mutable accesses,
which create a missing field as `null`. -/
def load (K : Keys) (doc : Json) : Except LoadFault Chain :=
  match doc.members with
  | .error _ => .error .typeError
  | .ok top =>
    let top1 := insert K.order ((find K.order top).getD .null) top
    match ((find K.order top).getD .null).toUInt32 with
    | .error _ => .error .typeError
    | .ok order =>
      if ((find K.order top).getD .null).isNumberUnsigned = false ∨ order > 4294967295 then
        .error .invalidOrder
      else if ((find K.words top1).getD .null).empty then .error .noElements
      else .ok ⟨.obj (insert K.words ((find K.words top1).getD .null) top1), order⟩

/-- The method `toText`: the dump of `m_json`.  The text is represented by the document
it encodes, which is what parsing the text gives back. -/
def toText (c : Chain) : Json := c.m_json

/-- A document whose order field is `2^32`. -/
def bigOrderDoc : Json :=
  .obj [("order", .num 4294967296),
    ("root", .obj [("a", .obj [("successors", .obj [("b", .num 1)]), ("total_count", .num 1)])])]

/-- A document with sorted members whose order field holds the number `N`. -/
def DocTop (K : Keys) (N : Nat) (doc : Json) : Prop :=
  ∃ top, doc = .obj top ∧ SortedKeys top ∧ find K.order top = some (.num N)

/-- The running sum of the cumulative scan after the member with index `j`, started
from `cur`: the counts are read as 32-bit values and added in 32-bit arithmetic. -/
def scanSum (cur : Nat) (m : Members) (j : Nat) : Nat :=
  (cur + ((m.take (j + 1)).map (fun kv => kv.2.toNat % 4294967296)).sum) % 4294967296

/-- The running sum `currentWordPosition` of `nextWord` after the successor with index
`j` in iteration order. -/
def runningSum (m : Members) (j : Nat) : Nat := scanSum 0 m j

/-- A chain of order 0, as a saved document would give it, whose total count for the
context `a` is `2^32 + 1`. -/
def bigTotalChain : Chain :=
  ⟨.obj [("order", .num 0),
      ("root", .obj [("a", .obj [("successors", .obj [("b", .num 4294967297)]),
        ("total_count", .num 4294967297)])])], 0⟩

/-- A chain of order 0, as a saved document would give it, whose successor counts for
the context `a` add up to more than `2^32`. -/
def wrapScanChain : Chain :=
  ⟨.obj [("order", .num 0),
      ("root", .obj [("a", .obj [("successors",
          .obj [("a", .num 1), ("b", .num 4294967295), ("c", .num 5)]),
        ("total_count", .num 5)])])], 0⟩

/-! ## What a call of `append` records -/

/-- The words the inner loop of `append` reads in iteration `i1` of the outer loop,
with `n` iterations left and loop variable `i2`, when every read is inside the vector. -/
def readCtx (words : List String) (i1 : Nat) : Nat → Nat → Option (List String)
  | 0, _ => some []
  | n + 1, i2 =>
    match words[(i1 + i2) % 4294967296]? with
    | none => none
    | some w =>
      match readCtx words i1 n (i2 + 1) with
      | none => none
      | some p => some (w :: p)

/-- The context and the successor word that iteration `i1` of the outer loop of
`append` reads, when every read is inside the vector. -/
def readStep (order : Nat) (words : List String) (i1 : Nat) : Option (List String × String) :=
  match readCtx words i1 ((order + 1) % 4294967296) 0 with
  | none => none
  | some ctx =>
    match words[(i1 + order + 1) % 4294967296]? with
    | none => none
    | some w => some (ctx, w)

/-- The values of the loop variable `i1` in `n` iterations of the outer loop. -/
def loopIndices : Nat → Nat → List Nat
  | 0, _ => []
  | n + 1, i1 => i1 :: loopIndices n ((i1 + 1) % 4294967296)

/-- The pairs of context and successor that a returning call `append(words)` records,
in the order of the loop. -/
def recorded (order : Nat) (words : List String) : List (List String × String) :=
  if words.length < (order + 2) % 4294967296 then []
  else (loopIndices (loopBound order words.length) 0).filterMap (readStep order words)

/-- The pairs that a sequence of returning `append` calls records. -/
def recordedAll (order : Nat) : List (List String) → List (List String × String)
  | [] => []
  | ws :: rest => recorded order ws ++ recordedAll order rest

/-- How often the calls recorded the context `k`. -/
def totalHits (order : Nat) (seqs : List (List String)) (k : List String) : Nat :=
  (recordedAll order seqs).countP (fun p => decide (p.1 = k))

/-- How often the calls recorded the successor `w` at the context `k`. -/
def succHits (order : Nat) (seqs : List (List String)) (k : List String) (w : String) : Nat :=
  (recordedAll order seqs).countP (fun p => decide (p.1 = k ∧ p.2 = w))

/-- The entry of the successor `w` at the context `k`, if the document has one. -/
def succEntry (K : Keys) (doc : Json) (k : List String) (w : String) : Option Json :=
  ((walk (K.words :: k) doc).bind (successorsOf K)).bind (Json.find? w)

/-- The document `doc1` differs from `doc`, at the contexts of `d` words, by the
recorded pairs `steps`: each pair adds one to the total count of its context and to the
count of its successor, in 32-bit arithmetic, and creates the entries it needs. -/
def Effect (K : Keys) (d : Nat) (steps : List (List String × String)) (doc doc1 : Json) :
    Prop :=
  ∀ k : List String, k.length = d →
    totalAt K doc1 k =
      (totalAt K doc k + steps.countP (fun p => decide (p.1 = k))) % 4294967296 ∧
    (walk (K.words :: k) doc1 ≠ none ↔
      walk (K.words :: k) doc ≠ none ∨ ∃ p, p ∈ steps ∧ p.1 = k) ∧
    ∀ w, succAt K doc1 k w =
        (succAt K doc k w + steps.countP (fun p => decide (p.1 = k ∧ p.2 = w)))
          % 4294967296 ∧
      (succEntry K doc1 k w ≠ none ↔ succEntry K doc k w ≠ none ∨ (k, w) ∈ steps)

/-- The successor counts of a terminal node are numbers below `2^32`. -/
def SuccBounded (K : Keys) (node : Json) : Prop :=
  ∀ s, successorsOf K node = some (.obj s) →
    ∀ w v, find w s = some v → ∃ n, v = .num n ∧ n < 4294967296

/-- The update that records the pair `p` goes through on the document: no level on
the way and no counter it touches has a type that makes it throw. -/
def Passes (K : Keys) (doc : Json) (p : List String × String) : Prop :=
  ∃ d, modifyPath (K.words :: p.1) (termUpdate K p.2) doc = .ok d

/-- The part of a returning call `append(words)` that does not depend on the document:
either the guard returns at once, or the loop bound is below `2^32` and every read of
every iteration is inside the vector. -/
def Runs (order : Nat) (words : List String) : Prop :=
  words.length < (order + 2) % 4294967296 ∨
    (loopBound order words.length < 4294967296 ∧
      ∀ i, i ∈ loopIndices (loopBound order words.length) 0 → readStep order words i ≠ none)

/-- Two chains hold the same record for the contexts of `d` words: the same order, the
same contexts, the same total counts, the same successors and the same successor counts. -/
def SameRecord (K : Keys) (d : Nat) (c1 c2 : Chain) : Prop :=
  c1.m_order = c2.m_order ∧ ∀ k : List String, k.length = d →
    (c1.terminal K k ≠ none ↔ c2.terminal K k ≠ none) ∧
    c1.totalCount K k = c2.totalCount K k ∧
    ∀ w, (succEntry K c1.m_json k w ≠ none ↔ succEntry K c2.m_json k w ≠ none) ∧
      c1.succCount K k w = c2.succCount K k w

/-! ## Keys and members -/

theorem ltChars_irrefl (a : List Char) : ltChars a a = false := by
  induction a with
  | nil => rfl
  | cons x xs ih => simp [ltChars, ih]

theorem ltChars_trans : ∀ (a b c : List Char), ltChars a b = true → ltChars b c = true →
    ltChars a c = true
  | _, [], _, h, _ => by cases ‹List Char› <;> simp [ltChars] at h
  | _, _ :: _, [], _, h => by simp [ltChars] at h
  | [], _ :: _, _ :: _, _, _ => by simp [ltChars]
  | x :: xs, y :: ys, z :: zs, h1, h2 => by
    simp only [ltChars] at h1 h2 ⊢
    split_ifs at h1 h2 ⊢ <;> first
      | rfl
      | exact ltChars_trans xs ys zs h1 h2
      | omega

theorem ltChars_total : ∀ (a b : List Char), ltChars a b = false → a ≠ b → ltChars b a = true
  | [], [], _, h => absurd rfl h
  | [], _ :: _, h, _ => by simp [ltChars] at h
  | _ :: _, [], _, _ => by simp [ltChars]
  | x :: xs, y :: ys, h1, h2 => by
    simp only [ltChars] at h1 ⊢
    by_cases hlt : x.toNat < y.toNat
    · simp [hlt] at h1
    · by_cases heq : x.toNat = y.toNat
      · have hxy : x = y := by rw [← Char.ofNat_toNat x, ← Char.ofNat_toNat y, heq]
        subst hxy
        simp only [lt_self_iff_false, if_false, if_true] at h1 ⊢
        exact ltChars_total xs ys h1 (fun h => h2 (by rw [h]))
      · have : y.toNat < x.toNat := by omega
        simp [this]

theorem keyLt_irrefl (a : String) : keyLt a a = false := ltChars_irrefl _

theorem keyLt_trans {a b c : String} (h1 : keyLt a b = true) (h2 : keyLt b c = true) :
    keyLt a c = true := ltChars_trans _ _ _ h1 h2

theorem keyLt_total {a b : String} (h1 : keyLt a b = false) (h2 : a ≠ b) : keyLt b a = true :=
  ltChars_total _ _ h1 (fun h => h2 (String.ext h))

theorem keyLt_ne {a b : String} (h : keyLt a b = true) : a ≠ b := by
  rintro rfl
  rw [keyLt_irrefl] at h
  cases h

theorem find_insert_self (k : String) (v : Json) (m : Members) : find k (insert k v m) = some v := by
  induction m with
  | nil => simp [insert, find]
  | cons kv rest ih =>
    obtain ⟨k1, v1⟩ := kv
    simp only [insert]
    split_ifs with h1 h2
    · simp [find]
    · simp [find]
    · simp [find, ih, Ne.symm h2]

theorem find_insert_ne {k k2 : String} (h : k2 ≠ k) (v : Json) (m : Members) :
    find k2 (insert k v m) = find k2 m := by
  induction m with
  | nil => simp [insert, find, Ne.symm h]
  | cons kv rest ih =>
    obtain ⟨k1, v1⟩ := kv
    simp only [insert]
    split_ifs with h1 h2
    · simp [find, Ne.symm h]
    · subst h2
      simp [find, Ne.symm h]
    · by_cases h3 : k1 = k2 <;> simp [find, h3, ih]

/-! ## Mutable access and walks -/

theorem members_ok {j : Json} {m : Members} (h : j.members = .ok m) :
    (j = .null ∧ m = []) ∨ j = .obj m := by
  cases j with
  | null => left; simp [Json.members] at h; exact ⟨rfl, h⟩
  | num n => simp [Json.members] at h
  | str s => simp [Json.members] at h
  | obj m1 => right; simp [Json.members] at h; rw [h]

theorem modify_ok {k : String} {f : Json → Except Fault Json} {j j1 : Json}
    (h : Json.modify k f j = .ok j1) :
    ∃ m v, j.members = .ok m ∧ f ((find k m).getD .null) = .ok v ∧ j1 = .obj (insert k v m) := by
  unfold Json.modify at h
  cases hm : j.members with
  | error e => rw [hm] at h; cases h
  | ok m =>
    rw [hm] at h
    simp only at h
    cases hv : f ((find k m).getD .null) with
    | error e => rw [hv] at h; cases h
    | ok v =>
      rw [hv] at h
      simp only [Except.ok.injEq] at h
      exact ⟨m, v, rfl, hv, h.symm⟩

theorem modify_of {k : String} {f : Json → Except Fault Json} {j : Json} {m : Members} {v : Json}
    (hm : j.members = .ok m) (hv : f ((find k m).getD .null) = .ok v) :
    Json.modify k f j = .ok (.obj (insert k v m)) := by
  unfold Json.modify
  rw [hm]
  simp only
  rw [hv]

theorem find?_of_members {j : Json} {m : Members} (h : j.members = .ok m) (k : String) :
    j.find? k = find k m := by
  rcases members_ok h with ⟨rfl, rfl⟩ | rfl <;> rfl

theorem walk_cons_of_members {j : Json} {m : Members} (h : j.members = .ok m) (w : String)
    (ws : List String) :
    walk (w :: ws) j = (find w m).bind (walk ws) := by
  have := find?_of_members h w
  simp only [walk, this]
  cases find w m <;> rfl

theorem walk_null (p : List String) : (walk p .null).getD .null = .null := by
  cases p <;> rfl

theorem walk_cons_null (w : String) (p : List String) : walk (w :: p) .null = none := rfl

theorem updateTerminal_ok {K : Keys} {words : List String} {idx : Nat} {node y : Json}
    (h : updateTerminal K words idx node = .ok y) :
    ∃ w, words[idx]? = some w ∧ termUpdate K w node = .ok y := by
  unfold updateTerminal at h
  unfold termUpdate
  cases h1 : Json.modify K.count bump node with
  | error e => rw [h1] at h; cases h
  | ok node1 =>
    rw [h1] at h
    simp only at h
    cases h2 : words[idx]? with
    | none => rw [h2] at h; cases h
    | some w =>
      rw [h2] at h
      exact ⟨w, rfl, h⟩

theorem descend_ok {words : List String} {i1 : Nat} {f : Json → Except Fault Json} :
    ∀ (n s : Nat) (j j1 : Json), descend words i1 f n s j = .ok j1 →
      ∃ p : List String, p.length = n ∧
        (∀ i, i < n → words[(i1 + (s + i)) % 4294967296]? = p[i]?) ∧
        modifyPath p f j = .ok j1
  | 0, s, j, j1, h => ⟨[], rfl, fun i hi => absurd hi (Nat.not_lt_zero i), h⟩
  | n + 1, s, j, j1, h => by
    unfold descend at h
    cases hw : words[(i1 + s) % 4294967296]? with
    | none => rw [hw] at h; cases h
    | some word =>
      rw [hw] at h
      simp only at h
      obtain ⟨m, v, hm, hv, rfl⟩ := modify_ok h
      obtain ⟨p, hlen, hidx, hp⟩ := descend_ok n (s + 1) _ _ hv
      refine ⟨word :: p, by simp [hlen], ?_, ?_⟩
      · intro i hi
        cases i with
        | zero => simpa using hw
        | succ i =>
          have := hidx i (by omega)
          simp only [List.getElem?_cons_succ]
          rw [← this]
          congr 2
          omega
      · exact modify_of hm hp

theorem walk_modifyPath_self {f : Json → Except Fault Json} :
    ∀ (p : List String) (j j1 : Json), modifyPath p f j = .ok j1 →
      ∃ y, f ((walk p j).getD .null) = .ok y ∧ walk p j1 = some y
  | [], j, j1, h => ⟨j1, h, rfl⟩
  | w :: ws, j, j1, h => by
    obtain ⟨m, v, hm, hv, rfl⟩ := modify_ok h
    obtain ⟨y, hy, hwalk⟩ := walk_modifyPath_self ws _ _ hv
    refine ⟨y, ?_, ?_⟩
    · have : (walk (w :: ws) j).getD .null = (walk ws ((find w m).getD .null)).getD .null := by
        rw [walk_cons_of_members hm]
        cases hfind : find w m with
        | none => simp [walk_null]
        | some c => simp
      rw [this]
      exact hy
    · simp [walk, Json.find?, find_insert_self, hwalk]

theorem walk_modifyPath_ne {f : Json → Except Fault Json} :
    ∀ (p q : List String) (j j1 : Json), q.length = p.length → q ≠ p →
      modifyPath p f j = .ok j1 → walk q j1 = walk q j
  | [], [], _, _, _, hne, _ => absurd rfl hne
  | [], _ :: _, _, _, hlen, _, _ => by simp at hlen
  | _ :: _, [], _, _, hlen, _, _ => by simp at hlen
  | w :: ws, v :: qs, j, j1, hlen, hne, h => by
    obtain ⟨m, c, hm, hc, rfl⟩ := modify_ok h
    rw [walk_cons_of_members hm, walk_cons_of_members (j := .obj (insert w c m)) rfl]
    by_cases hvw : v = w
    · subst hvw
      rw [find_insert_self]
      have hq : qs ≠ ws := fun h => hne (by rw [h])
      have hl : qs.length = ws.length := by simpa using hlen
      have := walk_modifyPath_ne ws qs _ _ hl hq hc
      show walk qs c = (find v m).bind (walk qs)
      rw [this]
      cases hfind : find v m with
      | none =>
        cases qs with
        | nil =>
          cases ws with
          | nil => exact absurd rfl hq
          | cons _ _ => simp at hl
        | cons a as => simp [walk, Json.find?]
      | some c0 => simp
    · rw [find_insert_ne hvw]

/-! ## The effect of one update on the counters -/

theorem count32_getD (o : Option Json) : count32 (some (o.getD .null)) = count32 o := by
  cases o <;> rfl

theorem bump_count32 {x b : Json} (h : bump x = .ok b) :
    count32 (some b) = (count32 (some x) + 1) % 4294967296 := by
  cases x with
  | null => simp [bump] at h; subst h; rfl
  | num n =>
    simp [bump, Json.toUInt32] at h
    subst h
    simp [count32]
  | str s => simp [bump, Json.toUInt32] at h
  | obj m => simp [bump, Json.toUInt32] at h

theorem termUpdate_ok {K : Keys} {w : String} {node y : Json} (h : termUpdate K w node = .ok y) :
    ∃ m c s b, node.members = .ok m ∧ bump ((find K.count m).getD .null) = .ok c ∧
      ((find K.next m).getD .null).members = .ok s ∧ bump ((find w s).getD .null) = .ok b ∧
      y = .obj (insert K.next (.obj (insert w b s)) (insert K.count c m)) := by
  unfold termUpdate at h
  cases h1 : Json.modify K.count bump node with
  | error e => rw [h1] at h; cases h
  | ok node1 =>
    rw [h1] at h
    simp only at h
    obtain ⟨m, c, hm, hc, rfl⟩ := modify_ok h1
    obtain ⟨m1, x, hm1, hx, rfl⟩ := modify_ok h
    simp only [Json.members, Except.ok.injEq] at hm1
    subst hm1
    rw [find_insert_ne (Ne.symm K.count_ne_next)] at hx
    obtain ⟨s, b, hs, hb, rfl⟩ := modify_ok hx
    exact ⟨m, c, s, b, hm, hc, hs, hb, rfl⟩

theorem totalOf_of_members {K : Keys} {node : Json} {m : Members} (h : node.members = .ok m) :
    totalOf K node = find K.count m := find?_of_members h _

theorem successorsOf_of_members {K : Keys} {node : Json} {m : Members}
    (h : node.members = .ok m) : successorsOf K node = find K.next m := find?_of_members h _

theorem bind_find?_getD {o : Option Json} {s : Members} (h : (o.getD .null).members = .ok s)
    (w : String) : o.bind (Json.find? w) = find w s := by
  cases o with
  | none =>
    simp only [Option.getD, Json.members, Except.ok.injEq] at h
    subst h
    rfl
  | some x => exact find?_of_members h w

theorem termUpdate_total {K : Keys} {w : String} {node y : Json}
    (h : termUpdate K w node = .ok y) :
    count32 (totalOf K y) = (count32 (totalOf K node) + 1) % 4294967296 := by
  obtain ⟨m, c, s, b, hm, hc, hs, hb, rfl⟩ := termUpdate_ok h
  rw [totalOf_of_members hm]
  show count32 (find K.count (insert K.next _ (insert K.count c m))) = _
  rw [find_insert_ne K.count_ne_next, find_insert_self, bump_count32 hc, count32_getD]

theorem termUpdate_succ {K : Keys} {w : String} {node y : Json}
    (h : termUpdate K w node = .ok y) (w2 : String) :
    count32 ((successorsOf K y).bind (Json.find? w2)) =
      if w2 = w then (count32 ((successorsOf K node).bind (Json.find? w2)) + 1) % 4294967296
      else count32 ((successorsOf K node).bind (Json.find? w2)) := by
  obtain ⟨m, c, s, b, hm, hc, hs, hb, rfl⟩ := termUpdate_ok h
  rw [successorsOf_of_members hm, bind_find?_getD hs]
  show count32 ((find K.next (insert K.next _ (insert K.count c m))).bind (Json.find? w2)) = _
  rw [find_insert_self]
  show count32 (find w2 (insert w b s)) = _
  by_cases hw : w2 = w
  · subst hw
    rw [find_insert_self, if_pos rfl, bump_count32 hb, count32_getD]
  · rw [find_insert_ne hw, if_neg hw]

/-! ## The effect of one iteration and of the loop on the counters -/

theorem count32_lt (o : Option Json) : count32 o < 4294967296 := by
  unfold count32
  split
  · exact Nat.mod_lt _ (by norm_num)
  · norm_num

theorem appendStep_ok {K : Keys} {order : Nat} {words : List String} {i1 : Nat} {doc doc1 : Json}
    (h : appendStep K order words i1 doc = .ok doc1) :
    ∃ ctx w, ctx.length = (order + 1) % 4294967296 ∧
      (∀ i, i < ctx.length → words[(i1 + i) % 4294967296]? = ctx[i]?) ∧
      words[(i1 + order + 1) % 4294967296]? = some w ∧
      modifyPath (K.words :: ctx) (termUpdate K w) doc = .ok doc1 := by
  unfold appendStep at h
  obtain ⟨m, v, hm, hv, rfl⟩ := modify_ok h
  obtain ⟨p, hlen, hidx, hp⟩ := descend_ok _ _ _ _ hv
  obtain ⟨y, hy, hwalk⟩ := walk_modifyPath_self p _ _ hp
  obtain ⟨w, hw, -⟩ := updateTerminal_ok hy
  refine ⟨p, w, hlen, ?_, hw, ?_⟩
  · intro i hi
    have := hidx i (by omega)
    simpa using this
  · refine modify_of hm ?_
    rw [← hp]
    -- the two end functions agree wherever the walk ends
    have key : ∀ (q : List String) (j : Json),
        modifyPath q (updateTerminal K words ((i1 + order + 1) % 4294967296)) j =
          modifyPath q (termUpdate K w) j := by
      intro q
      induction q with
      | nil =>
        intro j
        simp only [modifyPath, updateTerminal, termUpdate, hw]
      | cons a q ih =>
        intro j
        simp only [modifyPath]
        have : modifyPath q (updateTerminal K words ((i1 + order + 1) % 4294967296)) =
            modifyPath q (termUpdate K w) := funext ih
        rw [this]
    exact (key p _).symm

theorem modifyPath_totalAt {K : Keys} {ctx : List String} {w : String} {doc doc1 : Json}
    (h : modifyPath (K.words :: ctx) (termUpdate K w) doc = .ok doc1) (k : List String)
    (hk : k.length = ctx.length) :
    totalAt K doc1 k = if k = ctx then (totalAt K doc k + 1) % 4294967296 else totalAt K doc k := by
  unfold totalAt
  by_cases hkc : k = ctx
  · subst hkc
    obtain ⟨y, hy, hwalk⟩ := walk_modifyPath_self _ _ _ h
    rw [if_pos rfl, hwalk, Option.some_bind, termUpdate_total hy]
    cases hw : walk (K.words :: k) doc <;> rfl
  · rw [if_neg hkc, walk_modifyPath_ne _ _ _ _ (by simp [hk]) (by simpa using hkc) h]

theorem modifyPath_succAt {K : Keys} {ctx : List String} {w : String} {doc doc1 : Json}
    (h : modifyPath (K.words :: ctx) (termUpdate K w) doc = .ok doc1) (k : List String)
    (hk : k.length = ctx.length) (w2 : String) :
    succAt K doc1 k w2 =
      if k = ctx ∧ w2 = w then (succAt K doc k w2 + 1) % 4294967296 else succAt K doc k w2 := by
  unfold succAt
  by_cases hkc : k = ctx
  · subst hkc
    obtain ⟨y, hy, hwalk⟩ := walk_modifyPath_self _ _ _ h
    rw [hwalk, Option.some_bind, termUpdate_succ hy]
    simp only [true_and]
    cases hw : walk (K.words :: k) doc <;> rfl
  · rw [if_neg (fun hh => hkc hh.1),
      walk_modifyPath_ne _ _ _ _ (by simp [hk]) (by simpa using hkc) h]

theorem window_eq {ws ctx : List String} {i n : Nat} (hlen : ctx.length = n)
    (h : ∀ j, j < n → ws[i + j]? = ctx[j]?) : ctx = window ws i n := by
  apply List.ext_getElem?
  intro j
  unfold window
  rw [List.getElem?_take, List.getElem?_drop]
  split_ifs with hj
  · exact (h j hj).symm
  · exact List.getElem?_eq_none (by omega)

theorem appendFrom_counts {K : Keys} {order : Nat} {ws : List String}
    (hlen : ws.length ≤ 4294967296) :
    ∀ (n i1 : Nat) (doc doc1 : Json), i1 + n + order + 1 ≤ ws.length →
      appendFrom K order ws n i1 doc = .ok doc1 →
      ∀ k : List String, k.length = order + 1 →
        totalAt K doc1 k = (totalAt K doc k +
          (List.range' i1 n).countP (fun i => decide (window ws i (order + 1) = k)))
            % 4294967296 ∧
        ∀ w, succAt K doc1 k w = (succAt K doc k w +
          (List.range' i1 n).countP
            (fun i => decide (window ws i (order + 1) = k ∧ ws[i + order + 1]? = some w)))
            % 4294967296
  | 0, i1, doc, doc1, _, h, k, _ => by
    simp only [appendFrom, Except.ok.injEq] at h
    subst h
    have h1 := count32_lt ((walk (K.words :: k) doc).bind (totalOf K))
    refine ⟨?_, fun w => ?_⟩
    · simp only [List.range'_zero, List.countP_nil, Nat.add_zero]
      exact (Nat.mod_eq_of_lt h1).symm
    · simp only [List.range'_zero, List.countP_nil, Nat.add_zero]
      exact (Nat.mod_eq_of_lt (count32_lt _)).symm
  | n + 1, i1, doc, doc1, hin, h, k, hk => by
    unfold appendFrom at h
    cases hstep : appendStep K order ws i1 doc with
    | error e => rw [hstep] at h; cases h
    | ok doc2 =>
      rw [hstep] at h
      simp only at h
      have hi1 : (i1 + 1) % 4294967296 = i1 + 1 := Nat.mod_eq_of_lt (by omega)
      rw [hi1] at h
      obtain ⟨ctx, w0, hclen, hread, hsucc, hpath⟩ := appendStep_ok hstep
      have hd : (order + 1) % 4294967296 = order + 1 := Nat.mod_eq_of_lt (by omega)
      rw [hd] at hclen
      have hctx : ctx = window ws i1 (order + 1) := by
        refine window_eq hclen (fun j hj => ?_)
        have := hread j (by omega)
        rwa [Nat.mod_eq_of_lt (by omega)] at this
      have hs : (i1 + order + 1) % 4294967296 = i1 + order + 1 := Nat.mod_eq_of_lt (by omega)
      rw [hs] at hsucc
      obtain ⟨ih1, ih2⟩ := appendFrom_counts hlen n (i1 + 1) doc2 doc1 (by omega) h k hk
      have ht := modifyPath_totalAt hpath k (by omega)
      refine ⟨?_, fun w => ?_⟩
      · rw [ih1, ht, List.range'_succ, List.countP_cons]
        have e : decide (window ws i1 (order + 1) = k) = decide (k = ctx) := by
          rw [hctx]
          exact decide_eq_decide.mpr eq_comm
        rw [e]
        by_cases hkc : k = ctx
        · simp only [hkc, if_true, decide_True]
          omega
        · simp only [hkc, if_false, decide_False]
          simp
      · have hsu := modifyPath_succAt hpath k (by omega) w
        rw [ih2 w, hsu, List.range'_succ, List.countP_cons]
        have e : decide (window ws i1 (order + 1) = k ∧ ws[i1 + order + 1]? = some w) =
            decide (k = ctx ∧ w = w0) := by
          rw [hctx, hsucc]
          refine decide_eq_decide.mpr ⟨fun hh => ⟨hh.1.symm, ?_⟩, fun hh => ⟨hh.1.symm, ?_⟩⟩
          · exact (Option.some.inj hh.2).symm
          · rw [hh.2]
        rw [e]
        by_cases hkc : k = ctx ∧ w = w0
        · simp only [hkc, if_true, decide_True, and_self]
          omega
        · simp only [hkc, if_false, decide_False]
          simp

/-! ## Shapes: what `append` preserves and when it returns -/

theorem trieAll_null_or {P : Json → Prop} (hP : P .null) :
    ∀ (d : Nat) (j : Json), (j = .null ∨ TrieAll P d j) → TrieAll P d j
  | 0, j, h => by
    rcases h with rfl | h
    · exact hP
    · exact h
  | d + 1, j, h => by
    rcases h with rfl | h
    · exact Or.inl rfl
    · exact h

theorem trieAll_child {P : Json → Prop} {d : Nat} {j : Json} {m : Members} (w : String)
    (hm : j.members = .ok m) (h : j = .null ∨ TrieAll P (d + 1) j) :
    (find w m).getD .null = .null ∨ TrieAll P d ((find w m).getD .null) := by
  cases hfind : find w m with
  | none => exact Or.inl rfl
  | some v =>
    right
    rcases members_ok hm with ⟨rfl, rfl⟩ | rfl
    · simp [find] at hfind
    · rcases h with h | h
      · cases h
      · rcases h with h | ⟨m1, h1, h2⟩
        · cases h
        · cases h1
          exact h2 w v hfind

theorem modifyPath_all {P : Json → Prop} {f : Json → Except Fault Json}
    (hf : ∀ x y, (x = .null ∨ P x) → f x = .ok y → P y) :
    ∀ (p : List String) (j j1 : Json), (j = .null ∨ TrieAll P p.length j) →
      modifyPath p f j = .ok j1 → TrieAll P p.length j1
  | [], j, j1, hj, h => hf j j1 hj h
  | w :: ws, j, j1, hj, h => by
    obtain ⟨m, v, hm, hv, rfl⟩ := modify_ok h
    have hchild := trieAll_child w hm hj
    have hv1 := modifyPath_all hf ws _ _ hchild hv
    refine Or.inr ⟨_, rfl, fun w2 v2 h2 => ?_⟩
    by_cases hw : w2 = w
    · subst hw
      rw [find_insert_self] at h2
      cases h2
      exact hv1
    · rw [find_insert_ne hw] at h2
      rcases members_ok hm with ⟨rfl, rfl⟩ | rfl
      · simp [find] at h2
      · rcases hj with hj | hj
        · cases hj
        · rcases hj with hj | ⟨m1, h1, h3⟩
          · cases hj
          · cases h1
            exact h3 w2 v2 h2

theorem modifyPath_returns {P : Json → Prop} {f : Json → Except Fault Json}
    (hf : ∀ x, (x = .null ∨ P x) → ∃ y, f x = .ok y) :
    ∀ (p : List String) (j : Json), (j = .null ∨ TrieAll P p.length j) →
      ∃ j1, modifyPath p f j = .ok j1
  | [], j, hj => hf j hj
  | w :: ws, j, hj => by
    have hm : ∃ m, j.members = .ok m := by
      rcases hj with rfl | hj
      · exact ⟨[], rfl⟩
      · rcases hj with rfl | ⟨m, rfl, -⟩
        · exact ⟨[], rfl⟩
        · exact ⟨m, rfl⟩
    obtain ⟨m, hm⟩ := hm
    obtain ⟨v, hv⟩ := modifyPath_returns hf ws _ (trieAll_child w hm hj)
    exact ⟨_, modify_of hm hv⟩

theorem modifyPath_docAll {K : Keys} {P : Json → Prop} {f : Json → Except Fault Json}
    (hf : ∀ x y, (x = .null ∨ P x) → f x = .ok y → P y) {p : List String} {doc doc1 : Json}
    (hdoc : DocAll K P p.length doc) (h : modifyPath (K.words :: p) f doc = .ok doc1) :
    DocAll K P p.length doc1 := by
  obtain ⟨top, rfl, htop⟩ := hdoc
  obtain ⟨m, v, hm, hv, rfl⟩ := modify_ok h
  simp only [Json.members, Except.ok.injEq] at hm
  subst hm
  refine ⟨_, rfl, fun root hroot => ?_⟩
  rw [find_insert_self] at hroot
  cases hroot
  refine modifyPath_all hf p _ _ ?_ hv
  cases hfind : find K.words top with
  | none => exact Or.inl rfl
  | some r => exact Or.inr (htop r hfind)

theorem modifyPath_doc_returns {K : Keys} {P : Json → Prop} {f : Json → Except Fault Json}
    (hf : ∀ x, (x = .null ∨ P x) → ∃ y, f x = .ok y) {p : List String} {doc : Json}
    (hdoc : DocAll K P p.length doc) : ∃ doc1, modifyPath (K.words :: p) f doc = .ok doc1 := by
  obtain ⟨top, rfl, htop⟩ := hdoc
  have : ∃ v, modifyPath p f ((find K.words top).getD .null) = .ok v := by
    refine modifyPath_returns hf p _ ?_
    cases hfind : find K.words top with
    | none => exact Or.inl rfl
    | some r => exact Or.inr (htop r hfind)
  obtain ⟨v, hv⟩ := this
  exact ⟨_, modify_of (j := .obj top) rfl hv⟩

theorem appendStep_docAll {K : Keys} {P : Json → Prop}
    (hf : ∀ w x y, (x = .null ∨ P x) → termUpdate K w x = .ok y → P y)
    {order : Nat} {words : List String} {i1 : Nat} {doc doc1 : Json}
    (hdoc : DocAll K P ((order + 1) % 4294967296) doc)
    (h : appendStep K order words i1 doc = .ok doc1) :
    DocAll K P ((order + 1) % 4294967296) doc1 := by
  obtain ⟨ctx, w, hlen, -, -, hpath⟩ := appendStep_ok h
  rw [← hlen] at hdoc ⊢
  exact modifyPath_docAll (hf w) hdoc hpath

theorem appendFrom_docAll {K : Keys} {P : Json → Prop}
    (hf : ∀ w x y, (x = .null ∨ P x) → termUpdate K w x = .ok y → P y)
    {order : Nat} {words : List String} :
    ∀ (n i1 : Nat) (doc doc1 : Json), DocAll K P ((order + 1) % 4294967296) doc →
      appendFrom K order words n i1 doc = .ok doc1 →
      DocAll K P ((order + 1) % 4294967296) doc1
  | 0, _, doc, doc1, hdoc, h => by
    simp only [appendFrom, Except.ok.injEq] at h
    subst h
    exact hdoc
  | n + 1, i1, doc, doc1, hdoc, h => by
    unfold appendFrom at h
    cases hstep : appendStep K order words i1 doc with
    | error e => rw [hstep] at h; cases h
    | ok doc2 =>
      rw [hstep] at h
      exact appendFrom_docAll hf n _ doc2 doc1 (appendStep_docAll hf hdoc hstep) h

theorem append_ok {K : Keys} {c c1 : Chain} {ws : List String} (h : append K c ws = .ok c1) :
    c1 = c ∨ (c1.m_order = c.m_order ∧
      appendFrom K c.m_order ws (loopBound c.m_order ws.length) 0 c.m_json = .ok c1.m_json) := by
  unfold append at h
  split_ifs at h with h1 h2
  · simp only [Except.ok.injEq] at h
    exact Or.inl h.symm
  · right
    cases hl : appendFrom K c.m_order ws (loopBound c.m_order ws.length) 0 c.m_json with
    | error e => rw [hl] at h; cases h
    | ok doc =>
      rw [hl] at h
      simp only [Except.ok.injEq] at h
      subst h
      exact ⟨rfl, rfl⟩
  · cases hl : appendFrom K c.m_order ws 4294967296 0 c.m_json with
    | error e => rw [hl] at h; cases h
    | ok doc => rw [hl] at h; cases h

theorem append_docAll {K : Keys} {P : Json → Prop}
    (hf : ∀ w x y, (x = .null ∨ P x) → termUpdate K w x = .ok y → P y)
    {c c1 : Chain} {ws : List String}
    (hdoc : DocAll K P ((c.m_order + 1) % 4294967296) c.m_json) (h : append K c ws = .ok c1) :
    c1.m_order = c.m_order ∧ DocAll K P ((c1.m_order + 1) % 4294967296) c1.m_json := by
  rcases append_ok h with rfl | ⟨ho, hl⟩
  · exact ⟨rfl, hdoc⟩
  · rw [ho]
    exact ⟨rfl, appendFrom_docAll hf _ _ _ _ hdoc hl⟩

theorem bump_returns {x : Json} (h : IsCounter x) : ∃ n, bump x = .ok (.num n) := by
  rcases h with rfl | ⟨n, rfl⟩
  · exact ⟨1, rfl⟩
  · exact ⟨(n % 4294967296 + 1) % 4294967296, rfl⟩

theorem bump_isCounter {x b : Json} (h : bump x = .ok b) : ∃ n, b = .num n := by
  cases x with
  | null => simp [bump] at h; exact ⟨1, h.symm⟩
  | num n => simp [bump, Json.toUInt32] at h; exact ⟨_, h.symm⟩
  | str s => simp [bump, Json.toUInt32] at h
  | obj m => simp [bump, Json.toUInt32] at h

theorem termShape_null (K : Keys) : TermShape K .null := Or.inl rfl

theorem termUpdate_shape {K : Keys} (w : String) (x y : Json)
    (hx : x = .null ∨ TermShape K x) (h : termUpdate K w x = .ok y) : TermShape K y := by
  have hx1 : TermShape K x := hx.elim (fun e => e ▸ termShape_null K) id
  obtain ⟨m, c, s, b, hm, hc, hs, hb, rfl⟩ := termUpdate_ok h
  refine Or.inr ⟨_, rfl, ?_, ?_⟩
  · rw [find_insert_ne K.count_ne_next, find_insert_self]
    obtain ⟨n, rfl⟩ := bump_isCounter hc
    exact Or.inr ⟨n, rfl⟩
  · rw [find_insert_self]
    refine Or.inr ⟨_, rfl, fun w2 v hv => ?_⟩
    by_cases hw : w2 = w
    · subst hw
      rw [find_insert_self] at hv
      cases hv
      obtain ⟨n, rfl⟩ := bump_isCounter hb
      exact Or.inr ⟨n, rfl⟩
    · rw [find_insert_ne hw] at hv
      have hmap : IsCounterMap ((find K.next m).getD .null) := by
        rcases hx1 with rfl | ⟨m1, rfl, -, h2⟩
        · simp only [Json.members, Except.ok.injEq] at hm
          subst hm
          exact Or.inl rfl
        · simp only [Json.members, Except.ok.injEq] at hm
          subst hm
          exact h2
      rcases hmap with h0 | ⟨s1, h1, h2⟩
      · rw [h0] at hs
        simp only [Json.members, Except.ok.injEq] at hs
        subst hs
        simp [find] at hv
      · rw [h1] at hs
        simp only [Json.members, Except.ok.injEq] at hs
        subst hs
        exact h2 w2 v hv

theorem termUpdate_returns {K : Keys} (w : String) (x : Json)
    (hx : x = .null ∨ TermShape K x) : ∃ y, termUpdate K w x = .ok y := by
  have hx1 : TermShape K x := hx.elim (fun e => e ▸ termShape_null K) id
  have hm : ∃ m, x.members = .ok m ∧ IsCounter ((find K.count m).getD .null) ∧
      IsCounterMap ((find K.next m).getD .null) := by
    rcases hx1 with rfl | ⟨m, rfl, h1, h2⟩
    · exact ⟨[], rfl, Or.inl rfl, Or.inl rfl⟩
    · exact ⟨m, rfl, h1, h2⟩
  obtain ⟨m, hm, h1, h2⟩ := hm
  obtain ⟨n, hn⟩ := bump_returns h1
  have hs : ∃ s, ((find K.next m).getD .null).members = .ok s ∧
      IsCounter ((find w s).getD .null) := by
    rcases h2 with h0 | ⟨s, h3, h4⟩
    · rw [h0]
      exact ⟨[], rfl, Or.inl rfl⟩
    · rw [h3]
      refine ⟨s, rfl, ?_⟩
      cases hfind : find w s with
      | none => exact Or.inl rfl
      | some v => exact h4 w v hfind
  obtain ⟨s, hs, h5⟩ := hs
  obtain ⟨n2, hn2⟩ := bump_returns h5
  unfold termUpdate
  rw [modify_of hm hn]
  simp only
  have h6 : Json.modify w bump ((find K.next (insert K.count (.num n) m)).getD .null) =
      .ok (.obj (insert w (.num n2) s)) := by
    rw [find_insert_ne (Ne.symm K.count_ne_next)]
    exact modify_of hs hn2
  exact ⟨_, modify_of (j := .obj (insert K.count (.num n) m)) rfl h6⟩

theorem updateTerminal_eq {K : Keys} {words : List String} {idx : Nat} {w : String}
    (h : words[idx]? = some w) : updateTerminal K words idx = termUpdate K w := by
  funext node
  simp only [updateTerminal, termUpdate, h]

theorem descend_eq {words : List String} {i1 : Nat} {f : Json → Except Fault Json} :
    ∀ (p : List String) (s : Nat) (j : Json),
      (∀ i, i < p.length → words[(i1 + (s + i)) % 4294967296]? = p[i]?) →
      descend words i1 f p.length s j = modifyPath p f j
  | [], _, _, _ => rfl
  | w :: ws, s, j, h => by
    have h0 := h 0 (by simp)
    simp only [Nat.add_zero, List.getElem?_cons_zero] at h0
    simp only [List.length_cons, descend, h0, modifyPath]
    have : descend words i1 f ws.length (s + 1) = modifyPath ws f := by
      funext j1
      refine descend_eq ws (s + 1) j1 (fun i hi => ?_)
      have := h (i + 1) (by simp; omega)
      simp only [List.getElem?_cons_succ] at this
      rw [← this]
      congr 2
      omega
    rw [this]

theorem window_length {ws : List String} {i n : Nat} (h : i + n ≤ ws.length) :
    (window ws i n).length = n := by
  unfold window
  rw [List.length_take, List.length_drop]
  omega

theorem window_getElem? {ws : List String} {i n j : Nat} (h : j < n) :
    (window ws i n)[j]? = ws[i + j]? := by
  unfold window
  rw [List.getElem?_take, List.getElem?_drop, if_pos h]

theorem appendStep_eq {K : Keys} {order : Nat} {ws : List String} {i1 : Nat} (doc : Json)
    (hin : i1 + order + 1 < ws.length) (hlen : ws.length ≤ 4294967296) :
    ∃ w, ws[i1 + order + 1]? = some w ∧
      appendStep K order ws i1 doc =
        modifyPath (K.words :: window ws i1 (order + 1)) (termUpdate K w) doc := by
  have hw : ws[i1 + order + 1]? = some (ws[i1 + order + 1]) := List.getElem?_eq_getElem hin
  refine ⟨_, hw, ?_⟩
  unfold appendStep
  rw [Nat.mod_eq_of_lt (show i1 + order + 1 < 4294967296 by omega), updateTerminal_eq hw,
    Nat.mod_eq_of_lt (show order + 1 < 4294967296 by omega)]
  have hl : (window ws i1 (order + 1)).length = order + 1 := window_length (by omega)
  have := @descend_eq ws i1 (termUpdate K ws[i1 + order + 1]) (window ws i1 (order + 1)) 0
  rw [hl] at this
  have e : descend ws i1 (termUpdate K ws[i1 + order + 1]) (order + 1) 0 =
      modifyPath (window ws i1 (order + 1)) (termUpdate K ws[i1 + order + 1]) := by
    funext j
    refine this j (fun i hi => ?_)
    rw [window_getElem? hi, Nat.zero_add, Nat.mod_eq_of_lt (by omega)]
  rw [e]
  rfl

theorem appendFrom_returns {K : Keys} {order : Nat} {ws : List String}
    (hlen : ws.length ≤ 4294967296) :
    ∀ (n i1 : Nat) (doc : Json), i1 + n + order + 1 ≤ ws.length →
      DocAll K (TermShape K) ((order + 1) % 4294967296) doc →
      ∃ doc1, appendFrom K order ws n i1 doc = .ok doc1
  | 0, _, doc, _, _ => ⟨doc, rfl⟩
  | n + 1, i1, doc, hin, hdoc => by
    obtain ⟨w, -, hstep⟩ := appendStep_eq (K := K) doc (show i1 + order + 1 < ws.length by omega) hlen
    have hd : (order + 1) % 4294967296 = order + 1 := Nat.mod_eq_of_lt (by omega)
    have hl : (window ws i1 (order + 1)).length = order + 1 := window_length (by omega)
    have hdoc1 : DocAll K (TermShape K) (window ws i1 (order + 1)).length doc := by
      rw [hl, ← hd]
      exact hdoc
    obtain ⟨doc2, h2⟩ := modifyPath_doc_returns (f := termUpdate K w)
      (fun x hx => termUpdate_returns w x hx) hdoc1
    rw [← hstep] at h2
    have hdoc2 := appendStep_docAll (termUpdate_shape (K := K)) hdoc h2
    obtain ⟨doc1, h1⟩ := appendFrom_returns hlen n (i1 + 1) doc2 (by omega) hdoc2
    refine ⟨doc1, ?_⟩
    unfold appendFrom
    rw [h2]
    simp only
    rw [Nat.mod_eq_of_lt (show i1 + 1 < 4294967296 by omega)]
    exact h1

/-! ## Entries are kept -/

theorem keeps_refl (j : Json) : Keeps j j := fun _ v h => ⟨v, h⟩

theorem keeps_trans {a b c : Json} (h1 : Keeps a b) (h2 : Keeps b c) : Keeps a c := by
  intro p v h
  obtain ⟨v1, hv1⟩ := h1 p v h
  exact h2 p v1 hv1

theorem modify_keeps {k : String} {f : Json → Except Fault Json} {j j1 : Json}
    (hf : ∀ x y, f x = .ok y → Keeps x y) (h : Json.modify k f j = .ok j1) : Keeps j j1 := by
  obtain ⟨m, y, hm, hy, rfl⟩ := modify_ok h
  intro p v hp
  cases p with
  | nil => exact ⟨_, rfl⟩
  | cons w ps =>
    rw [walk_cons_of_members hm] at hp
    rw [walk_cons_of_members (j := .obj (insert k y m)) rfl]
    cases hfind : find w m with
    | none => rw [hfind] at hp; cases hp
    | some c =>
      rw [hfind] at hp
      by_cases hw : w = k
      · subst hw
        rw [find_insert_self]
        rw [hfind] at hy
        exact hf _ _ hy ps v hp
      · rw [find_insert_ne hw, hfind]
        exact ⟨v, hp⟩

theorem bump_keeps (x y : Json) (h : bump x = .ok y) : Keeps x y := by
  intro p v hp
  cases p with
  | nil => exact ⟨_, rfl⟩
  | cons w ps =>
    cases x with
    | null => cases hp
    | num n => cases hp
    | str s => cases hp
    | obj m => simp [bump, Json.toUInt32] at h

theorem termUpdate_keeps {K : Keys} {w : String} (x y : Json) (h : termUpdate K w x = .ok y) :
    Keeps x y := by
  unfold termUpdate at h
  cases h1 : Json.modify K.count bump x with
  | error e => rw [h1] at h; cases h
  | ok node1 =>
    rw [h1] at h
    exact keeps_trans (modify_keeps bump_keeps h1)
      (modify_keeps (fun a b hab => modify_keeps bump_keeps hab) h)

theorem modifyPath_keeps {f : Json → Except Fault Json} (hf : ∀ x y, f x = .ok y → Keeps x y) :
    ∀ (p : List String) (j j1 : Json), modifyPath p f j = .ok j1 → Keeps j j1
  | [], j, j1, h => hf j j1 h
  | _ :: ws, _, _, h => modify_keeps (fun x y hxy => modifyPath_keeps hf ws x y hxy) h

theorem appendFrom_keeps {K : Keys} {order : Nat} {words : List String} :
    ∀ (n i1 : Nat) (doc doc1 : Json), appendFrom K order words n i1 doc = .ok doc1 →
      Keeps doc doc1
  | 0, _, doc, doc1, h => by
    simp only [appendFrom, Except.ok.injEq] at h
    subst h
    exact keeps_refl _
  | n + 1, i1, doc, doc1, h => by
    unfold appendFrom at h
    cases hstep : appendStep K order words i1 doc with
    | error e => rw [hstep] at h; cases h
    | ok doc2 =>
      rw [hstep] at h
      obtain ⟨ctx, w, -, -, -, hpath⟩ := appendStep_ok hstep
      exact keeps_trans (modifyPath_keeps termUpdate_keeps _ _ _ hpath)
        (appendFrom_keeps n _ doc2 doc1 h)

theorem append_keeps {K : Keys} {c c1 : Chain} {ws : List String} (h : append K c ws = .ok c1) :
    Keeps c.m_json c1.m_json := by
  rcases append_ok h with rfl | ⟨-, hl⟩
  · exact keeps_refl _
  · exact appendFrom_keeps _ _ _ _ hl

/-! ## `append` on a well-formed chain -/

theorem loopBound_eq {order size : Nat} (h1 : order + 2 ≤ size) (h2 : size ≤ 4294967296) :
    loopBound order size = size - order - 1 := by
  unfold loopBound
  omega

theorem append_wellFormed {K : Keys} {c c1 : Chain} {ws : List String} (hwf : WellFormed K c)
    (h : append K c ws = .ok c1) : WellFormed K c1 := by
  obtain ⟨ho, hd⟩ := append_docAll (termUpdate_shape (K := K)) hwf.2 h
  exact ⟨ho ▸ hwf.1, hd⟩

theorem append_long {K : Keys} {c : Chain} {ws : List String} (hwf : WellFormed K c)
    (hlo : c.m_order + 2 ≤ ws.length) (hhi : ws.length ≤ 4294967296) :
    ∃ doc, appendFrom K c.m_order ws (ws.length - c.m_order - 1) 0 c.m_json = .ok doc ∧
      append K c ws = .ok ⟨doc, c.m_order⟩ := by
  obtain ⟨doc, hdoc⟩ := appendFrom_returns (K := K) hhi (ws.length - c.m_order - 1) 0 c.m_json
    (by omega) hwf.2
  refine ⟨doc, hdoc, ?_⟩
  unfold append
  have hg : ¬ ws.length < (c.m_order + 2) % 4294967296 := by
    have := Nat.mod_le (c.m_order + 2) 4294967296
    omega
  rw [if_neg hg, loopBound_eq hlo hhi, if_pos (by omega), hdoc]


/-! ## Sorted members and sums -/

theorem mem_insert {k : String} {v : Json} {m : Members} {x : String × Json}
    (h : x ∈ insert k v m) : x = (k, v) ∨ x ∈ m := by
  induction m with
  | nil => simp [insert] at h; exact Or.inl h
  | cons kv rest ih =>
    obtain ⟨k1, v1⟩ := kv
    simp only [insert] at h
    split_ifs at h with h1 h2
    · simpa using h
    · simp only [List.mem_cons] at h ⊢
      rcases h with h | h
      · exact Or.inl h
      · exact Or.inr (Or.inr h)
    · simp only [List.mem_cons] at h ⊢
      rcases h with h | h
      · exact Or.inr (Or.inl h)
      · rcases ih h with h | h
        · exact Or.inl h
        · exact Or.inr (Or.inr h)

theorem find_mem {k : String} {v : Json} {m : Members} (h : find k m = some v) : (k, v) ∈ m := by
  induction m with
  | nil => cases h
  | cons kv rest ih =>
    obtain ⟨k1, v1⟩ := kv
    simp only [find] at h
    split_ifs at h with h1
    · cases h
      subst h1
      exact List.mem_cons_self _ _
    · exact List.mem_cons_of_mem _ (ih h)

theorem find_none_of_lt {k : String} {m : Members}
    (h : ∀ x, x ∈ m → keyLt k x.1 = true) : find k m = none := by
  induction m with
  | nil => rfl
  | cons kv rest ih =>
    obtain ⟨k1, v1⟩ := kv
    have h1 : k1 ≠ k := Ne.symm (keyLt_ne (h (k1, v1) (List.mem_cons_self _ _)))
    simp only [find, if_neg h1]
    exact ih (fun x hx => h x (List.mem_cons_of_mem _ hx))

theorem insert_sorted {k : String} {v : Json} {m : Members} (h : SortedKeys m) :
    SortedKeys (insert k v m) := by
  induction m with
  | nil => simp [insert, SortedKeys]
  | cons kv rest ih =>
    obtain ⟨k1, v1⟩ := kv
    unfold SortedKeys at h ih ⊢
    rw [List.pairwise_cons] at h
    simp only [insert]
    split_ifs with h1 h2
    · rw [List.pairwise_cons]
      refine ⟨fun x hx => ?_, List.pairwise_cons.mpr h⟩
      rcases List.mem_cons.mp hx with rfl | hx
      · exact h1
      · exact keyLt_trans h1 (h.1 x hx)
    · subst h2
      exact List.pairwise_cons.mpr h
    · rw [List.pairwise_cons]
      refine ⟨fun x hx => ?_, ih h.2⟩
      rcases mem_insert hx with rfl | hx
      · exact keyLt_total (by simpa using h1) h2
      · exact h.1 x hx

theorem sumCounts_insert {k : String} {v : Json} {m : Members} (h : SortedKeys m) :
    sumCounts (insert k v m) + ((find k m).getD .null).toNat = sumCounts m + v.toNat := by
  induction m with
  | nil => simp [insert, find, sumCounts, Json.toNat]
  | cons kv rest ih =>
    obtain ⟨k1, v1⟩ := kv
    unfold SortedKeys at h ih
    rw [List.pairwise_cons] at h
    simp only [insert]
    split_ifs with h1 h2
    · have : find k ((k1, v1) :: rest) = none := by
        refine find_none_of_lt (fun x hx => ?_)
        rcases List.mem_cons.mp hx with rfl | hx
        · exact h1
        · exact keyLt_trans h1 (h.1 x hx)
      rw [this]
      simp only [sumCounts, List.map_cons, List.sum_cons, Option.getD_none, Json.toNat]
      omega
    · subst h2
      simp only [sumCounts, List.map_cons, List.sum_cons, find, if_true, Option.getD_some]
      omega
    · have := ih h.2
      simp only [sumCounts, List.map_cons, List.sum_cons, find, if_neg (Ne.symm h2)] at this ⊢
      omega

theorem bump_toNat {x b : Json} (h : bump x = .ok b) :
    b = .num ((x.toNat % 4294967296 + 1) % 4294967296) := by
  cases x with
  | null => simp [bump] at h; subst h; rfl
  | num n => simp [bump, Json.toUInt32] at h; subst h; simp [Json.toNat]
  | str s => simp [bump, Json.toUInt32] at h
  | obj m => simp [bump, Json.toUInt32] at h

/-! ## The invariant of terminal nodes -/

theorem termUpdate_inv {K : Keys} (w : String) (x y : Json)
    (hx : x = .null ∨ TermInv K x) (h : termUpdate K w x = .ok y) : TermInv K y := by
  obtain ⟨m, c, s, b, hm, hc, hs, hb, rfl⟩ := termUpdate_ok h
  have hc1 := bump_toNat hc
  have hb1 := bump_toNat hb
  have hsum : ∀ (hsort : SortedKeys s), sumCounts (insert w b s) +
      ((find w s).getD .null).toNat = sumCounts s + b.toNat := fun hsort => sumCounts_insert hsort
  have hkeys : (∀ key v, find key m = some v → key = K.count ∨ key = K.next) →
      ∀ key v, find key (insert K.next (.obj (insert w b s)) (insert K.count c m)) = some v →
        key = K.count ∨ key = K.next := by
    intro hold key v hv
    by_cases h1 : key = K.next
    · exact Or.inr h1
    · by_cases h2 : key = K.count
      · exact Or.inl h2
      · rw [find_insert_ne h1, find_insert_ne h2] at hv
        exact hold key v hv
  have hnum : (∀ kv, kv ∈ s → ∃ n, kv.2 = .num n) →
      ∀ kv, kv ∈ insert w b s → ∃ n, kv.2 = .num n := by
    intro hold kv hkv
    rcases mem_insert hkv with rfl | hkv
    · exact ⟨_, hb1⟩
    · exact hold kv hkv
  refine ⟨_, (c.toNat), insert w b s, rfl, ?_, ?_, ?_, ?_, ?_, ?_⟩
  · rw [find_insert_ne K.count_ne_next, find_insert_self, hc1]
    rfl
  · rw [find_insert_self]
  · rcases hx with rfl | ⟨m1, t, s1, rfl, -, -, h4, -⟩
    · simp only [Json.members, Except.ok.injEq] at hm
      subst hm
      exact hkeys (fun key v hv => by simp [find] at hv)
    · simp only [Json.members, Except.ok.injEq] at hm
      subst hm
      exact hkeys h4
  · rcases hx with rfl | ⟨m1, t, s1, rfl, -, h3, -, h5, -⟩
    · simp only [Json.members, Except.ok.injEq] at hm
      subst hm
      simp only [find, Option.getD_none, Json.members, Except.ok.injEq] at hs
      subst hs
      exact insert_sorted (by simp [SortedKeys])
    · simp only [Json.members, Except.ok.injEq] at hm
      subst hm
      rw [h3] at hs
      simp only [Option.getD_some, Json.members, Except.ok.injEq] at hs
      subst hs
      exact insert_sorted h5
  · rcases hx with rfl | ⟨m1, t, s1, rfl, -, h3, -, -, h6, -⟩
    · simp only [Json.members, Except.ok.injEq] at hm
      subst hm
      simp only [find, Option.getD_none, Json.members, Except.ok.injEq] at hs
      subst hs
      exact hnum (fun kv hkv => by simp at hkv)
    · simp only [Json.members, Except.ok.injEq] at hm
      subst hm
      rw [h3] at hs
      simp only [Option.getD_some, Json.members, Except.ok.injEq] at hs
      subst hs
      exact hnum h6
  · rcases hx with rfl | ⟨m1, t, s1, rfl, h2, h3, -, h5, -, h7⟩
    · simp only [Json.members, Except.ok.injEq] at hm
      subst hm
      simp only [find, Option.getD_none, Json.members, Except.ok.injEq] at hs
      subst hs
      have := hsum (by simp [SortedKeys])
      rw [hc1, hb1] at *
      simp only [find, Option.getD_none, Json.toNat, sumCounts, List.map_nil, List.sum_nil] at this ⊢
      omega
    · simp only [Json.members, Except.ok.injEq] at hm
      subst hm
      rw [h3] at hs
      simp only [Option.getD_some, Json.members, Except.ok.injEq] at hs
      subst hs
      have := hsum h5
      rw [h2] at hc1
      rw [hc1, hb1] at *
      simp only [Option.getD_some, Json.toNat] at this ⊢
      omega

/-! ## Reachable chains -/

theorem trieAll_walk {P : Json → Prop} :
    ∀ (d : Nat) (k : List String) (j node : Json), TrieAll P d j → k.length = d →
      walk k j = some node → P node
  | 0, [], j, node, h, _, hw => by
    simp only [walk, Option.some.injEq] at hw
    subst hw
    exact h
  | 0, _ :: _, _, _, _, hk, _ => by simp at hk
  | d + 1, [], _, _, _, hk, _ => by simp at hk
  | d + 1, w :: ws, j, node, h, hk, hw => by
    rcases h with rfl | ⟨m, rfl, hm⟩
    · cases hw
    · rw [walk_cons_of_members (j := .obj m) rfl] at hw
      cases hfind : find w m with
      | none => rw [hfind] at hw; cases hw
      | some v =>
        rw [hfind] at hw
        exact trieAll_walk d ws v node (hm w v hfind) (by simpa using hk) hw

theorem walk_num (n : Nat) (w : String) (ws : List String) : walk (w :: ws) (.num n) = none := rfl

theorem termInv_deep {K : Keys} {node : Json} (h : TermInv K node) (k : List String)
    (hk : 3 ≤ k.length) : walk k node = none := by
  obtain ⟨m, t, s, rfl, h1, h2, h3, -, h5, -⟩ := h
  match k, hk with
  | a :: b :: c :: rest, _ =>
    rw [walk_cons_of_members (j := .obj m) rfl]
    cases hfind : find a m with
    | none => rfl
    | some v =>
      rcases h3 a v hfind with rfl | rfl
      · rw [h1] at hfind
        cases hfind
        rfl
      · rw [h2] at hfind
        cases hfind
        show walk (b :: c :: rest) (.obj s) = none
        rw [walk_cons_of_members (j := .obj s) rfl]
        cases hfind2 : find b s with
        | none => rfl
        | some v2 =>
          obtain ⟨n, hn⟩ := h5 _ (find_mem hfind2)
          simp only at hn
          subst hn
          rfl

theorem trieAll_deep {K : Keys} :
    ∀ (d : Nat) (k : List String) (j : Json), TrieAll (TermInv K) d j → d + 3 ≤ k.length →
      walk k j = none
  | 0, k, j, h, hk => termInv_deep h k (by omega)
  | d + 1, [], _, _, hk => by simp at hk
  | d + 1, w :: ws, j, h, hk => by
    rcases h with rfl | ⟨m, rfl, hm⟩
    · rfl
    · rw [walk_cons_of_members (j := .obj m) rfl]
      cases hfind : find w m with
      | none => rfl
      | some v => exact trieAll_deep d ws v (hm w v hfind) (by simp at hk; omega)

theorem constructEmpty_docAll (K : Keys) (P : Json → Prop) (d order : Nat) :
    DocAll K P d (constructEmpty K order).m_json := by
  refine ⟨_, rfl, fun root h => ?_⟩
  simp [insert, find, K.order_ne_words] at h

theorem appendAll_docAll {K : Keys} {P : Json → Prop}
    (hf : ∀ w x y, (x = .null ∨ P x) → termUpdate K w x = .ok y → P y) :
    ∀ (seqs : List (List String)) (c c1 : Chain),
      DocAll K P ((c.m_order + 1) % 4294967296) c.m_json → appendAll K c seqs = .ok c1 →
      c1.m_order = c.m_order ∧ DocAll K P ((c1.m_order + 1) % 4294967296) c1.m_json
  | [], c, c1, hdoc, h => by
    simp only [appendAll, Except.ok.injEq] at h
    subst h
    exact ⟨rfl, hdoc⟩
  | ws :: rest, c, c1, hdoc, h => by
    unfold appendAll at h
    cases happ : append K c ws with
    | error e => rw [happ] at h; cases h
    | ok c2 =>
      rw [happ] at h
      obtain ⟨ho, hd⟩ := append_docAll hf hdoc happ
      obtain ⟨ho1, hd1⟩ := appendAll_docAll hf rest c2 c1 hd h
      exact ⟨ho1.trans ho, hd1⟩

theorem reachable_docAll {K : Keys} {P : Json → Prop}
    (hf : ∀ w x y, (x = .null ∨ P x) → termUpdate K w x = .ok y → P y)
    {order : Nat} {c : Chain} (h : Reachable K order c) :
    c.m_order = order ∧ DocAll K P ((order + 1) % 4294967296) c.m_json := by
  obtain ⟨seqs, hs⟩ := h
  obtain ⟨ho, hd⟩ := appendAll_docAll hf seqs _ c (constructEmpty_docAll K P _ order) hs
  have ho1 : c.m_order = order := ho
  rw [ho1] at hd
  exact ⟨ho1, hd⟩

theorem reachable_termInv {K : Keys} {order : Nat} {c : Chain} (h : Reachable K order c)
    {k : List String} {node : Json} (hk : k.length = order + 1)
    (hnode : c.terminal K k = some node) : TermInv K node := by
  obtain ⟨-, top, htop, hroot⟩ := reachable_docAll (termUpdate_inv (K := K)) h
  unfold Chain.terminal at hnode
  rw [htop, walk_cons_of_members (j := .obj top) rfl] at hnode
  cases hfind : find K.words top with
  | none => rw [hfind] at hnode; cases hnode
  | some root =>
    rw [hfind] at hnode
    have hnode1 : walk k root = some node := hnode
    by_cases hsmall : order + 1 < 4294967296
    · rw [Nat.mod_eq_of_lt hsmall] at hroot
      exact trieAll_walk _ k root node (hroot root hfind) hk hnode1
    · have := trieAll_deep _ k root (hroot root hfind) (by omega)
      rw [this] at hnode1
      cases hnode1

theorem reachable_wellFormed {K : Keys} {order : Nat} {c : Chain} (ho : order < 4294967296)
    (h : Reachable K order c) : WellFormed K c := by
  obtain ⟨h1, h2⟩ := reachable_docAll (termUpdate_shape (K := K)) h
  rw [← h1] at h2 ho
  exact ⟨ho, h2⟩

theorem appendAll_append {K : Keys} :
    ∀ (s1 s2 : List (List String)) (c c1 : Chain), appendAll K c s1 = .ok c1 →
      appendAll K c (s1 ++ s2) = appendAll K c1 s2
  | [], s2, c, c1, h => by
    simp only [appendAll, Except.ok.injEq] at h
    subst h
    rfl
  | ws :: rest, s2, c, c1, h => by
    unfold appendAll at h
    cases happ : append K c ws with
    | error e => rw [happ] at h; cases h
    | ok c2 =>
      rw [happ] at h
      show appendAll K c ((ws :: rest) ++ s2) = _
      rw [List.cons_append, appendAll, happ]
      exact appendAll_append rest s2 c2 c1 h

theorem append_of_loop {K : Keys} {c : Chain} {ws : List String} {n : Nat} {doc : Json}
    (hg : ¬ ws.length < (c.m_order + 2) % 4294967296)
    (hn : loopBound c.m_order ws.length = n) (hb : n < 4294967296)
    (h : appendFrom K c.m_order ws n 0 c.m_json = .ok doc) :
    append K c ws = .ok ⟨doc, c.m_order⟩ := by
  unfold append
  rw [if_neg hg, hn, if_pos hb, h]

theorem loopBound_zero_two : loopBound 0 2 = 1 := by decide

theorem chainA_step (x t : Nat) :
    append specKeys (chainA x t) ["a", "a"] =
      .ok (chainA ((x % 4294967296 + 1) % 4294967296) ((t % 4294967296 + 1) % 4294967296)) :=
  append_of_loop (c := chainA x t) (n := 1) (by show ¬ 2 < (0 + 2) % 4294967296; decide)
    loopBound_zero_two (by decide) rfl

theorem chainAB_step (x y t : Nat) :
    append specKeys (chainAB x y t) ["a", "b"] =
      .ok (chainAB x ((y % 4294967296 + 1) % 4294967296) ((t % 4294967296 + 1) % 4294967296)) :=
  append_of_loop (c := chainAB x y t) (n := 1) (by show ¬ 2 < (0 + 2) % 4294967296; decide)
    loopBound_zero_two (by decide) rfl

theorem chainA_to_AB (x t : Nat) :
    append specKeys (chainA x t) ["a", "b"] =
      .ok (chainAB x 1 ((t % 4294967296 + 1) % 4294967296)) :=
  append_of_loop (c := chainA x t) (n := 1) (by show ¬ 2 < (0 + 2) % 4294967296; decide)
    loopBound_zero_two (by decide) rfl

theorem chainA_steps : ∀ (n x t : Nat), x < 4294967296 → t < 4294967296 →
    appendAll specKeys (chainA x t) (List.replicate n ["a", "a"]) =
      .ok (chainA ((x + n) % 4294967296) ((t + n) % 4294967296))
  | 0, x, t, hx, ht => by
    rw [List.replicate_zero, appendAll, Nat.add_zero, Nat.add_zero, Nat.mod_eq_of_lt hx,
      Nat.mod_eq_of_lt ht]
  | n + 1, x, t, hx, ht => by
    rw [List.replicate_succ, appendAll, chainA_step]
    show appendAll specKeys (chainA _ _) _ = _
    rw [chainA_steps n _ _ (Nat.mod_lt _ (by norm_num)) (Nat.mod_lt _ (by norm_num))]
    have e1 : ((x % 4294967296 + 1) % 4294967296 + n) % 4294967296 = (x + (n + 1)) % 4294967296 := by
      omega
    have e2 : ((t % 4294967296 + 1) % 4294967296 + n) % 4294967296 = (t + (n + 1)) % 4294967296 := by
      omega
    rw [e1, e2]

theorem chainAB_steps : ∀ (n x y t : Nat), y < 4294967296 → t < 4294967296 →
    appendAll specKeys (chainAB x y t) (List.replicate n ["a", "b"]) =
      .ok (chainAB x ((y + n) % 4294967296) ((t + n) % 4294967296))
  | 0, x, y, t, hy, ht => by
    rw [List.replicate_zero, appendAll, Nat.add_zero, Nat.add_zero, Nat.mod_eq_of_lt hy,
      Nat.mod_eq_of_lt ht]
  | n + 1, x, y, t, hy, ht => by
    rw [List.replicate_succ, appendAll, chainAB_step]
    show appendAll specKeys (chainAB _ _ _) _ = _
    rw [chainAB_steps n _ _ _ (Nat.mod_lt _ (by norm_num)) (Nat.mod_lt _ (by norm_num))]
    have e1 : ((y % 4294967296 + 1) % 4294967296 + n) % 4294967296 = (y + (n + 1)) % 4294967296 := by
      omega
    have e2 : ((t % 4294967296 + 1) % 4294967296 + n) % 4294967296 = (t + (n + 1)) % 4294967296 := by
      omega
    rw [e1, e2]

theorem empty_to_A : append specKeys (constructEmpty specKeys 0) ["a", "a"] = .ok (chainA 1 1) :=
  rfl

theorem wrap_run (n : Nat) :
    appendAll specKeys (constructEmpty specKeys 0)
        (List.replicate (n + 1) ["a", "a"] ++ List.replicate (n + 1) ["a", "b"]) =
      .ok (chainAB ((1 + n) % 4294967296) ((1 + n) % 4294967296)
        ((((1 + n) % 4294967296 % 4294967296 + 1) % 4294967296 + n) % 4294967296)) := by
  have h1 : appendAll specKeys (constructEmpty specKeys 0) (List.replicate (n + 1) ["a", "a"]) =
      .ok (chainA ((1 + n) % 4294967296) ((1 + n) % 4294967296)) := by
    rw [List.replicate_succ, appendAll, empty_to_A]
    exact chainA_steps n 1 1 (by norm_num) (by norm_num)
  rw [appendAll_append _ _ _ _ h1, List.replicate_succ, appendAll, chainA_to_AB]
  show appendAll specKeys (chainAB _ _ _) _ = _
  exact chainAB_steps n _ 1 _ (by norm_num) (Nat.mod_lt _ (by norm_num))

theorem wrap_reachable : Reachable specKeys 0 (chainAB 2147483648 2147483648 0) :=
  ⟨List.replicate (2147483647 + 1) ["a", "a"] ++ List.replicate (2147483647 + 1) ["a", "b"],
    wrap_run 2147483647⟩

/-! ## The cumulative scan -/

theorem scan_mem {pos : Nat} : ∀ (m : Members) (cur : Nat) (x : String),
    scan pos m cur = .ok x → x ∈ m.map Prod.fst
  | [], _, _, h => by cases h
  | (k, v) :: rest, cur, x, h => by
    unfold scan at h
    cases hv : v.toUInt32 with
    | error e => rw [hv] at h; cases h
    | ok c =>
      rw [hv] at h
      simp only at h
      split_ifs at h with hlt
      · simp only [Except.ok.injEq] at h
        subst h
        simp
      · exact List.mem_cons_of_mem _ (scan_mem rest _ x h)

theorem scan_cons_num {pos cur c : Nat} {k : String} {rest : Members}
    (hc : cur + c < 4294967296) :
    scan pos ((k, .num c) :: rest) cur =
      if cur + c > pos then .ok k else scan pos rest (cur + c) := by
  have h1 : c % 4294967296 = c := Nat.mod_eq_of_lt (by omega)
  have h2 : (cur + c) % 4294967296 = cur + c := Nat.mod_eq_of_lt hc
  simp only [scan, Json.toUInt32, h1, h2]

theorem scan_count (w : String) : ∀ (m : Members) (cur c : Nat),
    (m.map Prod.fst).Nodup → (∀ kv, kv ∈ m → ∃ n, kv.2 = .num n) →
    cur + sumCounts m < 4294967296 → find w m = some (.num c) →
    (List.range' cur (sumCounts m)).countP (fun p => decide (scan p m cur = .ok w)) = c
  | [], _, _, _, _, _, h => by cases h
  | (k, v) :: rest, cur, c, hnd, hnum, hlt, hfind => by
    obtain ⟨c1, hv⟩ := hnum (k, v) (List.mem_cons_self _ _)
    simp only at hv
    subst hv
    have hs : sumCounts ((k, .num c1) :: rest) = sumCounts rest + c1 := by
      simp only [sumCounts, List.map_cons, List.sum_cons, Json.toNat]
      omega
    rw [hs] at hlt ⊢
    have hsplit := List.range'_append cur c1 (sumCounts rest) 1
    rw [Nat.one_mul] at hsplit
    rw [← hsplit, List.countP_append]
    simp only [List.map_cons, List.nodup_cons] at hnd
    have hnum1 : ∀ kv, kv ∈ rest → ∃ n, kv.2 = .num n :=
      fun kv h => hnum kv (List.mem_cons_of_mem _ h)
    have hfirst : ∀ p, p ∈ List.range' cur c1 →
        scan p ((k, .num c1) :: rest) cur = .ok k := by
      intro p hp
      rw [List.mem_range'_1] at hp
      rw [scan_cons_num (by omega), if_pos (by omega)]
    have hsecond : ∀ p, p ∈ List.range' (cur + c1) (sumCounts rest) →
        scan p ((k, .num c1) :: rest) cur = scan p rest (cur + c1) := by
      intro p hp
      rw [List.mem_range'_1] at hp
      rw [scan_cons_num (by omega), if_neg (by omega)]
    by_cases hkw : k = w
    · subst hkw
      simp only [find, if_true, Option.some.injEq, Json.num.injEq] at hfind
      subst hfind
      have h1 : (List.range' cur c1).countP
          (fun p => decide (scan p ((k, .num c1) :: rest) cur = .ok k)) = c1 := by
        have := (List.countP_eq_length (l := List.range' cur c1)
          (p := fun p => decide (scan p ((k, .num c1) :: rest) cur = .ok k))).mpr
          (fun p hp => by simp [hfirst p hp])
        rw [this, List.length_range']
      have h2 : (List.range' (cur + c1) (sumCounts rest)).countP
          (fun p => decide (scan p ((k, .num c1) :: rest) cur = .ok k)) = 0 := by
        rw [List.countP_eq_zero]
        intro p hp hdec
        rw [hsecond p hp] at hdec
        exact hnd.1 (scan_mem rest _ k (of_decide_eq_true hdec))
      rw [h1, h2, Nat.add_zero]
    · simp only [find, if_neg hkw] at hfind
      have h1 : (List.range' cur c1).countP
          (fun p => decide (scan p ((k, .num c1) :: rest) cur = .ok w)) = 0 := by
        rw [List.countP_eq_zero]
        intro p hp hdec
        rw [hfirst p hp] at hdec
        have := of_decide_eq_true hdec
        simp only [Except.ok.injEq] at this
        exact hkw this
      have h2 : (List.range' (cur + c1) (sumCounts rest)).countP
          (fun p => decide (scan p ((k, .num c1) :: rest) cur = .ok w)) =
          (List.range' (cur + c1) (sumCounts rest)).countP
          (fun p => decide (scan p rest (cur + c1) = .ok w)) := by
        refine List.countP_congr (fun p hp => ?_)
        rw [hsecond p hp]
      rw [h1, h2, Nat.zero_add]
      exact scan_count w rest (cur + c1) c hnd.2 hnum1 (by omega) hfind


/-! ## `nextWord` -/

theorem nextWord_short {K : Keys} {c : Chain} {ws : List String} (r : Nat)
    (hord : c.m_order + 1 < 4294967296) (hlen : ws.length < c.m_order + 1) :
    nextWord K c ws r = .ok ("", c) := by
  unfold nextWord minWordCount
  rw [Nat.mod_eq_of_lt hord, if_pos hlen]

theorem scanJson_mem {pos : Nat} {j : Json} {x : String} (h : scanJson pos j = .ok x) :
    ∃ sm, j = .obj sm ∧ x ∈ sm.map Prod.fst := by
  cases j with
  | null => cases h
  | num n =>
    simp only [scanJson, Json.toUInt32] at h
    split_ifs at h
  | str s => cases h
  | obj sm => exact ⟨sm, rfl, scan_mem sm 0 x h⟩

theorem sample_mem {K : Keys} {node : Json} {r : Nat} {x : String}
    (h : sample K node r = .ok x) :
    ∃ m sm, node = .obj m ∧ successorsOf K node = some (.obj sm) ∧ x ∈ sm.map Prod.fst := by
  unfold sample at h
  cases hc : readCount K node with
  | error e => rw [hc] at h; cases h
  | ok count =>
    rw [hc] at h
    simp only at h
    split_ifs at h with h1 h2
    obtain ⟨sm, hsm, hx⟩ := scanJson_mem h
    cases node with
    | null => simp [readCount, Json.members, find, Json.toUInt32] at hc
    | num n => simp [readCount, Json.members] at hc
    | str s => simp [readCount, Json.members] at hc
    | obj m =>
      refine ⟨m, sm, rfl, ?_, hx⟩
      simp only [nextWordsOf] at hsm
      show find K.next m = some (.obj sm)
      cases hfind : find K.next m with
      | none => rw [hfind] at hsm; cases hsm
      | some v => rw [hfind] at hsm; simpa using hsm

theorem nextWord_domain {K : Keys} {c c1 : Chain} {ws : List String} {r : Nat} {x : String}
    (h : nextWord K c ws r = .ok (x, c1)) :
    x = "" ∨ ∃ node sm, c.terminal K (lastWords (minWordCount c.m_order) ws) = some node ∧
      successorsOf K node = some (.obj sm) ∧ x ∈ sm.map Prod.fst := by
  unfold nextWord at h
  split_ifs at h with hshort
  · simp only [Except.ok.injEq, Prod.mk.injEq] at h
    exact Or.inl h.1.symm
  · cases hm : c.m_json.members with
    | error e => rw [hm] at h; cases h
    | ok top =>
      rw [hm] at h
      simp only at h
      cases hw : walk (lastWords (minWordCount c.m_order) ws) ((find K.words top).getD .null) with
      | none =>
        rw [hw] at h
        simp only [Except.ok.injEq, Prod.mk.injEq] at h
        exact Or.inl h.1.symm
      | some node =>
        rw [hw] at h
        simp only at h
        cases hs : sample K node r with
        | error e => rw [hs] at h; cases h
        | ok w =>
          rw [hs] at h
          simp only [Except.ok.injEq, Prod.mk.injEq] at h
          obtain ⟨m, sm, hnode, hsucc, hx⟩ := sample_mem hs
          right
          refine ⟨node, sm, ?_, hsucc, h.1 ▸ hx⟩
          unfold Chain.terminal
          rw [walk_cons_of_members hm]
          cases hfind : find K.words top with
          | none =>
            rw [hfind] at hw
            have := walk_null (lastWords (minWordCount c.m_order) ws)
            simp only [Option.getD_none] at hw
            rw [hw] at this
            simp only [Option.getD_some] at this
            rw [this] at hnode
            cases hnode
          | some root =>
            rw [hfind] at hw
            exact hw

/-! ## The effect of `append` on a well-formed chain -/

theorem append_effect {K : Keys} {c : Chain} {ws : List String} (hwf : WellFormed K c)
    (hlo : c.m_order + 2 ≤ ws.length) (hhi : ws.length ≤ 4294967296) :
    ∃ c1, append K c ws = .ok c1 ∧
      ∀ (k : List String) (w : String), k.length = c.m_order + 1 →
        c1.succCount K k w =
          (c.succCount K k w + successorCount c.m_order ws k w) % 4294967296 ∧
        c1.totalCount K k = (c.totalCount K k + contextCount c.m_order ws k) % 4294967296 := by
  obtain ⟨doc, hloop, happ⟩ := append_long hwf hlo hhi
  refine ⟨_, happ, fun k w hk => ?_⟩
  obtain ⟨h1, h2⟩ := appendFrom_counts (K := K) hhi _ 0 _ _ (by omega) hloop k hk
  unfold Chain.succCount Chain.totalCount successorCount contextCount
  rw [List.range_eq_range']
  exact ⟨h2 w, h1⟩

theorem append_short {K : Keys} {c : Chain} {ws : List String}
    (hord : c.m_order + 2 < 4294967296) (hlen : ws.length < c.m_order + 2) :
    append K c ws = .ok c := by
  unfold append
  rw [Nat.mod_eq_of_lt hord, if_pos hlen]

theorem constructEmpty_wellFormed (K : Keys) {order : Nat} (h : order < 4294967296) :
    WellFormed K (constructEmpty K order) :=
  reachable_wellFormed h ⟨[], rfl⟩

theorem scenario_reachable : Reachable specKeys 1 scenarioChain :=
  ⟨[["a", "b", "c"], ["a", "b", "d"]], rfl⟩

theorem lastWords_zero (ws : List String) : lastWords 0 ws = [] := by
  unfold lastWords
  rw [Nat.sub_zero, List.drop_length]

theorem nextWord_empty_max_order (ws : List String) (r : Nat) :
    nextWord specKeys (constructEmpty specKeys 4294967295) ws r = .error .typeError := by
  have h0 : minWordCount (constructEmpty specKeys 4294967295).m_order = 0 := by decide
  unfold nextWord
  rw [h0, if_neg (Nat.not_lt_zero _), lastWords_zero]
  rfl

/-! ## Which contexts a chain holds -/

theorem append_ok_loop {K : Keys} {c c1 : Chain} {ws : List String}
    (h : append K c ws = .ok c1) :
    c1 = c ∨ (loopBound c.m_order ws.length < 4294967296 ∧ c1.m_order = c.m_order ∧
      appendFrom K c.m_order ws (loopBound c.m_order ws.length) 0 c.m_json = .ok c1.m_json) := by
  unfold append at h
  split_ifs at h with h1 h2
  · simp only [Except.ok.injEq] at h
    exact Or.inl h.symm
  · right
    cases hl : appendFrom K c.m_order ws (loopBound c.m_order ws.length) 0 c.m_json with
    | error e => rw [hl] at h; cases h
    | ok doc =>
      rw [hl] at h
      simp only [Except.ok.injEq] at h
      subst h
      exact ⟨h2, rfl, rfl⟩
  · cases hl : appendFrom K c.m_order ws 4294967296 0 c.m_json with
    | error e => rw [hl] at h; cases h
    | ok doc => rw [hl] at h; cases h

theorem appendFrom_paths {K : Keys} {order : Nat} {ws : List String}
    (hlen : ws.length ≤ 4294967296) :
    ∀ (n i1 : Nat) (doc doc1 : Json), i1 + n + order + 1 ≤ ws.length →
      appendFrom K order ws n i1 doc = .ok doc1 →
      ∀ k : List String, k.length = order + 1 → walk (K.words :: k) doc1 ≠ none →
        walk (K.words :: k) doc ≠ none ∨
          ∃ i, i + order + 1 < ws.length ∧ window ws i (order + 1) = k
  | 0, _, doc, doc1, _, h, k, _, hk => by
    simp only [appendFrom, Except.ok.injEq] at h
    subst h
    exact Or.inl hk
  | n + 1, i1, doc, doc1, hin, h, k, hklen, hk => by
    unfold appendFrom at h
    cases hstep : appendStep K order ws i1 doc with
    | error e => rw [hstep] at h; cases h
    | ok doc2 =>
      rw [hstep] at h
      simp only at h
      rw [Nat.mod_eq_of_lt (show i1 + 1 < 4294967296 by omega)] at h
      obtain ⟨ctx, w0, hclen, hread, -, hpath⟩ := appendStep_ok hstep
      rw [Nat.mod_eq_of_lt (show order + 1 < 4294967296 by omega)] at hclen
      have hctx : ctx = window ws i1 (order + 1) := by
        refine window_eq hclen (fun j hj => ?_)
        have := hread j (by omega)
        rwa [Nat.mod_eq_of_lt (by omega)] at this
      rcases appendFrom_paths hlen n (i1 + 1) doc2 doc1 (by omega) h k hklen hk with h2 | h2
      · by_cases hkc : k = ctx
        · exact Or.inr ⟨i1, by omega, by rw [hkc, hctx]⟩
        · left
          rwa [walk_modifyPath_ne _ _ _ _ (by simp [hklen, hclen]) (by simpa using hkc) hpath]
            at h2
      · exact Or.inr h2

theorem append_paths {K : Keys} {c c1 : Chain} {ws : List String}
    (hord : c.m_order + 1 < 4294967296) (hlen : ws.length ≤ 4294967296)
    (h : append K c ws = .ok c1) (k : List String) (hk : k.length = c.m_order + 1)
    (hpath : c1.terminal K k ≠ none) :
    c.terminal K k ≠ none ∨
      ∃ i, i + c.m_order + 1 < ws.length ∧ window ws i (c.m_order + 1) = k := by
  rcases append_ok_loop h with rfl | ⟨hb, -, hl⟩
  · exact Or.inl hpath
  · have hn : loopBound c.m_order ws.length + c.m_order + 1 ≤ ws.length := by
      unfold loopBound at hb ⊢
      omega
    exact appendFrom_paths hlen _ 0 _ _ (by omega) hl k hk hpath

theorem appendAll_order {K : Keys} : ∀ (seqs : List (List String)) (c c1 : Chain),
    appendAll K c seqs = .ok c1 → c1.m_order = c.m_order
  | [], c, c1, h => by
    simp only [appendAll, Except.ok.injEq] at h
    rw [h]
  | ws :: rest, c, c1, h => by
    unfold appendAll at h
    cases happ : append K c ws with
    | error e => rw [happ] at h; cases h
    | ok c2 =>
      rw [happ] at h
      have h1 := appendAll_order rest c2 c1 h
      rcases append_ok_loop happ with rfl | ⟨-, ho, -⟩
      · exact h1
      · exact h1.trans ho

theorem appendAll_paths {K : Keys} : ∀ (seqs : List (List String)) (c c1 : Chain),
    c.m_order + 1 < 4294967296 → (∀ s, s ∈ seqs → s.length ≤ 4294967296) →
    appendAll K c seqs = .ok c1 →
    ∀ k : List String, k.length = c.m_order + 1 → c1.terminal K k ≠ none →
      c.terminal K k ≠ none ∨ Seen c.m_order seqs k
  | [], c, c1, _, _, h, k, _, hk => by
    simp only [appendAll, Except.ok.injEq] at h
    subst h
    exact Or.inl hk
  | ws :: rest, c, c1, hord, hseqs, h, k, hklen, hk => by
    unfold appendAll at h
    cases happ : append K c ws with
    | error e => rw [happ] at h; cases h
    | ok c2 =>
      rw [happ] at h
      have ho : c2.m_order = c.m_order := by
        rcases append_ok_loop happ with rfl | ⟨-, ho, -⟩
        · rfl
        · exact ho
      have hrest := appendAll_paths rest c2 c1 (by rw [ho]; exact hord)
        (fun s hs => hseqs s (List.mem_cons_of_mem _ hs)) h k (by rw [ho]; exact hklen) hk
      rcases hrest with h2 | ⟨s, hs, i, hi, hw⟩
      · rcases append_paths hord (hseqs ws (List.mem_cons_self _ _)) happ k hklen h2 with h3 | h3
        · exact Or.inl h3
        · obtain ⟨i, hi, hw⟩ := h3
          exact Or.inr ⟨ws, List.mem_cons_self _ _, i, hi, hw⟩
      · rw [ho] at hi hw
        exact Or.inr ⟨s, List.mem_cons_of_mem _ hs, i, hi, hw⟩

theorem constructEmpty_terminal (K : Keys) (order : Nat) (k : List String) :
    (constructEmpty K order).terminal K k = none := by
  unfold Chain.terminal constructEmpty
  rw [walk_cons_of_members (j := .obj (insert K.order (.num order) [])) rfl]
  simp [insert, find, K.order_ne_words]

theorem seen_occurs {order : Nat} {seqs : List (List String)} {k : List String}
    (h : Seen order seqs k) : Occurs order seqs k := by
  obtain ⟨s, hs, i, hi, hw⟩ := h
  exact ⟨s, hs, i, by omega, hw⟩

theorem lastWords_length {n : Nat} {ws : List String} (h : n ≤ ws.length) :
    (lastWords n ws).length = n := by
  unfold lastWords
  rw [List.length_drop]
  omega

theorem nextWord_unknown {K : Keys} {order : Nat} {seqs : List (List String)} {c : Chain}
    (hord : order + 1 < 4294967296) (hseqs : ∀ s, s ∈ seqs → s.length ≤ 4294967296)
    (hrun : appendAll K (constructEmpty K order) seqs = .ok c) (ws : List String)
    (hws : order + 1 ≤ ws.length) (hun : ¬ Seen order seqs (lastWords (order + 1) ws))
    (r : Nat) : ∃ c1, nextWord K c ws r = .ok ("", c1) := by
  have ho : c.m_order = order := appendAll_order seqs _ c hrun
  have hnone : c.terminal K (lastWords (order + 1) ws) = none := by
    by_contra hsome
    rcases appendAll_paths seqs (constructEmpty K order) c hord hseqs hrun _
      (lastWords_length hws) hsome with h1 | h1
    · exact h1 (constructEmpty_terminal K order _)
    · exact hun h1
  obtain ⟨-, top, htop, -⟩ := reachable_docAll (termUpdate_shape (K := K)) ⟨seqs, hrun⟩
  unfold nextWord minWordCount
  rw [ho, Nat.mod_eq_of_lt hord, if_neg (by omega), htop]
  simp only [Json.members]
  have hwalk : walk (lastWords (order + 1) ws) ((find K.words top).getD .null) = none := by
    unfold Chain.terminal at hnone
    rw [htop, walk_cons_of_members (j := .obj top) rfl] at hnone
    cases hfind : find K.words top with
    | none =>
      have hl := lastWords_length hws
      cases hlw : lastWords (order + 1) ws with
      | nil => rw [hlw] at hl; simp at hl
      | cons a as => rfl
    | some root =>
      rw [hfind] at hnone
      exact hnone
  rw [hwalk]
  exact ⟨_, rfl⟩

/-! ## Loading -/

theorem load_missing_order {K : Keys} {top : Members} (h : find K.order top = none) :
    load K (.obj top) = .error .typeError := by
  simp only [load, Json.members, h, Option.getD_none, Json.toUInt32]

theorem load_order_of_num {K : Keys} {top : Members} {n : Nat} {c : Chain}
    (h : find K.order top = some (.num n)) (hl : load K (.obj top) = .ok c) :
    c.m_order = n % 4294967296 := by
  simp only [load, Json.members, h, Option.getD_some, Json.toUInt32, Json.isNumberUnsigned] at hl
  split_ifs at hl <;> (injection hl with hl; rw [← hl])

theorem insert_self {k : String} {v : Json} {m : Members} (hs : SortedKeys m)
    (h : find k m = some v) : insert k v m = m := by
  induction m with
  | nil => cases h
  | cons kv rest ih =>
    obtain ⟨k1, v1⟩ := kv
    unfold SortedKeys at hs ih
    rw [List.pairwise_cons] at hs
    simp only [insert]
    split_ifs with h1 h2
    · have : find k ((k1, v1) :: rest) = none := by
        refine find_none_of_lt (fun x hx => ?_)
        rcases List.mem_cons.mp hx with rfl | hx
        · exact h1
        · exact keyLt_trans h1 (hs.1 x hx)
      rw [this] at h
      cases h
    · subst h2
      simp only [find, if_true, Option.some.injEq] at h
      rw [h]
    · simp only [find, if_neg (Ne.symm h2)] at h
      rw [ih hs.2 h]

theorem appendStep_docTop {K : Keys} {N order : Nat} {words : List String} {i1 : Nat}
    {doc doc1 : Json} (hdoc : DocTop K N doc) (h : appendStep K order words i1 doc = .ok doc1) :
    DocTop K N doc1 := by
  obtain ⟨top, rfl, hs, ho⟩ := hdoc
  unfold appendStep at h
  obtain ⟨m, v, hm, -, rfl⟩ := modify_ok h
  simp only [Json.members, Except.ok.injEq] at hm
  subst hm
  exact ⟨_, rfl, insert_sorted hs, by rw [find_insert_ne K.order_ne_words]; exact ho⟩

theorem appendFrom_docTop {K : Keys} {N order : Nat} {words : List String} :
    ∀ (n i1 : Nat) (doc doc1 : Json), DocTop K N doc →
      appendFrom K order words n i1 doc = .ok doc1 → DocTop K N doc1
  | 0, _, doc, doc1, hdoc, h => by
    simp only [appendFrom, Except.ok.injEq] at h
    subst h
    exact hdoc
  | n + 1, i1, doc, doc1, hdoc, h => by
    unfold appendFrom at h
    cases hstep : appendStep K order words i1 doc with
    | error e => rw [hstep] at h; cases h
    | ok doc2 =>
      rw [hstep] at h
      exact appendFrom_docTop n _ doc2 doc1 (appendStep_docTop hdoc hstep) h

theorem appendAll_docTop {K : Keys} {N : Nat} :
    ∀ (seqs : List (List String)) (c c1 : Chain), DocTop K N c.m_json →
      appendAll K c seqs = .ok c1 → DocTop K N c1.m_json
  | [], c, c1, hdoc, h => by
    simp only [appendAll, Except.ok.injEq] at h
    subst h
    exact hdoc
  | ws :: rest, c, c1, hdoc, h => by
    unfold appendAll at h
    cases happ : append K c ws with
    | error e => rw [happ] at h; cases h
    | ok c2 =>
      rw [happ] at h
      refine appendAll_docTop rest c2 c1 ?_ h
      rcases append_ok_loop happ with rfl | ⟨-, -, hl⟩
      · exact hdoc
      · exact appendFrom_docTop _ _ _ _ hdoc hl

theorem reachable_docTop {K : Keys} {N : Nat} {c : Chain} (h : Reachable K N c) :
    c.m_order = N ∧ DocTop K N c.m_json := by
  obtain ⟨seqs, hs⟩ := h
  refine ⟨appendAll_order seqs _ c hs, appendAll_docTop seqs _ c ?_ hs⟩
  exact ⟨_, rfl, by simp [insert, SortedKeys], by simp [constructEmpty, insert, find]⟩


/-! ## What `nextWord` leaves behind -/

theorem nextWord_state {K : Keys} {c c1 : Chain} {top : Members} {ws : List String} {r : Nat}
    {w : String} (htop : c.m_json = .obj top) (hs : SortedKeys top)
    (h : nextWord K c ws r = .ok (w, c1)) :
    c1 = c ∨ (find K.words top = none ∧ c1 = ⟨.obj (insert K.words .null top), c.m_order⟩) := by
  have key : c1 = c ∨ c1 = ⟨.obj (insert K.words ((find K.words top).getD .null) top),
      c.m_order⟩ := by
    unfold nextWord at h
    split_ifs at h with hshort
    · simp only [Except.ok.injEq, Prod.mk.injEq] at h
      exact Or.inl h.2.symm
    · rw [htop] at h
      simp only [Json.members] at h
      cases hw : walk (lastWords (minWordCount c.m_order) ws) ((find K.words top).getD .null) with
      | none =>
        rw [hw] at h
        simp only [Except.ok.injEq, Prod.mk.injEq] at h
        exact Or.inr h.2.symm
      | some node =>
        rw [hw] at h
        simp only at h
        cases hsm : sample K node r with
        | error e => rw [hsm] at h; cases h
        | ok w1 =>
          rw [hsm] at h
          simp only [Except.ok.injEq, Prod.mk.injEq] at h
          exact Or.inr h.2.symm
  rcases key with h1 | h1
  · exact Or.inl h1
  · cases hfind : find K.words top with
    | none =>
      rw [hfind] at h1
      exact Or.inr ⟨rfl, h1⟩
    | some root =>
      left
      rw [hfind, Option.getD_some, insert_self hs hfind, ← htop] at h1
      rw [h1]

theorem terminal_fresh_field {K : Keys} {top : Members} {order : Nat} (k : List String)
    (hk : k ≠ []) :
    Chain.terminal K ⟨.obj (insert K.words .null top), order⟩ k = none := by
  unfold Chain.terminal
  rw [walk_cons_of_members (j := .obj (insert K.words .null top)) rfl, find_insert_self]
  cases k with
  | nil => exact absurd rfl hk
  | cons a as => rfl

theorem terminal_no_field {K : Keys} {top : Members} {order : Nat} (k : List String)
    (h : find K.words top = none) : Chain.terminal K ⟨.obj top, order⟩ k = none := by
  unfold Chain.terminal
  rw [walk_cons_of_members (j := .obj top) rfl, h]
  rfl

theorem scenario_sorted :
    SortedKeys [("order", Json.num 1),
      ("root", .obj [("a", .obj [("b", .obj [("successors", .obj [("c", .num 1), ("d", .num 1)]),
        ("total_count", .num 2)])])])] := by
  simp [SortedKeys]
  decide



/-! ## The count check and the scan in general -/

theorem scan_ne_invalidCount {p : Nat} : ∀ (l : Members) (cur : Nat),
    scan p l cur ≠ .error .invalidCount
  | [], _, h => by cases h
  | (k, v) :: rest, cur, h => by
    unfold scan at h
    cases v with
    | null => cases h
    | num n =>
      simp only [Json.toUInt32] at h
      split_ifs at h
      exact scan_ne_invalidCount rest _ h
    | str s => cases h
    | obj m => cases h

theorem scanJson_ne_invalidCount {p : Nat} (j : Json) : scanJson p j ≠ .error .invalidCount := by
  intro h
  cases j with
  | null => cases h
  | num n =>
    simp only [scanJson, Json.toUInt32] at h
    split_ifs at h <;> cases h
  | str s => cases h
  | obj m => exact scan_ne_invalidCount m 0 h

theorem sample_of_total {K : Keys} {m : Members} {T : Nat} (r : Nat)
    (hT : find K.count m = some (.num T)) (hlt : T < 4294967296) :
    (sample K (.obj m) r = .error .invalidCount ↔ 2147483647 < T) ∧
      (1 ≤ T → T ≤ 2147483647 →
        sample K (.obj m) r = scanJson (r % T) (nextWordsOf K (.obj m)) ∧ r % T < T) := by
  have hc : readCount K (.obj m) = .ok T := by
    simp only [readCount, Json.members, hT, Option.getD_some, Json.toUInt32,
      Nat.mod_eq_of_lt hlt]
  constructor
  · constructor
    · intro h
      by_contra hle
      unfold sample at h
      rw [hc] at h
      simp only [if_neg hle] at h
      by_cases h0 : T = 0
      · rw [if_pos h0] at h
        cases h
      · rw [if_neg h0] at h
        exact scanJson_ne_invalidCount _ h
    · intro h
      unfold sample
      rw [hc]
      simp only [if_pos h]
  · intro h1 h2
    refine ⟨?_, Nat.mod_lt _ (by omega)⟩
    unfold sample
    rw [hc]
    simp only [if_neg (show ¬ T > 2147483647 by omega), if_neg (show ¬ T = 0 by omega)]

theorem scanSum_cons (cur : Nat) (k : String) (v : Json) (rest : Members) (j : Nat) :
    scanSum cur ((k, v) :: rest) (j + 1) =
      scanSum ((cur + v.toNat % 4294967296) % 4294967296) rest j := by
  simp only [scanSum, List.take_succ_cons, List.map_cons, List.sum_cons]
  omega

theorem scanSum_zero (cur : Nat) (k : String) (v : Json) (rest : Members) :
    scanSum cur ((k, v) :: rest) 0 = (cur + v.toNat % 4294967296) % 4294967296 := by
  simp [scanSum]

theorem scan_cons_eq {pos cur n : Nat} {k : String} {rest : Members} :
    scan pos ((k, .num n) :: rest) cur =
      if (cur + n % 4294967296) % 4294967296 > pos then .ok k
      else scan pos rest ((cur + n % 4294967296) % 4294967296) := by
  simp only [scan, Json.toUInt32]

theorem scan_first {p : Nat} : ∀ (m : Members) (cur j : Nat) (kv : String × Json),
    (∀ x, x ∈ m → ∃ n, x.2 = .num n) → m[j]? = some kv →
    (∀ i, i < j → scanSum cur m i ≤ p) → p < scanSum cur m j → scan p m cur = .ok kv.1
  | [], _, _, _, _, hj, _, _ => by simp at hj
  | (k, v) :: rest, cur, 0, kv, hnum, hj, _, hp => by
    obtain ⟨n, hn⟩ := hnum (k, v) (List.mem_cons_self _ _)
    simp only at hn
    subst hn
    simp only [List.getElem?_cons_zero, Option.some.injEq] at hj
    subst hj
    rw [scanSum_zero] at hp
    simp only [Json.toNat] at hp
    rw [scan_cons_eq, if_pos hp]
  | (k, v) :: rest, cur, j + 1, kv, hnum, hj, hle, hp => by
    obtain ⟨n, hn⟩ := hnum (k, v) (List.mem_cons_self _ _)
    simp only at hn
    subst hn
    simp only [List.getElem?_cons_succ] at hj
    have h0 := hle 0 (by omega)
    rw [scanSum_zero] at h0
    rw [scan_cons_eq, if_neg (by simp only [Json.toNat] at h0; omega)]
    refine scan_first rest _ j kv (fun x hx => hnum x (List.mem_cons_of_mem _ hx)) hj
      (fun i hi => ?_) ?_
    · have := hle (i + 1) (by omega)
      rwa [scanSum_cons] at this
    · rwa [scanSum_cons] at hp

theorem scan_impossible_iff {p : Nat} : ∀ (m : Members) (cur : Nat),
    (∀ x, x ∈ m → ∃ n, x.2 = .num n) →
    (scan p m cur = .error .impossible ↔ ∀ j, j < m.length → scanSum cur m j ≤ p)
  | [], _, _ => by simp [scan]
  | (k, v) :: rest, cur, hnum => by
    obtain ⟨n, hn⟩ := hnum (k, v) (List.mem_cons_self _ _)
    simp only at hn
    subst hn
    have ih := scan_impossible_iff (p := p) rest ((cur + n % 4294967296) % 4294967296)
      (fun x hx => hnum x (List.mem_cons_of_mem _ hx))
    rw [scan_cons_eq]
    constructor
    · intro h j hj
      split_ifs at h with hgt
      cases j with
      | zero => rw [scanSum_zero]; simp only [Json.toNat]; omega
      | succ j =>
        rw [scanSum_cons]
        exact ih.mp h j (by simpa using hj)
    · intro h
      have h0 := h 0 (by simp)
      rw [scanSum_zero] at h0
      simp only [Json.toNat] at h0
      rw [if_neg (by omega)]
      refine ih.mpr (fun j hj => ?_)
      have := h (j + 1) (by simpa using hj)
      rwa [scanSum_cons] at this

theorem sumCounts_take_le : ∀ (m : Members) (n : Nat), sumCounts (m.take n) ≤ sumCounts m
  | [], n => by simp [sumCounts]
  | _ :: _, 0 => by simp [sumCounts]
  | (k, v) :: rest, n + 1 => by
    have := sumCounts_take_le rest n
    simp only [sumCounts, List.take_succ_cons, List.map_cons, List.sum_cons] at this ⊢
    omega

theorem sum32_eq : ∀ (m : Members), sumCounts m < 4294967296 →
    (m.map (fun kv => kv.2.toNat % 4294967296)).sum = sumCounts m
  | [], _ => rfl
  | (k, v) :: rest, h => by
    simp only [sumCounts, List.map_cons, List.sum_cons] at h ⊢
    have := sum32_eq rest (by simp only [sumCounts]; omega)
    simp only [sumCounts] at this
    rw [this, Nat.mod_eq_of_lt (by omega)]

theorem runningSum_exact {m : Members} (h : sumCounts m < 4294967296) (j : Nat) :
    runningSum m j = sumCounts (m.take (j + 1)) := by
  have h1 := sumCounts_take_le m (j + 1)
  unfold runningSum scanSum
  rw [sum32_eq _ (by omega), Nat.zero_add, Nat.mod_eq_of_lt (by omega)]

/-! ## The pairs a call records and their effect -/

theorem readCtx_of_reads {words : List String} {i1 : Nat} :
    ∀ (p : List String) (s : Nat),
      (∀ i, i < p.length → words[(i1 + (s + i)) % 4294967296]? = p[i]?) →
      readCtx words i1 p.length s = some p
  | [], _, _ => rfl
  | w :: ws, s, h => by
    have h0 := h 0 (by simp)
    simp only [Nat.add_zero, List.getElem?_cons_zero] at h0
    have ih : readCtx words i1 ws.length (s + 1) = some ws :=
      readCtx_of_reads ws (s + 1) (fun i hi => by
      have := h (i + 1) (by simp; omega)
      simp only [List.getElem?_cons_succ] at this
      rw [← this]
      congr 2
      omega)
    simp only [List.length_cons, readCtx, h0, ih]

theorem readCtx_reads {words : List String} {i1 : Nat} :
    ∀ (n s : Nat) (p : List String), readCtx words i1 n s = some p →
      p.length = n ∧ ∀ i, i < n → words[(i1 + (s + i)) % 4294967296]? = p[i]?
  | 0, _, p, h => by
    simp only [readCtx, Option.some.injEq] at h
    subst h
    exact ⟨rfl, fun i hi => absurd hi (Nat.not_lt_zero i)⟩
  | n + 1, s, p, h => by
    unfold readCtx at h
    cases hw : words[(i1 + s) % 4294967296]? with
    | none => rw [hw] at h; cases h
    | some w =>
      rw [hw] at h
      simp only at h
      cases hr : readCtx words i1 n (s + 1) with
      | none => rw [hr] at h; cases h
      | some q =>
        rw [hr] at h
        simp only [Option.some.injEq] at h
        subst h
        obtain ⟨hl, hi⟩ := readCtx_reads n (s + 1) q hr
        refine ⟨by simp [hl], fun i hlt => ?_⟩
        cases i with
        | zero => simpa using hw
        | succ i =>
          have := hi i (by omega)
          simp only [List.getElem?_cons_succ]
          rw [← this]
          congr 2
          omega

theorem appendStep_read {K : Keys} {order : Nat} {words : List String} {i1 : Nat}
    {doc doc1 : Json} (h : appendStep K order words i1 doc = .ok doc1) :
    ∃ ctx w, readStep order words i1 = some (ctx, w) ∧
      ctx.length = (order + 1) % 4294967296 ∧
      modifyPath (K.words :: ctx) (termUpdate K w) doc = .ok doc1 := by
  obtain ⟨ctx, w, hlen, hread, hw, hpath⟩ := appendStep_ok h
  refine ⟨ctx, w, ?_, hlen, hpath⟩
  have hc : readCtx words i1 ctx.length 0 = some ctx :=
    readCtx_of_reads ctx 0 (fun i hi => by rw [Nat.zero_add]; exact hread i hi)
  rw [hlen] at hc
  simp only [readStep, hc, hw]

theorem effect_nil (K : Keys) (d : Nat) (doc : Json) : Effect K d [] doc doc := by
  intro k _
  refine ⟨?_, ?_, fun w => ⟨?_, ?_⟩⟩
  · simp only [List.countP_nil, Nat.add_zero]
    exact (Nat.mod_eq_of_lt (count32_lt _)).symm
  · simp
  · simp only [List.countP_nil, Nat.add_zero]
    exact (Nat.mod_eq_of_lt (count32_lt _)).symm
  · simp

theorem effect_trans {K : Keys} {d : Nat} {s1 s2 : List (List String × String)}
    {a b c : Json} (h1 : Effect K d s1 a b) (h2 : Effect K d s2 b c) :
    Effect K d (s1 ++ s2) a c := by
  intro k hk
  obtain ⟨t1, p1, r1⟩ := h1 k hk
  obtain ⟨t2, p2, r2⟩ := h2 k hk
  refine ⟨?_, ?_, fun w => ⟨?_, ?_⟩⟩
  · rw [t2, t1, List.countP_append]
    omega
  · rw [p2, p1]
    simp only [List.mem_append]
    constructor
    · rintro ((h | ⟨p, hp, hpk⟩) | ⟨p, hp, hpk⟩)
      · exact Or.inl h
      · exact Or.inr ⟨p, Or.inl hp, hpk⟩
      · exact Or.inr ⟨p, Or.inr hp, hpk⟩
    · rintro (h | ⟨p, hp | hp, hpk⟩)
      · exact Or.inl (Or.inl h)
      · exact Or.inl (Or.inr ⟨p, hp, hpk⟩)
      · exact Or.inr ⟨p, hp, hpk⟩
  · rw [(r2 w).1, (r1 w).1, List.countP_append]
    omega
  · rw [(r2 w).2, (r1 w).2]
    simp only [List.mem_append]
    constructor
    · rintro ((h | h) | h)
      · exact Or.inl h
      · exact Or.inr (Or.inl h)
      · exact Or.inr (Or.inr h)
    · rintro (h | h | h)
      · exact Or.inl (Or.inl h)
      · exact Or.inl (Or.inr h)
      · exact Or.inr h

theorem termUpdate_entry {K : Keys} {w : String} {node y : Json}
    (h : termUpdate K w node = .ok y) (w2 : String) :
    ((successorsOf K y).bind (Json.find? w2) ≠ none ↔
      (successorsOf K node).bind (Json.find? w2) ≠ none ∨ w2 = w) := by
  obtain ⟨m, c, s, b, hm, hc, hs, hb, rfl⟩ := termUpdate_ok h
  rw [successorsOf_of_members hm, bind_find?_getD hs]
  show (find K.next (insert K.next _ (insert K.count c m))).bind (Json.find? w2) ≠ none ↔ _
  rw [find_insert_self]
  show find w2 (insert w b s) ≠ none ↔ _
  by_cases hw : w2 = w
  · subst hw
    rw [find_insert_self]
    simp
  · rw [find_insert_ne hw]
    simp [hw]

theorem effect_step {K : Keys} {ctx : List String} {w : String} {doc doc1 : Json}
    (h : modifyPath (K.words :: ctx) (termUpdate K w) doc = .ok doc1) :
    Effect K ctx.length [(ctx, w)] doc doc1 := by
  intro k hk
  have ht := modifyPath_totalAt h k hk
  obtain ⟨y, hy, hwalk⟩ := walk_modifyPath_self _ _ _ h
  have hne : k ≠ ctx → walk (K.words :: k) doc1 = walk (K.words :: k) doc := fun hkc =>
    walk_modifyPath_ne _ _ _ _ (by simp [hk]) (by simpa using hkc) h
  refine ⟨?_, ?_, fun w2 => ⟨?_, ?_⟩⟩
  · rw [ht]
    by_cases hkc : k = ctx
    · subst hkc
      simp
    · have : decide (ctx = k) = false := by simp [Ne.symm hkc]
      simp only [hkc, if_false, List.countP_cons, List.countP_nil, this]
      simpa using (Nat.mod_eq_of_lt (count32_lt _)).symm
  · by_cases hkc : k = ctx
    · subst hkc
      rw [hwalk]
      simp
    · rw [hne hkc]
      constructor
      · exact fun h1 => Or.inl h1
      · rintro (h1 | ⟨p, hp, hpk⟩)
        · exact h1
        · simp only [List.mem_singleton] at hp
          subst hp
          exact absurd hpk.symm hkc
  · rw [modifyPath_succAt h k hk w2]
    by_cases hkc : k = ctx ∧ w2 = w
    · obtain ⟨rfl, rfl⟩ := hkc
      simp
    · have : decide (ctx = k ∧ w = w2) = false := by
        simp only [decide_eq_false_iff_not]
        rintro ⟨h1, h2⟩
        exact hkc ⟨h1.symm, h2.symm⟩
      simp only [hkc, if_false, List.countP_cons, List.countP_nil, this]
      simpa using (Nat.mod_eq_of_lt (count32_lt _)).symm
  · unfold succEntry
    by_cases hkc : k = ctx
    · subst hkc
      rw [hwalk, Option.some_bind, termUpdate_entry hy w2]
      have e : (successorsOf K ((walk (K.words :: k) doc).getD .null)).bind (Json.find? w2) =
          ((walk (K.words :: k) doc).bind (successorsOf K)).bind (Json.find? w2) := by
        cases walk (K.words :: k) doc <;> rfl
      rw [e]
      simp only [List.mem_singleton, Prod.mk.injEq, true_and]
    · rw [hne hkc]
      simp only [List.mem_singleton, Prod.mk.injEq, hkc, false_and, or_false]

theorem appendFrom_effect {K : Keys} {order : Nat} {words : List String} :
    ∀ (n i1 : Nat) (doc doc1 : Json), appendFrom K order words n i1 doc = .ok doc1 →
      Effect K ((order + 1) % 4294967296)
        ((loopIndices n i1).filterMap (readStep order words)) doc doc1
  | 0, _, doc, doc1, h => by
    simp only [appendFrom, Except.ok.injEq] at h
    subst h
    exact effect_nil K _ _
  | n + 1, i1, doc, doc1, h => by
    unfold appendFrom at h
    cases hstep : appendStep K order words i1 doc with
    | error e => rw [hstep] at h; cases h
    | ok doc2 =>
      rw [hstep] at h
      obtain ⟨ctx, w, hread, hlen, hpath⟩ := appendStep_read hstep
      have h1 := effect_step hpath
      rw [hlen] at h1
      have h2 := appendFrom_effect n _ doc2 doc1 h
      have := effect_trans h1 h2
      simp only [loopIndices, List.filterMap_cons, hread]
      exact this

theorem append_effect_all {K : Keys} {c c1 : Chain} {ws : List String}
    (h : append K c ws = .ok c1) :
    c1.m_order = c.m_order ∧
      Effect K ((c.m_order + 1) % 4294967296) (recorded c.m_order ws) c.m_json c1.m_json := by
  unfold append at h
  unfold recorded
  split_ifs at h with h1 h2
  · simp only [Except.ok.injEq] at h
    subst h
    rw [if_pos h1]
    exact ⟨rfl, effect_nil K _ _⟩
  · rw [if_neg h1]
    cases hl : appendFrom K c.m_order ws (loopBound c.m_order ws.length) 0 c.m_json with
    | error e => rw [hl] at h; cases h
    | ok doc =>
      rw [hl] at h
      simp only [Except.ok.injEq] at h
      subst h
      exact ⟨rfl, appendFrom_effect _ _ _ _ hl⟩
  · cases hl : appendFrom K c.m_order ws 4294967296 0 c.m_json with
    | error e => rw [hl] at h; cases h
    | ok doc => rw [hl] at h; cases h

theorem appendAll_effect {K : Keys} : ∀ (seqs : List (List String)) (c c1 : Chain),
    appendAll K c seqs = .ok c1 →
      Effect K ((c.m_order + 1) % 4294967296) (recordedAll c.m_order seqs) c.m_json c1.m_json
  | [], c, c1, h => by
    simp only [appendAll, Except.ok.injEq] at h
    subst h
    exact effect_nil K _ _
  | ws :: rest, c, c1, h => by
    unfold appendAll at h
    cases happ : append K c ws with
    | error e => rw [happ] at h; cases h
    | ok c2 =>
      rw [happ] at h
      obtain ⟨ho, h1⟩ := append_effect_all happ
      have h2 := appendAll_effect rest c2 c1 h
      rw [ho] at h2
      exact effect_trans h1 h2

/-! ## Sampling at the terminal nodes of a chain built from an empty one -/

theorem sumMod_eq : ∀ (m : Members),
    (m.map (fun kv => kv.2.toNat % 4294967296)).sum % 4294967296 = sumCounts m % 4294967296
  | [] => rfl
  | (k, v) :: rest => by
    have ih := sumMod_eq rest
    simp only [sumCounts, List.map_cons, List.sum_cons] at ih ⊢
    omega

theorem scan_numeric {p : Nat} : ∀ (m : Members) (cur : Nat),
    (∀ x, x ∈ m → ∃ n, x.2 = .num n) →
    scan p m cur = .error .impossible ∨ ∃ w, w ∈ m.map Prod.fst ∧ scan p m cur = .ok w
  | [], _, _ => Or.inl rfl
  | (k, v) :: rest, cur, hnum => by
    obtain ⟨n, hn⟩ := hnum (k, v) (List.mem_cons_self _ _)
    simp only at hn
    subst hn
    rw [scan_cons_eq]
    split_ifs with h
    · exact Or.inr ⟨k, by simp, rfl⟩
    · rcases scan_numeric rest _ (fun x hx => hnum x (List.mem_cons_of_mem _ hx)) with h1 | ⟨w, hw, h1⟩
      · exact Or.inl h1
      · exact Or.inr ⟨w, by simp only [List.map_cons, List.mem_cons]; exact Or.inr hw, h1⟩

theorem scan_returns_of_total {p : Nat} {m : Members} (hnum : ∀ x, x ∈ m → ∃ n, x.2 = .num n)
    (hp : p < sumCounts m % 4294967296) :
    ∃ w, w ∈ m.map Prod.fst ∧ scan p m 0 = .ok w := by
  rcases scan_numeric (p := p) m 0 hnum with h | h
  · exfalso
    have hall := (scan_impossible_iff m 0 hnum).1 h
    have hne : m ≠ [] := by
      rintro rfl
      simp [sumCounts] at hp
    have hlen : 0 < m.length := List.length_pos.2 hne
    have hlast := hall (m.length - 1) (by omega)
    have : scanSum 0 m (m.length - 1) = sumCounts m % 4294967296 := by
      unfold scanSum
      rw [show m.length - 1 + 1 = m.length by omega, List.take_length, Nat.zero_add]
      exact sumMod_eq m
    omega
  · exact h

theorem sample_termInv {K : Keys} {node : Json} (h : TermInv K node) (r : Nat) :
    sample K node r ≠ .error .impossible ∧
      (1 ≤ count32 (totalOf K node) → count32 (totalOf K node) ≤ 2147483647 →
        ∃ w sm, sample K node r = .ok w ∧ successorsOf K node = some (.obj sm) ∧
          w ∈ sm.map Prod.fst) := by
  obtain ⟨m, t, s, rfl, hcount, hnext, -, -, hnum, ht⟩ := h
  have htlt : t < 4294967296 := by rw [ht]; exact Nat.mod_lt _ (by norm_num)
  have hc : readCount K (.obj m) = .ok t := by
    simp only [readCount, Json.members, hcount, Option.getD_some, Json.toUInt32,
      Nat.mod_eq_of_lt htlt]
  have hnw : nextWordsOf K (.obj m) = .obj s := by
    simp only [nextWordsOf, hnext, Option.getD_some]
  have htot : count32 (totalOf K (.obj m)) = t := by
    show count32 (find K.count m) = t
    rw [hcount]
    exact Nat.mod_eq_of_lt htlt
  have hret : 1 ≤ t → t ≤ 2147483647 →
      ∃ w, w ∈ s.map Prod.fst ∧ sample K (.obj m) r = .ok w := by
    intro h1 h2
    obtain ⟨hs, hlt⟩ := (sample_of_total (K := K) r hcount htlt).2 h1 h2
    rw [hnw] at hs
    obtain ⟨w, hw, hscan⟩ := scan_returns_of_total (p := r % t) hnum (by rw [← ht]; exact hlt)
    exact ⟨w, hw, by rw [hs]; exact hscan⟩
  constructor
  · by_cases h1 : 1 ≤ t
    · by_cases h2 : t ≤ 2147483647
      · obtain ⟨w, -, hw⟩ := hret h1 h2
        rw [hw]
        exact fun hx => by cases hx
      · have := (sample_of_total (K := K) r hcount htlt).1.2 (by omega)
        rw [this]
        exact fun hx => by cases hx
    · have h0 : t = 0 := by omega
      subst h0
      unfold sample
      rw [hc]
      exact fun hx => by cases hx
  · rw [htot]
    intro h1 h2
    obtain ⟨w, hw, hsample⟩ := hret h1 h2
    exact ⟨w, s, hsample, hnext, hw⟩

theorem reachable_counts {K : Keys} {N : Nat} {seqs : List (List String)} {c : Chain}
    (h : appendAll K (constructEmpty K N) seqs = .ok c) (k : List String)
    (hk : k.length = (N + 1) % 4294967296) :
    c.totalCount K k = totalHits N seqs k % 4294967296 ∧
      (c.terminal K k ≠ none ↔ 1 ≤ totalHits N seqs k) ∧
      ∀ w, c.succCount K k w = succHits N seqs k w % 4294967296 ∧
        (succEntry K c.m_json k w ≠ none ↔ 1 ≤ succHits N seqs k w) := by
  have heff : Effect K ((N + 1) % 4294967296) (recordedAll N seqs)
      (constructEmpty K N).m_json c.m_json := appendAll_effect seqs _ c h
  have hw0 : walk (K.words :: k) (constructEmpty K N).m_json = none :=
    constructEmpty_terminal K N k
  obtain ⟨ht, hp, hs⟩ := heff k hk
  refine ⟨?_, ?_, fun w => ⟨?_, ?_⟩⟩
  · show totalAt K c.m_json k = _
    rw [ht]
    unfold totalAt
    rw [hw0]
    show (0 + _) % _ = _
    rw [Nat.zero_add]
    rfl
  · show walk (K.words :: k) c.m_json ≠ none ↔ _
    rw [hp, hw0]
    unfold totalHits
    show _ ↔ 0 < _
    rw [List.countP_pos_iff]
    constructor
    · rintro (h1 | ⟨p, h1, h2⟩)
      · exact absurd rfl h1
      · exact ⟨p, h1, by simpa using h2⟩
    · rintro ⟨p, h1, h2⟩
      exact Or.inr ⟨p, h1, by simpa using h2⟩
  · show succAt K c.m_json k w = _
    rw [(hs w).1]
    unfold succAt
    rw [hw0]
    show (0 + _) % _ = _
    rw [Nat.zero_add]
    rfl
  · rw [(hs w).2]
    unfold succEntry succHits
    rw [hw0]
    show _ ↔ 0 < _
    rw [List.countP_pos_iff]
    constructor
    · rintro (h1 | h1)
      · exact absurd rfl h1
      · exact ⟨(k, w), h1, by simp⟩
    · rintro ⟨⟨k1, w1⟩, h1, h2⟩
      simp only [decide_eq_true_eq] at h2
      obtain ⟨rfl, rfl⟩ := h2
      exact Or.inr h1

theorem nextWord_of_terminal {K : Keys} {c : Chain} {top : Members} {root node : Json}
    {ws : List String} (r : Nat) (htop : c.m_json = .obj top)
    (hroot : find K.words top = some root) (hlen : minWordCount c.m_order ≤ ws.length)
    (hwalk : walk (lastWords (minWordCount c.m_order) ws) root = some node) :
    nextWord K c ws r =
      match sample K node r with
      | .error e => .error e
      | .ok w => .ok (w, ⟨.obj (insert K.words root top), c.m_order⟩) := by
  unfold nextWord
  rw [if_neg (by omega)]
  cases hs : sample K node r <;>
    simp only [htop, Json.members, hroot, Option.getD_some, hwalk, hs]

theorem nextWord_no_trie {K : Keys} {c : Chain} {top : Members} {ws : List String} (r : Nat)
    (htop : c.m_json = .obj top) (hroot : find K.words top = none) :
    nextWord K c ws r ≠ .error .impossible := by
  unfold nextWord
  split_ifs with hshort
  · exact fun hx => by cases hx
  · simp only [htop, Json.members, hroot, Option.getD_none]
    cases hk : lastWords (minWordCount c.m_order) ws with
    | nil => exact fun hx => by cases hx
    | cons a rest => exact fun hx => by cases hx

theorem nextWord_ne_impossible {K : Keys} {N : Nat} {seqs : List (List String)} {c : Chain}
    (h : appendAll K (constructEmpty K N) seqs = .ok c) (ws : List String) (r : Nat) :
    nextWord K c ws r ≠ .error .impossible := by
  obtain ⟨ho, top, htop, hroot⟩ := reachable_docAll (termUpdate_inv (K := K)) ⟨seqs, h⟩
  cases hfind : find K.words top with
  | none => exact nextWord_no_trie r htop hfind
  | some root =>
    by_cases hshort : ws.length < minWordCount c.m_order
    · unfold nextWord
      rw [if_pos hshort]
      exact fun hx => by cases hx
    · cases hwalk : walk (lastWords (minWordCount c.m_order) ws) root with
      | none =>
        unfold nextWord
        rw [if_neg hshort]
        simp only [htop, Json.members, hfind, Option.getD_some, hwalk]
        exact fun hx => by cases hx
      | some node =>
        rw [nextWord_of_terminal r htop hfind (by omega) hwalk]
        have hl : (lastWords (minWordCount c.m_order) ws).length = (N + 1) % 4294967296 := by
          rw [lastWords_length (by omega), ho]
          rfl
        have hinv : TermInv K node := trieAll_walk _ _ _ _ (hroot root hfind) hl hwalk
        have := (sample_termInv hinv r).1
        cases hs : sample K node r with
        | error e =>
          rw [hs] at this
          intro hx
          simp only at hx
          injection hx with hx
          exact this (by rw [hx])
        | ok w => exact fun hx => by cases hx

theorem nextWord_matched {K : Keys} {N : Nat} {seqs : List (List String)} {c : Chain}
    (h : appendAll K (constructEmpty K N) seqs = .ok c)
    (hc : ∀ k, totalHits N seqs k ≤ 2147483647) (ws : List String) (r : Nat) (node : Json)
    (hlen : minWordCount N ≤ ws.length)
    (hnode : c.terminal K (lastWords (minWordCount N) ws) = some node) :
    ∃ w c1 sm, nextWord K c ws r = .ok (w, c1) ∧ successorsOf K node = some (.obj sm) ∧
      w ∈ sm.map Prod.fst := by
  obtain ⟨ho, top, htop, hroot⟩ := reachable_docAll (termUpdate_inv (K := K)) ⟨seqs, h⟩
  have hl : (lastWords (minWordCount N) ws).length = (N + 1) % 4294967296 :=
    lastWords_length hlen
  obtain ⟨htot, hpres, -⟩ := reachable_counts h _ hl
  have hpos : 1 ≤ totalHits N seqs (lastWords (minWordCount N) ws) :=
    hpres.1 (by rw [hnode]; exact fun hx => by cases hx)
  have hle := hc (lastWords (minWordCount N) ws)
  have hnode1 := hnode
  unfold Chain.terminal at hnode1
  rw [htop, walk_cons_of_members (j := .obj top) rfl] at hnode1
  cases hfind : find K.words top with
  | none => rw [hfind] at hnode1; cases hnode1
  | some root =>
    rw [hfind] at hnode1
    have hwalk : walk (lastWords (minWordCount N) ws) root = some node := hnode1
    have hinv : TermInv K node := trieAll_walk _ _ _ _ (hroot root hfind) hl hwalk
    have hcount : count32 (totalOf K node) = totalHits N seqs (lastWords (minWordCount N) ws) := by
      have : c.totalCount K (lastWords (minWordCount N) ws) = count32 (totalOf K node) := by
        show count32 ((walk _ c.m_json).bind (totalOf K)) = _
        have hn : walk (K.words :: lastWords (minWordCount N) ws) c.m_json = some node := hnode
        rw [hn]
        rfl
      rw [← this, htot]
      exact Nat.mod_eq_of_lt (by omega)
    obtain ⟨w, sm, hs, hsucc, hw⟩ := (sample_termInv hinv r).2 (by omega) (by omega)
    rw [← ho] at hlen hwalk
    exact ⟨w, ⟨.obj (insert K.words root top), c.m_order⟩, sm,
      by rw [nextWord_of_terminal r htop hfind hlen hwalk, hs], hsucc, hw⟩

/-! ## The values of the successor counts -/

theorem bump_bounded {x b : Json} (h : bump x = .ok b) : ∃ n, b = .num n ∧ n < 4294967296 := by
  rw [bump_toNat h]
  exact ⟨_, rfl, Nat.mod_lt _ (by norm_num)⟩

theorem termUpdate_bounded {K : Keys} (w : String) (x y : Json)
    (hx : x = .null ∨ SuccBounded K x) (h : termUpdate K w x = .ok y) : SuccBounded K y := by
  obtain ⟨m, c, s, b, hm, hc, hs, hb, rfl⟩ := termUpdate_ok h
  intro s1 hs1 w2 v hv
  have e : successorsOf K (.obj (insert K.next (.obj (insert w b s)) (insert K.count c m))) =
      some (.obj (insert w b s)) := by
    show find K.next (insert K.next _ _) = _
    rw [find_insert_self]
  rw [e] at hs1
  simp only [Option.some.injEq, Json.obj.injEq] at hs1
  subst hs1
  by_cases hw : w2 = w
  · subst hw
    rw [find_insert_self] at hv
    simp only [Option.some.injEq] at hv
    subst hv
    exact bump_bounded hb
  · rw [find_insert_ne hw] at hv
    rcases hx with rfl | hx
    · simp only [Json.members, Except.ok.injEq] at hm
      subst hm
      simp only [find, Option.getD_none, Json.members, Except.ok.injEq] at hs
      subst hs
      simp [find] at hv
    · have hsucc : successorsOf K x = find K.next m := successorsOf_of_members hm
      cases hn : find K.next m with
      | none =>
        rw [hn] at hs
        simp only [Option.getD_none, Json.members, Except.ok.injEq] at hs
        subst hs
        simp [find] at hv
      | some sj =>
        rw [hn] at hs
        simp only [Option.getD_some] at hs
        rcases members_ok hs with ⟨-, rfl⟩ | rfl
        · simp [find] at hv
        · exact hx s (by rw [hsucc, hn]) w2 v hv

theorem reachable_succ_value {K : Keys} {N : Nat} {seqs : List (List String)} {c : Chain}
    (h : appendAll K (constructEmpty K N) seqs = .ok c) (k : List String)
    (hk : k.length = (N + 1) % 4294967296) (w : String) (v : Json)
    (hv : succEntry K c.m_json k w = some v) :
    v = .num (succHits N seqs k w % 4294967296) := by
  obtain ⟨-, top, htop, hroot⟩ := reachable_docAll (termUpdate_bounded (K := K)) ⟨seqs, h⟩
  have hcount := ((reachable_counts h k hk).2.2 w).1
  have hsa : c.succCount K k w = count32 (succEntry K c.m_json k w) := rfl
  rw [hsa, hv] at hcount
  unfold succEntry at hv
  rw [htop, walk_cons_of_members (j := .obj top) rfl] at hv
  cases hfind : find K.words top with
  | none => rw [hfind] at hv; cases hv
  | some root =>
    rw [hfind] at hv
    simp only [Option.some_bind] at hv
    cases hwalk : walk k root with
    | none => rw [hwalk] at hv; cases hv
    | some node =>
      rw [hwalk] at hv
      simp only [Option.some_bind] at hv
      have hb : SuccBounded K node := trieAll_walk _ _ _ _ (hroot root hfind) hk hwalk
      cases hsucc : successorsOf K node with
      | none => rw [hsucc] at hv; cases hv
      | some sj =>
        rw [hsucc] at hv
        simp only [Option.some_bind] at hv
        cases sj with
        | obj s =>
          obtain ⟨n, rfl, hn⟩ := hb s hsucc w v hv
          simp only [count32, Nat.mod_eq_of_lt hn] at hcount
          rw [hcount]
        | null => cases hv
        | num n => cases hv
        | str s => cases hv

/-! ## When a call of `append` returns -/

theorem termUpdate_of {K : Keys} {w : String} {node : Json} {m s : Members} {c b : Json}
    (hm : node.members = .ok m) (hc : bump ((find K.count m).getD .null) = .ok c)
    (hs : ((find K.next m).getD .null).members = .ok s)
    (hb : bump ((find w s).getD .null) = .ok b) :
    termUpdate K w node = .ok (.obj (insert K.next (.obj (insert w b s)) (insert K.count c m))) := by
  unfold termUpdate
  rw [modify_of hm hc]
  simp only
  refine modify_of (m := insert K.count c m) rfl ?_
  rw [find_insert_ne K.count_ne_next.symm]
  exact modify_of hs hb

theorem bump_of_bumped {x b : Json} (h : bump x = .ok b) : ∃ b1, bump b = .ok b1 := by
  rw [bump_toNat h]
  exact ⟨_, rfl⟩

theorem termUpdate_passes {K : Keys} {w1 w2 : String} {node y : Json}
    (h : termUpdate K w1 node = .ok y) :
    (∃ z, termUpdate K w2 y = .ok z) ↔ ∃ z, termUpdate K w2 node = .ok z := by
  obtain ⟨m, c, s, b, hm, hc, hs, hb, rfl⟩ := termUpdate_ok h
  have hcount : find K.count (insert K.next (.obj (insert w1 b s)) (insert K.count c m)) =
      some c := by
    rw [find_insert_ne K.count_ne_next, find_insert_self]
  have hnext : find K.next (insert K.next (.obj (insert w1 b s)) (insert K.count c m)) =
      some (.obj (insert w1 b s)) := find_insert_self _ _ _
  constructor
  · rintro ⟨z, hz⟩
    obtain ⟨m1, c1, s1, b1, hm1, hc1, hs1, hb1, -⟩ := termUpdate_ok hz
    simp only [Json.members, Except.ok.injEq] at hm1
    subst hm1
    rw [hnext] at hs1
    simp only [Option.getD_some, Json.members, Except.ok.injEq] at hs1
    subst hs1
    by_cases hw : w2 = w1
    · subst hw
      exact ⟨_, termUpdate_of hm hc hs hb⟩
    · rw [find_insert_ne hw] at hb1
      exact ⟨_, termUpdate_of hm hc hs hb1⟩
  · rintro ⟨z, hz⟩
    obtain ⟨m1, c1, s1, b1, hm1, hc1, hs1, hb1, -⟩ := termUpdate_ok hz
    rw [hm] at hm1
    simp only [Except.ok.injEq] at hm1
    subst hm1
    rw [hs] at hs1
    simp only [Except.ok.injEq] at hs1
    subst hs1
    obtain ⟨c2, hc2⟩ := bump_of_bumped hc
    have hm2 : (Json.obj (insert K.next (.obj (insert w1 b s)) (insert K.count c m))).members =
        .ok (insert K.next (.obj (insert w1 b s)) (insert K.count c m)) := rfl
    have hc3 : bump ((find K.count (insert K.next (.obj (insert w1 b s))
        (insert K.count c m))).getD .null) = .ok c2 := by
      rw [hcount]
      exact hc2
    have hs3 : ((find K.next (insert K.next (.obj (insert w1 b s))
        (insert K.count c m))).getD .null).members = .ok (insert w1 b s) := by
      rw [hnext]
      rfl
    by_cases hw : w2 = w1
    · subst hw
      obtain ⟨b2, hb2⟩ := bump_of_bumped hb
      refine ⟨_, termUpdate_of hm2 hc3 hs3 (b := b2) ?_⟩
      rw [find_insert_self]
      exact hb2
    · refine ⟨_, termUpdate_of hm2 hc3 hs3 (b := b1) ?_⟩
      rw [find_insert_ne hw]
      exact hb1

theorem modify_returns_iff {k : String} {f : Json → Except Fault Json} {j : Json} {m : Members}
    (hm : j.members = .ok m) :
    (∃ z, Json.modify k f j = .ok z) ↔ ∃ z, f ((find k m).getD .null) = .ok z := by
  constructor
  · rintro ⟨z, hz⟩
    obtain ⟨m1, v, hm1, hv, -⟩ := modify_ok hz
    rw [hm] at hm1
    simp only [Except.ok.injEq] at hm1
    subst hm1
    exact ⟨v, hv⟩
  · rintro ⟨z, hz⟩
    exact ⟨_, modify_of hm hz⟩

theorem modifyPath_passes {K : Keys} {w1 w2 : String} :
    ∀ (p1 p2 : List String) (doc doc1 : Json), p1.length = p2.length →
      modifyPath p1 (termUpdate K w1) doc = .ok doc1 →
      ((∃ z, modifyPath p2 (termUpdate K w2) doc1 = .ok z) ↔
        ∃ z, modifyPath p2 (termUpdate K w2) doc = .ok z)
  | [], [], _, _, _, h => termUpdate_passes h
  | [], _ :: _, _, _, hl, _ => by simp at hl
  | _ :: _, [], _, _, hl, _ => by simp at hl
  | a :: p1, b :: p2, doc, doc1, hl, h => by
    obtain ⟨m, v, hm, hv, rfl⟩ := modify_ok h
    show (∃ z, Json.modify b (modifyPath p2 (termUpdate K w2)) (.obj (insert a v m)) = .ok z) ↔
      ∃ z, Json.modify b (modifyPath p2 (termUpdate K w2)) doc = .ok z
    rw [modify_returns_iff (j := .obj (insert a v m)) rfl, modify_returns_iff hm]
    by_cases hb : b = a
    · subst hb
      rw [find_insert_self]
      exact modifyPath_passes p1 p2 _ _ (by simpa using hl) hv
    · rw [find_insert_ne hb]

theorem passes_step {K : Keys} {ctx : List String} {w : String} {doc doc1 : Json}
    (h : modifyPath (K.words :: ctx) (termUpdate K w) doc = .ok doc1)
    (q : List String × String) (hq : q.1.length = ctx.length) :
    Passes K doc1 q ↔ Passes K doc q :=
  modifyPath_passes (K.words :: ctx) (K.words :: q.1) doc doc1 (by simp [hq]) h

theorem appendStep_of_read {K : Keys} {order : Nat} {words : List String} {i1 : Nat}
    {ctx : List String} {w : String} (doc : Json)
    (h : readStep order words i1 = some (ctx, w)) :
    appendStep K order words i1 doc = modifyPath (K.words :: ctx) (termUpdate K w) doc := by
  unfold readStep at h
  cases hc : readCtx words i1 ((order + 1) % 4294967296) 0 with
  | none => rw [hc] at h; cases h
  | some p =>
    rw [hc] at h
    simp only at h
    cases hw : words[(i1 + order + 1) % 4294967296]? with
    | none => rw [hw] at h; cases h
    | some w1 =>
      rw [hw] at h
      simp only [Option.some.injEq, Prod.mk.injEq] at h
      obtain ⟨rfl, rfl⟩ := h
      obtain ⟨hlen, hreads⟩ := readCtx_reads _ _ _ hc
      unfold appendStep
      rw [updateTerminal_eq hw, ← hlen]
      have : descend words i1 (termUpdate K w1) p.length 0 = modifyPath p (termUpdate K w1) :=
        funext (fun j => descend_eq p 0 j (fun i hi => hreads i (by omega)))
      rw [this]
      rfl

theorem readStep_length {order : Nat} {words : List String} {i1 : Nat}
    {q : List String × String} (h : readStep order words i1 = some q) :
    q.1.length = (order + 1) % 4294967296 := by
  unfold readStep at h
  cases hc : readCtx words i1 ((order + 1) % 4294967296) 0 with
  | none => rw [hc] at h; cases h
  | some p =>
    rw [hc] at h
    simp only at h
    cases hw : words[(i1 + order + 1) % 4294967296]? with
    | none => rw [hw] at h; cases h
    | some w1 =>
      rw [hw] at h
      simp only [Option.some.injEq] at h
      subst h
      exact (readCtx_reads _ _ _ hc).1

theorem filterMap_readStep_length {order : Nat} {words : List String} {l : List Nat}
    {q : List String × String} (h : q ∈ l.filterMap (readStep order words)) :
    q.1.length = (order + 1) % 4294967296 := by
  rw [List.mem_filterMap] at h
  obtain ⟨i, -, hi⟩ := h
  exact readStep_length hi

theorem recorded_length {order : Nat} {words : List String} {q : List String × String}
    (h : q ∈ recorded order words) : q.1.length = (order + 1) % 4294967296 := by
  unfold recorded at h
  split_ifs at h
  · cases h
  · exact filterMap_readStep_length h

theorem appendFrom_passes {K : Keys} {order : Nat} {words : List String} :
    ∀ (n i1 : Nat) (doc doc1 : Json), appendFrom K order words n i1 doc = .ok doc1 →
      ∀ q : List String × String, q.1.length = (order + 1) % 4294967296 →
        (Passes K doc1 q ↔ Passes K doc q)
  | 0, _, doc, doc1, h, q, _ => by
    simp only [appendFrom, Except.ok.injEq] at h
    subst h
    exact Iff.rfl
  | n + 1, i1, doc, doc1, h, q, hq => by
    unfold appendFrom at h
    cases hstep : appendStep K order words i1 doc with
    | error e => rw [hstep] at h; cases h
    | ok doc2 =>
      rw [hstep] at h
      obtain ⟨ctx, w, -, hlen, hpath⟩ := appendStep_read hstep
      exact (appendFrom_passes n _ doc2 doc1 h q hq).trans
        (passes_step hpath q (by rw [hq, hlen]))

theorem appendFrom_iff {K : Keys} {order : Nat} {words : List String} :
    ∀ (n i1 : Nat) (doc : Json),
      (∃ d, appendFrom K order words n i1 doc = .ok d) ↔
        (∀ i, i ∈ loopIndices n i1 → readStep order words i ≠ none) ∧
          ∀ q, q ∈ (loopIndices n i1).filterMap (readStep order words) → Passes K doc q
  | 0, _, doc => by
    simp only [appendFrom, loopIndices, List.not_mem_nil, List.filterMap_nil, false_implies,
      implies_true, and_self, iff_true]
    exact ⟨doc, rfl⟩
  | n + 1, i1, doc => by
    have ih := fun doc2 => @appendFrom_iff K order words n ((i1 + 1) % 4294967296) doc2
    constructor
    · rintro ⟨d, hd⟩
      unfold appendFrom at hd
      cases hstep : appendStep K order words i1 doc with
      | error e => rw [hstep] at hd; cases hd
      | ok doc2 =>
        rw [hstep] at hd
        obtain ⟨ctx, w, hread, hlen, hpath⟩ := appendStep_read hstep
        obtain ⟨hr, hp⟩ := (ih doc2).1 ⟨d, hd⟩
        constructor
        · intro i hi
          simp only [loopIndices, List.mem_cons] at hi
          rcases hi with rfl | hi
          · rw [hread]
            exact fun hx => by cases hx
          · exact hr i hi
        · intro q hq
          simp only [loopIndices, List.filterMap_cons, hread, List.mem_cons] at hq
          rcases hq with rfl | hq
          · exact ⟨doc2, hpath⟩
          · exact (passes_step hpath q
              (by rw [filterMap_readStep_length hq, hlen])).1 (hp q hq)
    · rintro ⟨hr, hp⟩
      cases hread : readStep order words i1 with
      | none => exact absurd hread (hr i1 (by simp [loopIndices]))
      | some cw =>
        obtain ⟨ctx, w⟩ := cw
        obtain ⟨doc2, hpath⟩ : Passes K doc (ctx, w) :=
          hp (ctx, w) (by simp [loopIndices, hread])
        have hstep : appendStep K order words i1 doc = .ok doc2 := by
          rw [appendStep_of_read doc hread]
          exact hpath
        have hlen : ctx.length = (order + 1) % 4294967296 := readStep_length hread
        obtain ⟨d, hd⟩ := (ih doc2).2 ⟨fun i hi => hr i (by simp [loopIndices, hi]),
          fun q hq => (passes_step hpath q
            (by rw [filterMap_readStep_length hq]; exact hlen.symm)).2
            (hp q (by simp only [loopIndices, List.filterMap_cons, hread, List.mem_cons]
                      exact Or.inr hq))⟩
        refine ⟨d, ?_⟩
        unfold appendFrom
        rw [hstep]
        exact hd

theorem append_returns_iff {K : Keys} {c : Chain} {ws : List String} :
    (∃ c1, append K c ws = .ok c1) ↔
      Runs c.m_order ws ∧ ∀ q, q ∈ recorded c.m_order ws → Passes K c.m_json q := by
  unfold append Runs recorded
  by_cases hg : ws.length < (c.m_order + 2) % 4294967296
  · rw [if_pos hg, if_pos hg]
    exact ⟨fun _ => ⟨Or.inl hg, fun q hq => by cases hq⟩, fun _ => ⟨c, rfl⟩⟩
  · rw [if_neg hg, if_neg hg]
    by_cases hb : loopBound c.m_order ws.length < 4294967296
    · rw [if_pos hb]
      have hiff := @appendFrom_iff K c.m_order ws (loopBound c.m_order ws.length) 0 c.m_json
      constructor
      · rintro ⟨c1, h1⟩
        cases hl : appendFrom K c.m_order ws (loopBound c.m_order ws.length) 0 c.m_json with
        | error e => rw [hl] at h1; cases h1
        | ok doc =>
          obtain ⟨hr, hp⟩ := hiff.1 ⟨doc, hl⟩
          exact ⟨Or.inr ⟨hb, hr⟩, hp⟩
      · rintro ⟨hruns, hp⟩
        rcases hruns with h1 | ⟨-, hr⟩
        · exact absurd h1 hg
        · obtain ⟨doc, hl⟩ := hiff.2 ⟨hr, hp⟩
          rw [hl]
          exact ⟨_, rfl⟩
    · rw [if_neg hb]
      constructor
      · rintro ⟨c1, h1⟩
        cases hl : appendFrom K c.m_order ws 4294967296 0 c.m_json with
        | error e => rw [hl] at h1; cases h1
        | ok doc => rw [hl] at h1; cases h1
      · rintro ⟨hruns, -⟩
        rcases hruns with h1 | ⟨h1, -⟩
        · exact absurd h1 hg
        · exact absurd h1 hb

theorem append_passes {K : Keys} {c c1 : Chain} {ws : List String}
    (h : append K c ws = .ok c1) (q : List String × String)
    (hq : q.1.length = (c.m_order + 1) % 4294967296) :
    Passes K c1.m_json q ↔ Passes K c.m_json q := by
  unfold append at h
  split_ifs at h with h1 h2
  · simp only [Except.ok.injEq] at h
    subst h
    exact Iff.rfl
  · cases hl : appendFrom K c.m_order ws (loopBound c.m_order ws.length) 0 c.m_json with
    | error e => rw [hl] at h; cases h
    | ok doc =>
      rw [hl] at h
      simp only [Except.ok.injEq] at h
      subst h
      exact appendFrom_passes _ _ _ _ hl q hq
  · cases hl : appendFrom K c.m_order ws 4294967296 0 c.m_json with
    | error e => rw [hl] at h; cases h
    | ok doc => rw [hl] at h; cases h

theorem two_appends_iff {K : Keys} {c : Chain} {xs ys : List String} :
    (∃ c2, appendAll K c [xs, ys] = .ok c2) ↔
      (Runs c.m_order xs ∧ ∀ q, q ∈ recorded c.m_order xs → Passes K c.m_json q) ∧
        (Runs c.m_order ys ∧ ∀ q, q ∈ recorded c.m_order ys → Passes K c.m_json q) := by
  constructor
  · rintro ⟨c2, h⟩
    simp only [appendAll] at h
    cases h1 : append K c xs with
    | error e => rw [h1] at h; cases h
    | ok c1 =>
      rw [h1] at h
      simp only at h
      cases h2 : append K c1 ys with
      | error e => rw [h2] at h; cases h
      | ok c3 =>
        have ho := (append_effect_all h1).1
        obtain ⟨hr, hp⟩ := append_returns_iff.1 ⟨c3, h2⟩
        rw [ho] at hr hp
        exact ⟨append_returns_iff.1 ⟨c1, h1⟩, hr, fun q hq =>
          (append_passes h1 q (recorded_length hq)).1 (hp q hq)⟩
  · rintro ⟨hx, hr, hp⟩
    obtain ⟨c1, h1⟩ := append_returns_iff.2 hx
    have ho := (append_effect_all h1).1
    obtain ⟨c3, h2⟩ := (@append_returns_iff K c1 ys).2 ⟨by rw [ho]; exact hr,
      fun q hq => by
        rw [ho] at hq
        exact (append_passes h1 q (recorded_length hq)).2 (hp q hq)⟩
    refine ⟨c3, ?_⟩
    simp only [appendAll, h1, h2]

theorem two_appends_same {K : Keys} {c c2 d2 : Chain} {xs ys : List String}
    (h1 : appendAll K c [xs, ys] = .ok c2) (h2 : appendAll K c [ys, xs] = .ok d2) :
    SameRecord K ((c.m_order + 1) % 4294967296) c2 d2 := by
  have e1 := appendAll_effect _ _ _ h1
  have e2 := appendAll_effect _ _ _ h2
  have o1 := appendAll_order _ _ _ h1
  have o2 := appendAll_order _ _ _ h2
  have hperm : (recordedAll c.m_order [xs, ys]).Perm (recordedAll c.m_order [ys, xs]) := by
    simp only [recordedAll, List.append_nil]
    exact List.perm_append_comm
  refine ⟨o1.trans o2.symm, fun k hk => ?_⟩
  obtain ⟨t1, p1, s1⟩ := e1 k hk
  obtain ⟨t2, p2, s2⟩ := e2 k hk
  refine ⟨?_, ?_, fun w => ⟨?_, ?_⟩⟩
  · show walk (K.words :: k) c2.m_json ≠ none ↔ walk (K.words :: k) d2.m_json ≠ none
    rw [p1, p2]
    constructor
    · rintro (h | ⟨p, hp, hpk⟩)
      · exact Or.inl h
      · exact Or.inr ⟨p, hperm.mem_iff.1 hp, hpk⟩
    · rintro (h | ⟨p, hp, hpk⟩)
      · exact Or.inl h
      · exact Or.inr ⟨p, hperm.mem_iff.2 hp, hpk⟩
  · show totalAt K c2.m_json k = totalAt K d2.m_json k
    rw [t1, t2, hperm.countP_eq]
  · rw [(s1 w).2, (s2 w).2, hperm.mem_iff]
  · show succAt K c2.m_json k w = succAt K d2.m_json k w
    rw [(s1 w).1, (s2 w).1, hperm.countP_eq]

/-! ## Returning calls on well-formed chains, and the largest order -/

theorem append_total {K : Keys} {c : Chain} {ws : List String} (hwf : WellFormed K c)
    (hord : c.m_order + 2 < 4294967296) (hlen : ws.length ≤ 4294967296) :
    ∃ c1, append K c ws = .ok c1 ∧ WellFormed K c1 ∧ c1.m_order = c.m_order := by
  by_cases hshort : ws.length < c.m_order + 2
  · exact ⟨c, append_short hord hshort, hwf, rfl⟩
  · obtain ⟨doc, -, happ⟩ := append_long hwf (by omega) hlen
    exact ⟨_, happ, append_wellFormed hwf happ, rfl⟩

theorem two_appends_total {K : Keys} {c : Chain} {xs ys : List String} (hwf : WellFormed K c)
    (hord : c.m_order + 2 < 4294967296) (hx : xs.length ≤ 4294967296)
    (hy : ys.length ≤ 4294967296) : ∃ c2, appendAll K c [xs, ys] = .ok c2 := by
  obtain ⟨c1, h1, hwf1, ho1⟩ := append_total hwf hord hx
  obtain ⟨c2, h2, -, -⟩ := append_total hwf1 (by rw [ho1]; exact hord) hy
  exact ⟨c2, by simp only [appendAll, h1, h2]⟩

theorem append_wrap_max_order (ws : List String) (hl : ws.length = 4294967297)
    (h0 : ws[0]? = some "x") :
    append specKeys (constructEmpty specKeys 4294967295) ws = .ok rootTerminalChain := by
  have hread : readStep 4294967295 ws 0 = some ([], "x") := by
    unfold readStep
    have e1 : (4294967295 + 1) % 4294967296 = 0 := by decide
    have e2 : (0 + 4294967295 + 1) % 4294967296 = 0 := by decide
    first
      | rw [e1, e2]
      | rw [e1]
    simp only [readCtx, h0]
  have hstep : appendStep specKeys 4294967295 ws 0 (constructEmpty specKeys 4294967295).m_json =
      .ok rootTerminalChain.m_json := by
    rw [appendStep_of_read _ hread]
    rfl
  have hfrom : appendFrom specKeys (constructEmpty specKeys 4294967295).m_order ws 1 0
      (constructEmpty specKeys 4294967295).m_json = .ok rootTerminalChain.m_json := by
    show appendFrom specKeys 4294967295 ws 1 0 _ = _
    unfold appendFrom
    rw [hstep]
    rfl
  have hg : ¬ ws.length < ((constructEmpty specKeys 4294967295).m_order + 2) % 4294967296 := by
    rw [hl]
    decide
  have hn : loopBound (constructEmpty specKeys 4294967295).m_order ws.length = 1 := by
    rw [hl]
    decide
  exact append_of_loop hg hn (by decide) hfrom

theorem nextWord_rootTerminal (r : Nat) :
    nextWord specKeys rootTerminalChain [] r = .ok ("x", rootTerminalChain) := by
  have h : nextWord specKeys rootTerminalChain [] r =
      (match scan (r % 1) [("x", .num 1)] 0 with
        | .error e => .error e
        | .ok w => .ok (w, rootTerminalChain)) := rfl
  rw [h, Nat.mod_one]
  rfl

/-! ## The claims -/

/-- C1 (amended): in every chain that `MarkovChain(order)` followed by any finite
sequence of returning `append` calls produces, every node reached after `order + 1`
word keys holds a number as total count and an object as successors, and the total
count equals the sum of all successor counts reduced modulo `2^32`; the two are equal
whenever that sum is below `2^32`. -/
theorem total_count_eq_sum_mod (K : Keys) (order : Nat) (c : Chain) (h : Reachable K order c)
    (k : List String) (node : Json) (hk : k.length = order + 1)
    (hnode : c.terminal K k = some node) :
    ∃ t s, totalOf K node = some (.num t) ∧ successorsOf K node = some (.obj s) ∧
      t = sumCounts s % 4294967296 ∧ (sumCounts s < 4294967296 → t = sumCounts s) := by
  obtain ⟨m, t, s, rfl, h1, h2, -, -, -, h7⟩ := reachable_termInv h hk hnode
  exact ⟨t, s, h1, h2, h7, fun hlt => by rw [h7, Nat.mod_eq_of_lt hlt]⟩

/-- C1, witness: the terminal node of the context `a b` after `append(["a","b","c"])`
and `append(["a","b","d"])` at order 1. -/
theorem total_count_eq_sum_mod_witness :
    ∃ t s, totalOf specKeys
        (.obj [("successors", .obj [("c", .num 1), ("d", .num 1)]), ("total_count", .num 2)]) =
          some (.num t) ∧
      successorsOf specKeys
        (.obj [("successors", .obj [("c", .num 1), ("d", .num 1)]), ("total_count", .num 2)]) =
          some (.obj s) ∧
      t = sumCounts s % 4294967296 ∧ (sumCounts s < 4294967296 → t = sumCounts s) :=
  total_count_eq_sum_mod specKeys 1 scenarioChain scenario_reachable ["a", "b"] _ rfl rfl

/-- C1, counterexample: at order 0, `2^31` calls `append(["a","a"])` followed by `2^31`
calls `append(["a","b"])` leave the context `a` with total count `0` although its
successor counts sum to `2^32`. -/
theorem total_count_sum_wraps :
    Reachable specKeys 0 (chainAB 2147483648 2147483648 0) ∧
      ∃ node s, (chainAB 2147483648 2147483648 0).terminal specKeys ["a"] = some node ∧
        totalOf specKeys node = some (.num 0) ∧ successorsOf specKeys node = some (.obj s) ∧
        sumCounts s = 4294967296 :=
  ⟨wrap_reachable, _, _, rfl, rfl, rfl, by decide⟩

/-- C2 (amended): on a well-formed chain of order `N`, for a word sequence with
`N + 2 ≤ len(ws) ≤ 2^32`, `append` returns, and for every context `k` of `N + 1` words
and every word `w` the successor count of `w` at `k` afterwards is its value before plus
the number of indices `i ≤ len(ws) - N - 2` with `ws[i..i+N] = k` and `ws[i+N+1] = w`,
reduced modulo `2^32`, and the total count at `k` is its value before plus the number
of indices with `ws[i..i+N] = k`, reduced modulo `2^32` (counts read as 32-bit unsigned
values, `0` when absent). -/
theorem append_counts (K : Keys) (c : Chain) (ws : List String) (hwf : WellFormed K c)
    (hlo : c.m_order + 2 ≤ ws.length) (hhi : ws.length ≤ 4294967296) :
    ∃ c1, append K c ws = .ok c1 ∧
      ∀ (k : List String) (w : String), k.length = c.m_order + 1 →
        c1.succCount K k w =
          (c.succCount K k w + successorCount c.m_order ws k w) % 4294967296 ∧
        c1.totalCount K k = (c.totalCount K k + contextCount c.m_order ws k) % 4294967296 :=
  append_effect hwf hlo hhi

/-- C2, witness: `append(["a","b","c"])` on the empty chain of order 1. -/
theorem append_counts_witness :
    ∃ c1, append specKeys (constructEmpty specKeys 1) ["a", "b", "c"] = .ok c1 ∧
      ∀ (k : List String) (w : String), k.length = (constructEmpty specKeys 1).m_order + 1 →
        c1.succCount specKeys k w =
          ((constructEmpty specKeys 1).succCount specKeys k w +
            successorCount (constructEmpty specKeys 1).m_order ["a", "b", "c"] k w)
              % 4294967296 ∧
        c1.totalCount specKeys k =
          ((constructEmpty specKeys 1).totalCount specKeys k +
            contextCount (constructEmpty specKeys 1).m_order ["a", "b", "c"] k) % 4294967296 :=
  append_counts specKeys (constructEmpty specKeys 1) ["a", "b", "c"]
    (constructEmpty_wellFormed specKeys (by decide)) (by decide) (by decide)

/-- C2, counterexample: on the chain of order 0 whose counters for the context `a`
stand at `2^32 - 1`, `append(["a","b"])` leaves the count of `b` at `0`, not at its
value before plus the one matching index. -/
theorem append_counts_overflow :
    ∃ c1, append specKeys fullChain ["a", "b"] = .ok c1 ∧
      c1.succCount specKeys ["a"] "b" ≠
        fullChain.succCount specKeys ["a"] "b" + successorCount 0 ["a", "b"] ["a"] "b" :=
  ⟨_, rfl, by decide⟩

/-- C3 (failing input): at order `2^32 - 1` the guard of `append` compares the length
with `m_order + 2 = 1`, so the one-word sequence `["a"]`, shorter than `order + 2`, is
not skipped: the first iteration writes a count and the successor `a` into the trie
field, the second reads `words[1]` past the end. -/
theorem append_short_max_order :
    ["a"].length < 4294967295 + 2 ∧
      append specKeys (constructEmpty specKeys 4294967295) ["a"] = .error .outOfRange ∧
      appendStep specKeys 4294967295 ["a"] 0 (constructEmpty specKeys 4294967295).m_json =
        .ok (.obj [("order", .num 4294967295),
          ("root", .obj [("successors", .obj [("a", .num 1)]), ("total_count", .num 1)])]) :=
  ⟨by decide, rfl, rfl⟩

/-- C4 (failing input): on a chain of order `2^32 - 1`, `minWordCount` is `0`, the
walk of `nextWord` takes no step and the word `x` is sampled from the trie field
itself, although the words `["a"]` lead to no node at all. -/
theorem nextWord_root_sample :
    (∀ r, nextWord specKeys rootTerminalChain ["a"] r = .ok ("x", rootTerminalChain)) ∧
      rootTerminalChain.terminal specKeys (lastWords (rootTerminalChain.m_order + 1) ["a"]) =
        none := by
  refine ⟨fun r => ?_, rfl⟩
  have h : nextWord specKeys rootTerminalChain ["a"] r =
      (match scan (r % 1) [("x", .num 1)] 0 with
        | .error e => .error e
        | .ok w => .ok (w, rootTerminalChain)) := rfl
  rw [h, Nat.mod_one]
  rfl

/-- C5: for a successors map with distinct keys and numeric values whose sum is the
32-bit total count `T`, and every successor `w` with count `c`, exactly `c` of the
target positions `p` in `[0, T)` make the cumulative scan of `nextWord` return `w`. -/
theorem scan_proportional (m : Members) (T : Nat) (w : String) (c : Nat)
    (hkeys : (m.map Prod.fst).Nodup) (hnum : ∀ kv, kv ∈ m → ∃ n, kv.2 = .num n)
    (hsum : sumCounts m = T) (hT : T < 4294967296) (hw : find w m = some (.num c)) :
    (List.range T).countP (fun p => decide (scanJson p (.obj m) = .ok w)) = c := by
  rw [List.range_eq_range', ← hsum]
  exact scan_count w m 0 c hkeys hnum (by omega) hw

/-- C5, witness: the successors `A:1, B:3` give `A` for 1 of the 4 positions and `B`
for 3 of them. -/
theorem scan_proportional_witness :
    (List.range 4).countP
        (fun p => decide (scanJson p (.obj [("A", .num 1), ("B", .num 3)]) = .ok "A")) = 1 ∧
      (List.range 4).countP
        (fun p => decide (scanJson p (.obj [("A", .num 1), ("B", .num 3)]) = .ok "B")) = 3 :=
  ⟨scan_proportional [("A", .num 1), ("B", .num 3)] 4 "A" 1 (by decide)
      (by intro kv h; simp at h; rcases h with rfl | rfl <;> exact ⟨_, rfl⟩) rfl (by decide) rfl,
    scan_proportional [("A", .num 1), ("B", .num 3)] 4 "B" 3 (by decide)
      (by intro kv h; simp at h; rcases h with rfl | rfl <;> exact ⟨_, rfl⟩) rfl (by decide) rfl⟩

/-- C6 (failing input): at order `2^32 - 1`, `minWordCount` is `0`, so the empty word
sequence, shorter than `order + 1`, is not answered with the empty string: on the empty
chain `nextWord` goes on to read a count that is `null` and throws. -/
theorem nextWord_short_max_order :
    ([] : List String).length < 4294967295 + 1 ∧
      ∀ r, nextWord specKeys (constructEmpty specKeys 4294967295) [] r = .error .typeError :=
  ⟨by decide, fun _ => rfl⟩

/-- C7 (failing input): on the empty chain of order `2^32 - 1`, to which nothing was
appended, `nextWord` on `2^32` words throws instead of returning the empty string. -/
theorem nextWord_unknown_max_order :
    4294967295 + 1 ≤ (List.replicate 4294967296 "a").length ∧
      ∀ r, nextWord specKeys (constructEmpty specKeys 4294967295)
        (List.replicate 4294967296 "a") r = .error .typeError :=
  ⟨by rw [List.length_replicate], fun r => nextWord_empty_max_order _ r⟩

/-- C8 (amended): on a well-formed chain of order at most `2^32 - 3`, for a word
sequence of at most `2^32` words, `append` returns and removes no trie entry: every
path of keys that led to an entry before leads to one afterwards; and the total count
of a context and the count of a successor, read as 32-bit unsigned values, are not
smaller afterwards unless the counter wraps, that is whenever the value before plus the
number of new observations stays below `2^32`. -/
theorem append_monotone (K : Keys) (c : Chain) (ws : List String) (hwf : WellFormed K c)
    (hord : c.m_order + 2 < 4294967296) (hlen : ws.length ≤ 4294967296) :
    ∃ c1, append K c ws = .ok c1 ∧ Keeps c.m_json c1.m_json ∧
      ∀ (k : List String) (w : String), k.length = c.m_order + 1 →
        (c.totalCount K k + contextCount c.m_order ws k < 4294967296 →
          c.totalCount K k ≤ c1.totalCount K k) ∧
        (c.succCount K k w + successorCount c.m_order ws k w < 4294967296 →
          c.succCount K k w ≤ c1.succCount K k w) := by
  by_cases hshort : ws.length < c.m_order + 2
  · exact ⟨c, append_short hord hshort, keeps_refl _,
      fun k w _ => ⟨fun _ => le_refl _, fun _ => le_refl _⟩⟩
  · obtain ⟨c1, happ, hcounts⟩ := append_effect hwf (by omega) hlen
    refine ⟨c1, happ, append_keeps happ, fun k w hk => ?_⟩
    obtain ⟨h1, h2⟩ := hcounts k w hk
    constructor
    · intro hlt
      rw [h2, Nat.mod_eq_of_lt hlt]
      omega
    · intro hlt
      rw [h1, Nat.mod_eq_of_lt hlt]
      omega

/-- C8, witness: `append(["a","b","d"])` on the chain of order 1 that already holds
`a b c` and `a b d`. -/
theorem append_monotone_witness :
    ∃ c1, append specKeys scenarioChain ["a", "b", "d"] = .ok c1 ∧
      Keeps scenarioChain.m_json c1.m_json ∧
      ∀ (k : List String) (w : String), k.length = scenarioChain.m_order + 1 →
        (scenarioChain.totalCount specKeys k +
            contextCount scenarioChain.m_order ["a", "b", "d"] k < 4294967296 →
          scenarioChain.totalCount specKeys k ≤ c1.totalCount specKeys k) ∧
        (scenarioChain.succCount specKeys k w +
            successorCount scenarioChain.m_order ["a", "b", "d"] k w < 4294967296 →
          scenarioChain.succCount specKeys k w ≤ c1.succCount specKeys k w) :=
  append_monotone specKeys scenarioChain ["a", "b", "d"]
    (reachable_wellFormed (by decide) scenario_reachable) (by decide) (by decide)

/-- C8, counterexample: on the chain of order 0 whose counters for the context `a`
stand at `2^32 - 1`, `append(["a","b"])` returns with both the total count of `a` and
the count of its successor `b` smaller than before. -/
theorem append_decreases :
    ∃ c1, append specKeys fullChain ["a", "b"] = .ok c1 ∧
      c1.totalCount specKeys ["a"] < fullChain.totalCount specKeys ["a"] ∧
      c1.succCount specKeys ["a"] "b" < fullChain.succCount specKeys ["a"] "b" :=
  ⟨_, rfl, by decide, by decide⟩

/-- C9 (amended): at order 1, after `append(["a","b","c"])` and `append(["a","b","d"])`
the chain holds one terminal node, for the two-word context `a b`, with total count 2
and successors `c:1, d:1`. -/
theorem scenario_terminal :
    scenario specKeys = .ok scenarioChain ∧
      ∃ node, scenarioChain.terminal specKeys ["a", "b"] = some node ∧
        totalOf specKeys node = some (.num 2) ∧
        successorsOf specKeys node = some (.obj [("c", .num 1), ("d", .num 1)]) :=
  ⟨rfl, _, rfl, rfl, rfl⟩

/-- C9, counterexample: in that chain the node of the context `a` is an inner node
without a total count and without successors, and there is no node for the context
`b`. -/
theorem scenario_context_a :
    ∃ c node, scenario specKeys = .ok c ∧ c.terminal specKeys ["a"] = some node ∧
      totalOf specKeys node = none ∧ successorsOf specKeys node = none ∧
      c.terminal specKeys ["b"] = none :=
  ⟨_, _, rfl, rfl, rfl, rfl, rfl⟩

/-- C10 (amended): in the chain of C9, `nextWord(["a"])` returns the empty string for
every random draw, one word being fewer than the `order + 1 = 2` words of a context,
and `nextWord(["a","b"])` returns `c` for an even and `d` for an odd draw. -/
theorem scenario_nextWord :
    scenario specKeys = .ok scenarioChain ∧
      ∀ r, nextWord specKeys scenarioChain ["a"] r = .ok ("", scenarioChain) ∧
        nextWord specKeys scenarioChain ["a", "b"] r =
          .ok (if r % 2 = 0 then "c" else "d", scenarioChain) := by
  refine ⟨rfl, fun r => ⟨rfl, ?_⟩⟩
  have h : nextWord specKeys scenarioChain ["a", "b"] r =
      (match scan (r % 2) [("c", .num 1), ("d", .num 1)] 0 with
        | .error e => .error e
        | .ok w => .ok (w, scenarioChain)) := rfl
  rw [h]
  rcases Nat.mod_two_eq_zero_or_one r with h2 | h2 <;> rw [h2] <;> rfl

/-- C10, counterexample: in the chain of C9, `nextWord(["a"])` returns `b` for no
random draw. -/
theorem scenario_nextWord_not_b :
    ∃ c, scenario specKeys = .ok c ∧
      ∀ r c1, nextWord specKeys c ["a"] r ≠ .ok ("b", c1) := by
  refine ⟨scenarioChain, rfl, fun r c1 h => ?_⟩
  have h1 : nextWord specKeys scenarioChain ["a"] r = .ok ("", scenarioChain) := rfl
  rw [h1] at h
  simp only [Except.ok.injEq, Prod.mk.injEq] at h
  exact absurd h.1 (by decide)

/-- C11 (failing input): a document whose order field is `2^32` is loaded, as a chain
of order 0: the order is converted to 32 bits before it is compared with the largest
32-bit value, so the comparison never fails. -/
theorem load_big_order :
    bigOrderDoc.find? specKeys.order = some (.num 4294967296) ∧ 4294967295 < 4294967296 ∧
      load specKeys bigOrderDoc = .ok ⟨bigOrderDoc, 0⟩ :=
  ⟨rfl, by decide, rfl⟩

/-- C12 (amended): for every chain that `MarkovChain(order)` followed by `append`
calls produces and whose trie field is present and not empty, loading the saved
document succeeds and gives the very same chain. -/
theorem load_toText (K : Keys) (N : Nat) (c : Chain) (h : Reachable K N c)
    (hN : N < 4294967296)
    (hne : ∃ root, c.m_json.find? K.words = some root ∧ root.empty = false) :
    load K (toText c) = .ok c := by
  obtain ⟨ho, top, htop, hs, hord⟩ := reachable_docTop h
  obtain ⟨root, hroot, hempty⟩ := hne
  obtain ⟨doc, order⟩ := c
  simp only at ho htop hroot
  subst ho htop
  have hroot1 : find K.words top = some root := hroot
  have hm : order % 4294967296 = order := Nat.mod_eq_of_lt hN
  simp only [toText, load, Json.members, hord, Option.getD_some, insert_self hs hord,
    Json.toUInt32, Json.isNumberUnsigned, hroot1, hempty, insert_self hs hroot1, hm]
  rw [if_neg (by simp; omega)]
  simp

/-- C12, witness: the chain of order 1 after `append(["a","b","c"])` and
`append(["a","b","d"])`. -/
theorem load_toText_witness : load specKeys (toText scenarioChain) = .ok scenarioChain :=
  load_toText specKeys 1 scenarioChain scenario_reachable (by decide) ⟨_, rfl, rfl⟩

/-- C12, counterexample: the chain `MarkovChain(1)` with no `append` call is saved
without a trie field, and loading that document ends in the exit for a chain without
elements. -/
theorem load_toText_empty :
    Reachable specKeys 1 (constructEmpty specKeys 1) ∧
      load specKeys (toText (constructEmpty specKeys 1)) = .error .noElements :=
  ⟨⟨[], rfl⟩, rfl⟩

/-- C13 (failing input): on a chain of order 0 whose total count for the context `a`
is `2^32 + 1`, more than `2^31 - 1`, `nextWord(["a"])` does not end in the
arithmetic-range error: the count is converted to 32 bits before it is checked, so it is
read as `1`, and the successor `b` is returned for every draw. -/
theorem nextWord_big_total :
    bigTotalChain.terminal specKeys (lastWords (bigTotalChain.m_order + 1) ["a"]) =
        some (.obj [("successors", .obj [("b", .num 4294967297)]),
          ("total_count", .num 4294967297)]) ∧
      totalOf specKeys (.obj [("successors", .obj [("b", .num 4294967297)]),
          ("total_count", .num 4294967297)]) = some (.num 4294967297) ∧
      2147483647 < 4294967297 ∧
      ∀ r, nextWord specKeys bigTotalChain ["a"] r = .ok ("b", bigTotalChain) := by
  refine ⟨rfl, rfl, by decide, fun r => ?_⟩
  have h : nextWord specKeys bigTotalChain ["a"] r =
      (match scan (r % 1) [("b", .num 4294967297)] 0 with
        | .error e => .error e
        | .ok w => .ok (w, bigTotalChain)) := rfl
  rw [h, Nat.mod_one]
  rfl

/-- C14: in every chain that `MarkovChain(N)` followed by returning `append` calls
produces, no call of `nextWord`, for any words and any value of `std::rand()`, ends in
the `exit` behind the cumulative scan; and when no context was recorded more than
`2^31 - 1` times, a call whose last `minWordCount` words lead to a node returns a word
that is a key of the successors of that node. -/
theorem nextWord_scan_returns (K : Keys) (N : Nat) (seqs : List (List String)) (c : Chain)
    (h : appendAll K (constructEmpty K N) seqs = .ok c) (ws : List String) (r : Nat) :
    nextWord K c ws r ≠ .error .impossible ∧
      ((∀ k, totalHits N seqs k ≤ 2147483647) → ∀ node, minWordCount N ≤ ws.length →
        c.terminal K (lastWords (minWordCount N) ws) = some node →
        ∃ w c1 sm, nextWord K c ws r = .ok (w, c1) ∧
          successorsOf K node = some (.obj sm) ∧ w ∈ sm.map Prod.fst) :=
  ⟨nextWord_ne_impossible h ws r,
    fun hc node hlen hnode => nextWord_matched h hc ws r node hlen hnode⟩

/-- C14, witness: after `append(["a","b","c"])` and `append(["a","b","d"])` at order 1,
where each context was recorded at most twice, `nextWord(["a","b"])` with the value 0
does not end in the `exit` and returns a successor of the context `a b`. -/
theorem nextWord_scan_returns_witness :
    nextWord specKeys scenarioChain ["a", "b"] 0 ≠ .error .impossible ∧
      ∃ w c1 sm, nextWord specKeys scenarioChain ["a", "b"] 0 = .ok (w, c1) ∧
        successorsOf specKeys (.obj [("successors", .obj [("c", .num 1), ("d", .num 1)]),
          ("total_count", .num 2)]) = some (.obj sm) ∧ w ∈ sm.map Prod.fst :=
  ⟨(nextWord_scan_returns specKeys 1 [["a", "b", "c"], ["a", "b", "d"]] scenarioChain rfl
      ["a", "b"] 0).1,
    (nextWord_scan_returns specKeys 1 [["a", "b", "c"], ["a", "b", "d"]] scenarioChain rfl
      ["a", "b"] 0).2
      (fun k => Nat.le_trans (List.countP_le_length (fun p : List String × String => decide (p.1 = k)))
        (show (recordedAll 1 [["a", "b", "c"], ["a", "b", "d"]]).length ≤ 2147483647 by
          decide))
      _ (by decide) rfl⟩

/-- C15 (amended): for successors `(w_0,c_0),...,(w_{n-1},c_{n-1})` in iteration order,
all numbers, and every target position `p`, the scan of `nextWord` returns `w_j` for
the least index `j` whose running sum exceeds `p`, and ends in the internal-consistency
error exactly when no running sum exceeds `p`; the running sum after index `j` is
`c_0 + ... + c_j` in 32-bit arithmetic, which is the plain sum whenever all counts
together stay below `2^32`. -/
theorem scan_least_index (m : Members) (p : Nat) (hnum : ∀ x, x ∈ m → ∃ n, x.2 = .num n) :
    (∀ j kv, m[j]? = some kv → (∀ i, i < j → runningSum m i ≤ p) → p < runningSum m j →
        scanJson p (.obj m) = .ok kv.1) ∧
      (scanJson p (.obj m) = .error .impossible ↔ ∀ j, j < m.length → runningSum m j ≤ p) ∧
      (sumCounts m < 4294967296 → ∀ j, runningSum m j = sumCounts (m.take (j + 1))) :=
  ⟨fun j kv hj hle hp => scan_first m 0 j kv hnum hj hle hp, scan_impossible_iff m 0 hnum,
    fun h j => runningSum_exact h j⟩

/-- C15, witness: with successors `A:1, B:3` the position 2 selects `B`. -/
theorem scan_least_index_witness :
    scanJson 2 (.obj [("A", .num 1), ("B", .num 3)]) = .ok "B" :=
  (scan_least_index [("A", .num 1), ("B", .num 3)] 2
    (by intro x h; simp at h; rcases h with rfl | rfl <;> exact ⟨_, rfl⟩)).1 1 ("B", .num 3) rfl
    (by intro i hi; interval_cases i; decide) (by decide)

/-- C15, counterexample: with successors `a:1, b:2^32-1, c:5` and total count 5, the
draw 1 gives the position 1; the least index whose sum of counts exceeds 1 is that of
`b`, but `nextWord` returns `c`, the running sum having wrapped to 0 at `b`. -/
theorem scan_wrapped_sum :
    successorsOf specKeys (.obj [("successors",
        .obj [("a", .num 1), ("b", .num 4294967295), ("c", .num 5)]), ("total_count", .num 5)]) =
        some (.obj [("a", .num 1), ("b", .num 4294967295), ("c", .num 5)]) ∧
      ¬ 1 % 5 < sumCounts ([("a", .num 1), ("b", .num 4294967295), ("c", .num 5)].take 1) ∧
      1 % 5 < sumCounts ([("a", .num 1), ("b", .num 4294967295), ("c", .num 5)].take 2) ∧
      nextWord specKeys wrapScanChain ["a"] 1 = .ok ("c", wrapScanChain) :=
  ⟨rfl, by decide, by decide, rfl⟩

/-- C16 (amended): in every chain that `MarkovChain(N)` followed by returning `append`
calls produces, a successor `w` has an entry at a context `k` exactly if the calls
recorded `w` after `k` at least once; the value stored is the number of those
recordings modulo `2^32`, and so at least 1 whenever the pair was recorded fewer than
`2^32` times. -/
theorem successor_value (K : Keys) (N : Nat) (seqs : List (List String)) (c : Chain)
    (h : appendAll K (constructEmpty K N) seqs = .ok c) (k : List String)
    (hk : k.length = (N + 1) % 4294967296) (w : String) :
    (succEntry K c.m_json k w ≠ none ↔ 1 ≤ succHits N seqs k w) ∧
      ∀ v, succEntry K c.m_json k w = some v →
        v = .num (succHits N seqs k w % 4294967296) ∧
          (succHits N seqs k w < 4294967296 → ∃ n, v = .num n ∧ 1 ≤ n) := by
  have hpres := ((reachable_counts h k hk).2.2 w).2
  refine ⟨hpres, fun v hv => ?_⟩
  have hval := reachable_succ_value h k hk w v hv
  refine ⟨hval, fun hlt => ⟨_, hval, ?_⟩⟩
  have hpos : 1 ≤ succHits N seqs k w := hpres.1 (by rw [hv]; exact fun hx => by cases hx)
  rw [Nat.mod_eq_of_lt hlt]
  exact hpos

/-- C16, witness: after `append(["a","b","c"])` and `append(["a","b","d"])` at order 1
the successor `c` of the context `a b` was recorded once and holds the value 1. -/
theorem successor_value_witness :
    succEntry specKeys scenarioChain.m_json ["a", "b"] "c" = some (.num 1) ∧
      (.num 1 : Json) = .num (succHits 1 [["a", "b", "c"], ["a", "b", "d"]] ["a", "b"] "c"
        % 4294967296) :=
  ⟨rfl, ((successor_value specKeys 1 [["a", "b", "c"], ["a", "b", "d"]] scenarioChain rfl
    ["a", "b"] (by decide) "c").2 (.num 1) rfl).1⟩

/-- C16, counterexample: at order 0, `2^32` calls `append(["a","a"])` leave the
successor `a` of the context `a` with the stored value 0. -/
theorem successor_value_zero :
    Reachable specKeys 0 (chainA 0 0) ∧
      succEntry specKeys (chainA 0 0).m_json ["a"] "a" = some (.num 0) := by
  refine ⟨⟨List.replicate (4294967295 + 1) ["a", "a"], ?_⟩, rfl⟩
  rw [List.replicate_succ, appendAll, empty_to_A]
  exact chainA_steps 4294967295 1 1 (by norm_num) (by norm_num)

/-- C17: for every chain and all word sequences `xs` and `ys`, `append(xs)` followed by
`append(ys)` returns exactly if `append(ys)` followed by `append(xs)` does, and the two
results hold the same record: the same order, the same contexts, the same total
counts, the same successors and the same successor counts.  On a well-formed chain of
order at most `2^32 - 3` both return for sequences of at most `2^32` words. -/
theorem append_order_irrelevant (K : Keys) (c : Chain) (xs ys : List String) :
    ((∃ c2, appendAll K c [xs, ys] = .ok c2) ↔ ∃ d2, appendAll K c [ys, xs] = .ok d2) ∧
      (∀ c2 d2, appendAll K c [xs, ys] = .ok c2 → appendAll K c [ys, xs] = .ok d2 →
        SameRecord K ((c.m_order + 1) % 4294967296) c2 d2) ∧
      (WellFormed K c → c.m_order + 2 < 4294967296 → xs.length ≤ 4294967296 →
        ys.length ≤ 4294967296 → ∃ c2, appendAll K c [xs, ys] = .ok c2) :=
  ⟨by rw [two_appends_iff, two_appends_iff, and_comm],
    fun _ _ h1 h2 => two_appends_same h1 h2,
    fun hwf hord hx hy => two_appends_total hwf hord hx hy⟩

/-- C17, witness: on the empty chain of order 1, `append(["a","b","c"])` and
`append(["a","b","d"])` give the chain of C9 in either order. -/
theorem append_order_irrelevant_witness :
    appendAll specKeys (constructEmpty specKeys 1) [["a", "b", "c"], ["a", "b", "d"]] =
        .ok scenarioChain ∧
      appendAll specKeys (constructEmpty specKeys 1) [["a", "b", "d"], ["a", "b", "c"]] =
        .ok scenarioChain ∧
      SameRecord specKeys ((1 + 1) % 4294967296) scenarioChain scenarioChain :=
  ⟨rfl, rfl, (append_order_irrelevant specKeys (constructEmpty specKeys 1) ["a", "b", "c"]
    ["a", "b", "d"]).2.1 scenarioChain scenarioChain rfl rfl⟩

/-- C18 (failing input): at order `2^32 - 1`, `append` of `2^32 + 1` words `x` returns
after one iteration that records `x` at the trie field itself; then `nextWord([])`
returns the non-empty word `x` although the empty sequence has fewer than `order + 1`
words. -/
theorem nextWord_nonempty_short_max_order :
    append specKeys (constructEmpty specKeys 4294967295) (List.replicate 4294967297 "x") =
        .ok rootTerminalChain ∧
      (∀ r, nextWord specKeys rootTerminalChain [] r = .ok ("x", rootTerminalChain)) ∧
      ¬ (4294967295 + 1 ≤ ([] : List String).length) :=
  ⟨append_wrap_max_order _ (List.length_replicate _ _)
      (by rw [List.getElem?_replicate]; exact if_pos (by decide)),
    nextWord_rootTerminal, by decide⟩

/-- C19 (amended): whenever `nextWord` returns, the order is unchanged, every context
keeps its node, every total count and successor count is unchanged, and on a chain
whose document already has a trie field the chain and its saved text are identical to
what they were; on a chain without a trie field the only possible change is that the
trie field is created as `null`, which changes the saved text. -/
theorem nextWord_frame (K : Keys) (c c1 : Chain) (top : Members) (ws : List String) (r : Nat)
    (w : String) (htop : c.m_json = .obj top) (hs : SortedKeys top)
    (h : nextWord K c ws r = .ok (w, c1)) :
    c1.m_order = c.m_order ∧
      (find K.words top ≠ none → c1 = c ∧ toText c1 = toText c) ∧
      (∀ k, k ≠ [] → c1.terminal K k = c.terminal K k) ∧
      (∀ k v, c1.totalCount K k = c.totalCount K k ∧ c1.succCount K k v = c.succCount K k v) ∧
      (c1 = c ∨ toText c1 = .obj (insert K.words .null top)) := by
  rcases nextWord_state htop hs h with rfl | ⟨hnone, rfl⟩
  · exact ⟨rfl, fun _ => ⟨rfl, rfl⟩, fun _ _ => rfl, fun _ _ => ⟨rfl, rfl⟩, Or.inl rfl⟩
  · obtain ⟨doc, order⟩ := c
    simp only at htop
    subst htop
    refine ⟨rfl, fun hne => absurd hnone hne, fun k hk => ?_, fun k v => ?_, Or.inr rfl⟩
    · rw [terminal_fresh_field k hk, terminal_no_field k hnone]
    · have h1 : Chain.terminal K ⟨.obj top, order⟩ k = none := terminal_no_field k hnone
      unfold Chain.terminal at h1
      unfold Chain.totalCount Chain.succCount totalAt succAt
      simp only [h1]
      cases k with
      | nil =>
        simp only [walk_cons_of_members (j := .obj (insert K.words .null top)) rfl,
          find_insert_self]
        exact ⟨rfl, rfl⟩
      | cons a as =>
        have h2 := @terminal_fresh_field K top order (a :: as)
          (by simp)
        unfold Chain.terminal at h2
        simp only [h2]
        exact ⟨trivial, trivial⟩

/-- C19, witness: `nextWord(["a"])` on the freshly constructed chain of order 0. -/
theorem nextWord_frame_witness :
    (⟨.obj [("order", .num 0), ("root", .null)], 0⟩ : Chain).m_order =
        (constructEmpty specKeys 0).m_order ∧
      (find specKeys.words [("order", .num 0)] ≠ none →
        (⟨.obj [("order", .num 0), ("root", .null)], 0⟩ : Chain) = constructEmpty specKeys 0 ∧
          toText ⟨.obj [("order", .num 0), ("root", .null)], 0⟩ =
            toText (constructEmpty specKeys 0)) ∧
      (∀ k, k ≠ [] →
        Chain.terminal specKeys ⟨.obj [("order", .num 0), ("root", .null)], 0⟩ k =
          (constructEmpty specKeys 0).terminal specKeys k) ∧
      (∀ k v,
        Chain.totalCount specKeys ⟨.obj [("order", .num 0), ("root", .null)], 0⟩ k =
            (constructEmpty specKeys 0).totalCount specKeys k ∧
          Chain.succCount specKeys ⟨.obj [("order", .num 0), ("root", .null)], 0⟩ k v =
            (constructEmpty specKeys 0).succCount specKeys k v) ∧
      ((⟨.obj [("order", .num 0), ("root", .null)], 0⟩ : Chain) = constructEmpty specKeys 0 ∨
        toText ⟨.obj [("order", .num 0), ("root", .null)], 0⟩ =
          .obj (insert specKeys.words .null [("order", .num 0)])) :=
  nextWord_frame specKeys (constructEmpty specKeys 0) _ [("order", .num 0)] ["a"] 0 "" rfl
    (by simp [SortedKeys]) rfl

/-- C19, counterexample: on the freshly constructed chain of order 0, `nextWord(["a"])`
returns the empty string and leaves a document with a `null` trie field, which is not
the document the chain had before. -/
theorem nextWord_creates_field :
    ∃ c1, (∀ r, nextWord specKeys (constructEmpty specKeys 0) ["a"] r = .ok ("", c1)) ∧
      toText c1 = .obj [("order", .num 0), ("root", .null)] ∧
      toText (constructEmpty specKeys 0) = .obj [("order", .num 0)] ∧
      toText c1 ≠ toText (constructEmpty specKeys 0) := by
  refine ⟨⟨.obj [("order", .num 0), ("root", .null)], 0⟩, fun r => rfl, rfl, rfl, fun h => ?_⟩
  have h1 : toText (constructEmpty specKeys 0) = .obj [("order", .num 0)] := rfl
  have h2 : toText ⟨.obj [("order", .num 0), ("root", .null)], 0⟩ =
      .obj [("order", .num 0), ("root", .null)] := rfl
  rw [h1, h2] at h
  simp at h

/-- C20 (failing input): on the empty chain of order `2^32 - 1` the prefix walk of
`nextWord([])` takes no step and ends at the trie field, which `jWords()` has just
created as `null`: it has no total count, the count lookup throws and so does
`nextWord`. -/
theorem nextWord_count_missing_max_order :
    Reachable specKeys 4294967295 (constructEmpty specKeys 4294967295) ∧
      walk (lastWords (minWordCount 4294967295) []) .null = some .null ∧
      totalOf specKeys .null = none ∧
      readCount specKeys .null = .error .typeError ∧
      ∀ r, nextWord specKeys (constructEmpty specKeys 4294967295) [] r =
        .error .typeError :=
  ⟨⟨[], rfl⟩, rfl, rfl, rfl, fun r => nextWord_empty_max_order [] r⟩

end MarkovChain
